import Mathlib

/-!
# Verification of the `pairtree` B-tree package

A shallow embedding of `src/pairtree/pairtree.go`: an in-memory B-tree over
key/value pairs with copy-on-write cloning and cursors.

Modelling conventions:
* `pair.Pair` is modelled as a `key`/`value` record over `Nat`; the zero value
  `pair.Pair{}` (the "absent" sentinel `nilPair`) is `⟨0, 0⟩`.
* The injected comparator `less` is threaded through the node-level functions
  exactly as in the source; the theorems instantiate it with `lessP`, the
  key order (mirroring the package default, `bytes.Compare` on keys).
* Go slices become `List`s; `insertAt`/`removeAt`/`pop`/`truncate` become
  `insertNth`/`eraseIdx`/`dropLast`/`take`.  The slice-hygiene writes of
  `nilPair`/`nil` into vacated slots have no observable content and are
  dropped.
* Pointer mutation is modelled functionally: `mutableFor`/`mutableChild` are
  identities on values (the COW aliasing behaviour itself is modelled
  separately by an explicit heap in the `Heap` section below).
* `node.remove` is not structurally recursive (`growChildAndRemove` re-enters
  `remove` on the same node after restructuring), so the recursive node
  functions take an explicit fuel parameter; the tree-level wrappers supply a
  fuel that provably dominates the recursion depth, so the model computes
  exactly what the Go code computes.
-/

set_option maxHeartbeats 1000000

namespace Pairtree

/-- Model of `pair.Pair`: an opaque item with a key (compared) and a value. -/
structure Pair where
  key : Nat
  val : Nat
  deriving DecidableEq, Repr

/-- `nilPair = pair.Pair{}`, the absent sentinel. -/
def nilPair : Pair := ⟨0, 0⟩

instance : Inhabited Pair := ⟨nilPair⟩

/-- The canonical comparator used by the tree handle (the package default
orders by key, via `bytes.Compare`). -/
def lessP (a b : Pair) : Bool := a.key < b.key

/-- Key order as a `Prop`. -/
def keyLt (a b : Pair) : Prop := a.key < b.key

instance : DecidableRel keyLt := fun a b => by unfold keyLt; infer_instance

theorem keyLt_trans : Transitive keyLt := by
  intro a b c hab hbc
  exact Nat.lt_trans hab hbc

theorem lessP_iff (a b : Pair) : lessP a b = true ↔ keyLt a b := by
  simp [lessP, keyLt]

/-- The binary-search loop of `items.find` (`pairtree.go:176-190`):
`i, j := 0, len(s); for i < j { h := i+(j-i)/2; if !less(item, s[h]) { i = h+1 } else { j = h } }`. -/
def findLoop (s : List Pair) (less : Pair → Pair → Bool) (item : Pair) (i j : Nat) : Nat :=
  if i < j then
    let h := i + (j - i) / 2
    if !(less item (s.getD h nilPair)) then findLoop s less item (h + 1) j
    else findLoop s less item i h
  else i
termination_by j - i
decreasing_by
  · have h1 : i + (j - i) / 2 < j := by omega
    omega
  · have h1 : i ≤ i + (j - i) / 2 := by omega
    have h2 : i + (j - i) / 2 < j := by omega
    omega

/-- `items.find`: binary search; returns `(index, found)` where `index` is the
insertion point and `found` reports an exact (comparator-equality) match just
before it. -/
def Items.find (s : List Pair) (item : Pair) (less : Pair → Pair → Bool) : Nat × Bool :=
  let i := findLoop s less item 0 s.length
  if i > 0 && !(less (s.getD (i - 1) nilPair) item) then (i - 1, true)
  else (i, false)

/-- `node`: a list of items and a (possibly empty) list of children
(`pairtree.go:239-243`). -/
inductive Node : Type where
  | mk : List Pair → List Node → Node
  deriving Repr

instance : Inhabited Node := ⟨.mk [] []⟩

def Node.items : Node → List Pair
  | .mk its _ => its

def Node.children : Node → List Node
  | .mk _ chs => chs

@[simp] theorem Node.items_mk (its : List Pair) (chs : List Node) :
    (Node.mk its chs).items = its := rfl

@[simp] theorem Node.children_mk (its : List Pair) (chs : List Node) :
    (Node.mk its chs).children = chs := rfl

theorem Node.eta (n : Node) : Node.mk n.items n.children = n := by
  cases n; rfl

/-- Child access `n.children[i]` (total, defaulting; all uses are in range on
well-formed trees). -/
def Node.childD (n : Node) (i : Nat) : Node := n.children.getD i default

/-- Number of nodes plus items in a subtree; used as a fuel bound. -/
def Node.size : Node → Nat
  | .mk its chs => 1 + its.length + (chs.attach.map (fun c => c.1.size)).sum
decreasing_by
  have := List.sizeOf_lt_of_mem c.2
  simp only [Node.mk.sizeOf_spec]
  omega

/-- Height of a subtree (leaves have height 1). -/
def Node.height : Node → Nat
  | .mk _ chs => 1 + (chs.attach.map (fun c => c.1.height)).foldr Nat.max 0
decreasing_by
  have := List.sizeOf_lt_of_mem c.2
  simp only [Node.mk.sizeOf_spec]
  omega

mutual
/-- In-order traversal of a subtree: for an internal node, the interleaving
`children[0], items[0], children[1], items[1], …, children[L]`. -/
def Node.inorder : Node → List Pair
  | .mk its [] => its
  | .mk its (c :: cs) => inter (c :: cs) its

/-- Interleave children before items; trailing children (resp. items) are
appended at the end. -/
def inter : List Node → List Pair → List Pair
  | [], its => its
  | c :: cs, [] => c.inorder ++ inter cs []
  | c :: cs, p :: ps => c.inorder ++ p :: inter cs ps
end

/-- Interleave aligned (equal-length) child/item pairs, child first. -/
def interP : List Node → List Pair → List Pair
  | c :: cs, p :: ps => c.inorder ++ p :: interP cs ps
  | _, _ => []

/-- `node.split(i)` (`pairtree.go:275-285`), functionally: returns the pivot
`items[i]`, the shrunken left node and the new right sibling. -/
def Node.splitAt (n : Node) (i : Nat) : Pair × Node × Node :=
  (n.items.getD i nilPair,
   Node.mk (n.items.take i) (n.children.take (i + 1)),
   Node.mk (n.items.drop (i + 1)) (n.children.drop (i + 1)))

/-- `node.maybeSplitChild(i, maxPairs)` (`pairtree.go:289-298`): if child `i`
holds `maxPairs` items, split it at `maxPairs/2`, hoisting the pivot into this
node. Returns whether a split occurred together with the updated node. -/
def Node.maybeSplitChild (n : Node) (i maxPairs : Nat) : Bool × Node :=
  if (n.childD i).items.length < maxPairs then (false, n)
  else
    let first := n.childD i
    let s := first.splitAt (maxPairs / 2)
    (true, Node.mk (n.items.insertIdx i s.1)
                   ((n.children.set i s.2.1).insertIdx (i + 1) s.2.2))

/-- `node.insert(item, maxPairs, less)` (`pairtree.go:303-328`), fuel-indexed.
Returns the replaced item (or `nilPair`) and the updated subtree. -/
def Node.insertF : Nat → Node → Pair → Nat → (Pair → Pair → Bool) → Pair × Node
  | 0, n, _, _, _ => (nilPair, n)
  | fuel + 1, n, item, maxPairs, less =>
    let f := Items.find n.items item less
    let i := f.1
    if f.2 then
      (n.items.getD i nilPair, Node.mk (n.items.set i item) n.children)
    else if n.children.isEmpty then
      (nilPair, Node.mk (n.items.insertIdx i item) n.children)
    else
      let ms := n.maybeSplitChild i maxPairs
      let n1 := ms.2
      let desc : Nat → Pair × Node := fun j =>
        let r := Node.insertF fuel (n1.childD j) item maxPairs less
        (r.1, Node.mk n1.items (n1.children.set j r.2))
      if ms.1 then
        let inTree := n1.items.getD i nilPair
        if less item inTree then desc i
        else if less inTree item then desc (i + 1)
        else (inTree, Node.mk (n1.items.set i item) n1.children)
      else desc i

/-- `node.get(key, less)` (`pairtree.go:331-339`), fuel-indexed. -/
def Node.getF : Nat → Node → Pair → (Pair → Pair → Bool) → Pair
  | 0, _, _, _ => nilPair
  | fuel + 1, n, key, less =>
    let f := Items.find n.items key less
    if f.2 then n.items.getD f.1 nilPair
    else if n.children.isEmpty then nilPair
    else Node.getF fuel (n.childD f.1) key less

/-- `min(n)` (`pairtree.go:342-353`): descend along first children. -/
def Node.minF : Nat → Node → Pair
  | 0, _ => nilPair
  | fuel + 1, n =>
    if n.children.isEmpty then n.items.headD nilPair
    else Node.minF fuel (n.childD 0)

/-- `max(n)` (`pairtree.go:356-367`): descend along last children. -/
def Node.maxF : Nat → Node → Pair
  | 0, _ => nilPair
  | fuel + 1, n =>
    if n.children.isEmpty then n.items.getLastD nilPair
    else Node.maxF fuel (n.childD (n.children.length - 1))

/-- `toRemove` (`pairtree.go:370-376`): what `node.remove` removes. -/
inductive ToRemove : Type where
  | removePair
  | removeMin
  | removeMax
  deriving DecidableEq, Repr

/-- The restructuring part of `node.growChildAndRemove(i, …)`
(`pairtree.go:446-479`): steal from the left sibling, else from the right
sibling, else merge with the right sibling.  (The final `n.remove(...)` call of
the source is performed by the caller, `Node.removeF`.) -/
def Node.growChild (n : Node) (i minPairs : Nat) : Node :=
  if 0 < i ∧ minPairs < (n.childD (i - 1)).items.length then
    -- steal from left child
    let child := n.childD i
    let stealFrom := n.childD (i - 1)
    let stolen := stealFrom.items.getLastD nilPair
    let stealFrom' := Node.mk stealFrom.items.dropLast
      (if stealFrom.children.isEmpty then stealFrom.children else stealFrom.children.dropLast)
    let child' := Node.mk (child.items.insertIdx 0 (n.items.getD (i - 1) nilPair))
      (if stealFrom.children.isEmpty then child.children
       else child.children.insertIdx 0 (stealFrom.children.getLastD default))
    Node.mk (n.items.set (i - 1) stolen)
      ((n.children.set i child').set (i - 1) stealFrom')
  else if i < n.items.length ∧ minPairs < (n.childD (i + 1)).items.length then
    -- steal from right child
    let child := n.childD i
    let stealFrom := n.childD (i + 1)
    let stolen := stealFrom.items.headD nilPair
    let stealFrom' := Node.mk (stealFrom.items.drop 1)
      (if stealFrom.children.isEmpty then stealFrom.children else stealFrom.children.drop 1)
    let child' := Node.mk (child.items ++ [n.items.getD i nilPair])
      (if stealFrom.children.isEmpty then child.children
       else child.children ++ [stealFrom.children.headD default])
    Node.mk (n.items.set i stolen)
      ((n.children.set i child').set (i + 1) stealFrom')
  else
    -- merge with right child
    let i := if n.items.length ≤ i then i - 1 else i
    let child := n.childD i
    let mergeChild := n.childD (i + 1)
    let child' := Node.mk (child.items ++ n.items.getD i nilPair :: mergeChild.items)
      (child.children ++ mergeChild.children)
    Node.mk (n.items.eraseIdx i) ((n.children.set i child').eraseIdx (i + 1))

/-- `node.remove(item, minPairs, typ, less)` (`pairtree.go:379-425`),
fuel-indexed; the `growChildAndRemove` branch restructures via
`Node.growChild` and re-enters `remove` on the restructured node, exactly as
the source does. Returns the removed item (or `nilPair`) and the updated
subtree. -/
def Node.removeF : Nat → Node → Pair → Nat → ToRemove → (Pair → Pair → Bool) → Pair × Node
  | 0, n, _, _, _, _ => (nilPair, n)
  | fuel + 1, n, item, minPairs, typ, less =>
    let pre : (Pair × Node) ⊕ (Nat × Bool) :=
      match typ with
      | .removeMax =>
        if n.children.isEmpty then
          .inl (n.items.getLastD nilPair, Node.mk n.items.dropLast n.children)
        else .inr (n.items.length, false)
      | .removeMin =>
        if n.children.isEmpty then
          .inl (n.items.headD nilPair, Node.mk (n.items.eraseIdx 0) n.children)
        else .inr (0, false)
      | .removePair =>
        let f := Items.find n.items item less
        if n.children.isEmpty then
          .inl (if f.2 then (n.items.getD f.1 nilPair, Node.mk (n.items.eraseIdx f.1) n.children)
                else (nilPair, n))
        else .inr f
    match pre with
    | .inl r => r
    | .inr (i, found) =>
      if (n.childD i).items.length ≤ minPairs then
        Node.removeF fuel (n.growChild i minPairs) item minPairs typ less
      else
        let child := n.childD i
        if found then
          let out := n.items.getD i nilPair
          let r := Node.removeF fuel child nilPair minPairs .removeMax less
          (out, Node.mk (n.items.set i r.1) (n.children.set i r.2))
        else
          let r := Node.removeF fuel child item minPairs typ less
          (r.1, Node.mk n.items (n.children.set i r.2))

/-! ## Tree handle (`PairTree`, `pairtree.go:571-577`)

The comparator field is instantiated with `lessP` (see the header); the COW
context is semantically inert in the functional model and is treated by the
explicit heap model below. -/

/-- `PairTree`: degree, live item count and root. -/
structure PairTree where
  degree : Nat
  length : Nat
  root : Option Node
  deriving Repr

/-- `New(less)` with the default degree 9 (`pairtree.go:111-127`); generalized
over the degree, which the struct supports (`defaultDegrees = 9`). -/
def newTree (degree : Nat) : PairTree := ⟨degree, 0, none⟩

/-- `t.maxPairs() = degree*2 - 1` (`pairtree.go:622-624`). -/
def PairTree.maxPairs (t : PairTree) : Nat := t.degree * 2 - 1

/-- `t.minPairs() = degree - 1` (`pairtree.go:628-630`). -/
def PairTree.minPairs (t : PairTree) : Nat := t.degree - 1

/-- `t.Len()` (`pairtree.go:811-813`). -/
def PairTree.lenT (t : PairTree) : Nat := t.length

/-- The stored items in comparator order. -/
def PairTree.toList (t : PairTree) : List Pair :=
  match t.root with
  | none => []
  | some r => r.inorder

/-- `t.ReplaceOrInsert(item)` (`pairtree.go:653-677`).  `none` models the
`panic("nil item being added to BTree")`; otherwise returns the replaced item
(or `nilPair`) and the updated tree. -/
def PairTree.replaceOrInsert (t : PairTree) (item : Pair) : Option (Pair × PairTree) :=
  if item = nilPair then none
  else some <|
    match t.root with
    | none =>
      (nilPair, { t with root := some (Node.mk [item] []), length := t.length + 1 })
    | some r =>
      let r1 :=
        if t.maxPairs ≤ r.items.length then
          let s := r.splitAt (t.maxPairs / 2)
          Node.mk [s.1] [s.2.1, s.2.2]
        else r
      let res := r1.insertF (r1.height + 1) item t.maxPairs lessP
      if res.1 = nilPair then
        (res.1, { t with root := some res.2, length := t.length + 1 })
      else
        (res.1, { t with root := some res.2 })

/-- `t.deletePair(item, typ, less)` (`pairtree.go:697-712`). -/
def PairTree.deletePair (t : PairTree) (item : Pair) (typ : ToRemove) : Pair × PairTree :=
  match t.root with
  | none => (nilPair, t)
  | some r =>
    if r.items.length = 0 then (nilPair, t)
    else
      let res := r.removeF (2 * r.height + 1) item t.minPairs typ lessP
      let root' :=
        if res.2.items.length == 0 && !res.2.children.isEmpty then res.2.childD 0 else res.2
      if res.1 = nilPair then (res.1, { t with root := some root' })
      else (res.1, { t with root := some root', length := t.length - 1 })

/-- `t.Delete(item)` (`pairtree.go:681-683`). -/
def PairTree.delete (t : PairTree) (item : Pair) : Pair × PairTree :=
  t.deletePair item .removePair

/-- `t.DeleteMin()` (`pairtree.go:687-689`). -/
def PairTree.deleteMin (t : PairTree) : Pair × PairTree :=
  t.deletePair nilPair .removeMin

/-- `t.DeleteMax()` (`pairtree.go:693-695`). -/
def PairTree.deleteMax (t : PairTree) : Pair × PairTree :=
  t.deletePair nilPair .removeMax

/-- `t.Get(key)` (`pairtree.go:788-793`). -/
def PairTree.get (t : PairTree) (key : Pair) : Pair :=
  match t.root with
  | none => nilPair
  | some r => r.getF (r.height + 1) key lessP

/-- `t.Min()` (`pairtree.go:796-798`). -/
def PairTree.minT (t : PairTree) : Pair :=
  match t.root with
  | none => nilPair
  | some r => r.minF (r.height + 1)

/-- `t.Max()` (`pairtree.go:801-803`). -/
def PairTree.maxT (t : PairTree) : Pair :=
  match t.root with
  | none => nilPair
  | some r => r.maxF (r.height + 1)

/-- `t.Has(key)` (`pairtree.go:806-808`). -/
def PairTree.has (t : PairTree) (key : Pair) : Bool :=
  t.get key ≠ nilPair

/-! ## Sorted-list reference model

`insKey`/`eraseKey`/`lookupKey` are the sorted-association-list operations the
tree refines: upsert, delete-by-key, and lookup-by-key. -/

/-- Upsert into a key-sorted list. -/
def insKey (p : Pair) : List Pair → List Pair
  | [] => [p]
  | x :: xs =>
    if p.key < x.key then p :: x :: xs
    else if x.key = p.key then p :: xs
    else x :: insKey p xs

/-- Remove the entry with `p`'s key, if any. -/
def eraseKey (p : Pair) : List Pair → List Pair
  | [] => []
  | x :: xs => if x.key = p.key then xs else x :: eraseKey p xs

/-- Find the entry with `p`'s key, else `nilPair`. -/
def lookupKey (p : Pair) : List Pair → Pair
  | [] => nilPair
  | x :: xs => if x.key = p.key then x else lookupKey p xs

/-- Key-sortedness (strict: implies distinct keys). -/
def sortedK (l : List Pair) : Prop := l.Chain' keyLt

instance : DecidablePred sortedK := fun l => by unfold sortedK; infer_instance

/-! ## Binary search: `Items.find` meets its linear specification -/

theorem findLoop_inv (l : List Pair) (item : Pair)
    (hmono : ∀ k k', k ≤ k' → k' < l.length →
      keyLt item (l.getD k nilPair) → keyLt item (l.getD k' nilPair)) :
    ∀ d i j, j - i ≤ d → i ≤ j → j ≤ l.length →
    (∀ k < i, ¬ keyLt item (l.getD k nilPair)) →
    (∀ k, j ≤ k → k < l.length → keyLt item (l.getD k nilPair)) →
    i ≤ findLoop l lessP item i j ∧ findLoop l lessP item i j ≤ j ∧
    (∀ k < findLoop l lessP item i j, ¬ keyLt item (l.getD k nilPair)) ∧
    (∀ k, findLoop l lessP item i j ≤ k → k < l.length →
      keyLt item (l.getD k nilPair)) := by
  intro d
  induction d with
  | zero =>
    intro i j hd hij hjl hlow hhigh
    have hji : j = i := by omega
    subst hji
    rw [findLoop]
    simp only [Nat.lt_irrefl, if_false]
    exact ⟨Nat.le_refl _, Nat.le_refl _, hlow, hhigh⟩
  | succ d ih =>
    intro i j hd hij hjl hlow hhigh
    rw [findLoop]
    by_cases hlt : i < j
    · simp only [hlt, if_true]
      set h := i + (j - i) / 2 with hh
      have hhi : i ≤ h := by omega
      have hhj : h < j := by omega
      by_cases hp : keyLt item (l.getD h nilPair)
      · have hb : lessP item (l.getD h nilPair) = true := by
          rw [lessP_iff]; exact hp
        simp only [hb, Bool.not_true, if_false, reduceIte]
        obtain ⟨h1, h2, h3, h4⟩ := ih i h (by omega) hhi (by omega) hlow
          (fun k hk hkl => hmono h k hk hkl hp)
        exact ⟨h1, le_trans h2 (Nat.le_of_lt hhj), h3, h4⟩
      · have hb : lessP item (l.getD h nilPair) = false := by
          rw [← Bool.not_eq_true, lessP_iff]; exact hp
        simp only [hb, Bool.not_false, if_true, reduceIte]
        have hlow' : ∀ k < h + 1, ¬ keyLt item (l.getD k nilPair) := by
          intro k hk hcon
          have hhlen : h < l.length := by omega
          by_cases hkh : k = h
          · subst hkh; exact hp hcon
          · exact hp (hmono k h (by omega) hhlen hcon)
        obtain ⟨h1, h2, h3, h4⟩ := ih (h + 1) j (by omega) (by omega) hjl hlow' hhigh
        exact ⟨le_trans (Nat.le_succ_of_le hhi) h1, h2, h3, h4⟩
    · simp only [hlt, if_false]
      have hji : j = i := by omega
      subst hji
      exact ⟨Nat.le_refl _, Nat.le_refl _, hlow, hhigh⟩

instance : IsTrans Pair keyLt := ⟨fun _ _ _ hab hbc => keyLt_trans hab hbc⟩

theorem sortedK_getD_lt {l : List Pair} (hs : sortedK l) {a b : Nat}
    (hab : a < b) (hb : b < l.length) :
    keyLt (l.getD a nilPair) (l.getD b nilPair) := by
  have hp : l.Pairwise keyLt := (List.chain'_iff_pairwise).1 hs
  have ha : a < l.length := Nat.lt_trans hab hb
  rw [List.getD_eq_getElem l nilPair ha, List.getD_eq_getElem l nilPair hb]
  exact List.pairwise_iff_getElem.1 hp a b ha hb hab

/-- Specification of `items.find` on a key-sorted list: the returned index
splits the list into keys below `item` and keys above, with `found` reporting
an exact key match at the index. -/
theorem find_spec (l : List Pair) (item : Pair) (hs : sortedK l) :
    ((Items.find l item lessP).2 = true →
      (Items.find l item lessP).1 < l.length ∧
      (l.getD (Items.find l item lessP).1 nilPair).key = item.key ∧
      (∀ k < (Items.find l item lessP).1, keyLt (l.getD k nilPair) item) ∧
      (∀ k, (Items.find l item lessP).1 < k → k < l.length →
        keyLt item (l.getD k nilPair))) ∧
    ((Items.find l item lessP).2 = false →
      (Items.find l item lessP).1 ≤ l.length ∧
      (∀ k < (Items.find l item lessP).1, keyLt (l.getD k nilPair) item) ∧
      (∀ k, (Items.find l item lessP).1 ≤ k → k < l.length →
        keyLt item (l.getD k nilPair))) := by
  have hmono : ∀ k k', k ≤ k' → k' < l.length →
      keyLt item (l.getD k nilPair) → keyLt item (l.getD k' nilPair) := by
    intro k k' hkk hk' hlt
    rcases Nat.lt_or_ge k k' with h | h
    · exact keyLt_trans hlt (sortedK_getD_lt hs h hk')
    · have : k = k' := by omega
      subst this; exact hlt
  obtain ⟨h1, h2, h3, h4⟩ := findLoop_inv l item hmono l.length 0 l.length
    (by omega) (by omega) (le_refl _) (by omega) (by intro k hk hkl; omega)
  set r := findLoop l lessP item 0 l.length with hr
  unfold Items.find
  rw [← hr]
  by_cases hc : (decide (r > 0) && !(lessP (l.getD (r - 1) nilPair) item)) = true
  · simp only [hc, if_true]
    have hcc := hc
    simp only [Bool.and_eq_true, decide_eq_true_eq, Bool.not_eq_true'] at hcc
    obtain ⟨hr0, hb⟩ := hcc
    constructor
    · intro _
      have hnl : ¬ keyLt (l.getD (r - 1) nilPair) item := by
        rw [← lessP_iff, hb]; simp
      have hge : ¬ keyLt item (l.getD (r - 1) nilPair) := h3 (r - 1) (by omega)
      have hkey : (l.getD (r - 1) nilPair).key = item.key := by
        unfold keyLt at hnl hge; omega
      refine ⟨by omega, hkey, ?_, ?_⟩
      · intro k hk
        have hk' : k < r - 1 := hk
        have hlt := sortedK_getD_lt hs (a := k) (b := r - 1) hk' (by omega)
        unfold keyLt at hlt ⊢; omega
      · intro k hk hkl
        have hk' : r - 1 < k := hk
        exact h4 k (by omega) hkl
    · intro hf
      simp at hf
  · simp only [hc, if_false]
    constructor
    · intro hf; simp at hf
    · intro _
      have hcc : 0 < r → lessP (l.getD (r - 1) nilPair) item = true := by
        intro hr0
        by_cases hb : lessP (l.getD (r - 1) nilPair) item = true
        · exact hb
        · exfalso
          apply hc
          simp only [Bool.and_eq_true, decide_eq_true_eq, Bool.not_eq_true']
          exact ⟨hr0, by simpa using hb⟩
      refine ⟨h2, ?_, fun k hk hkl => h4 k hk hkl⟩
      intro k hk
      have hk' : k < r := hk
      have hr0 : 0 < r := by omega
      have hlast : keyLt (l.getD (r - 1) nilPair) item := (lessP_iff _ _).1 (hcc hr0)
      rcases Nat.lt_or_ge k (r - 1) with hkr | hkr
      · have hlt := sortedK_getD_lt hs (a := k) (b := r - 1) hkr (by omega)
        exact keyLt_trans hlt hlast
      · have : k = r - 1 := by omega
        subst this; exact hlast

/-! ## Generic list decomposition helpers -/

theorem list_insertIdx_parts {α : Type _} (l : List α) (i : Nat) (x : α)
    (h : i ≤ l.length) : l.insertIdx i x = l.take i ++ x :: l.drop i := by
  induction l generalizing i with
  | nil =>
    have : i = 0 := by simpa using h
    subst this; rfl
  | cons a as ih =>
    cases i with
    | zero => rfl
    | succ i =>
      have h' : i ≤ as.length := by simpa using h
      simp [List.insertIdx_succ_cons, ih i h']

theorem list_set_parts {α : Type _} (l : List α) (i : Nat) (x : α)
    (h : i < l.length) : l.set i x = l.take i ++ x :: l.drop (i + 1) := by
  rw [List.set_eq_take_append_cons_drop, if_pos h]

theorem list_eraseIdx_parts {α : Type _} (l : List α) (i : Nat) :
    l.eraseIdx i = l.take i ++ l.drop (i + 1) :=
  List.eraseIdx_eq_take_drop_succ l i

theorem list_drop_parts {α : Type _} [Inhabited α] (l : List α) (i : Nat)
    (h : i < l.length) : l.drop i = l.getD i default :: l.drop (i + 1) := by
  rw [List.getD_eq_getElem l default h]
  exact List.drop_eq_getElem_cons h

theorem take_set_self {α : Type _} (l : List α) (i : Nat) (x : α) :
    (l.set i x).take i = l.take i := by
  induction l generalizing i with
  | nil => simp
  | cons a as ih =>
    cases i with
    | zero => simp
    | succ i => simp [List.set_cons_succ, ih]

theorem drop_set_self {α : Type _} (l : List α) (i : Nat) (x : α)
    (h : i < l.length) : (l.set i x).drop i = x :: l.drop (i + 1) := by
  induction l generalizing i with
  | nil => simp at h
  | cons a as ih =>
    cases i with
    | zero => simp
    | succ i =>
      have h' : i < as.length := by simpa using h
      simp [List.set_cons_succ, ih i h']

/-! ## Decomposition of the in-order traversal -/

@[simp] theorem inorder_leaf (its : List Pair) : (Node.mk its []).inorder = its := by
  rw [Node.inorder]

theorem inorder_internal (its : List Pair) (chs : List Node) (h : chs ≠ []) :
    (Node.mk its chs).inorder = inter chs its := by
  cases chs with
  | nil => exact absurd rfl h
  | cons c cs => rw [Node.inorder]

@[simp] theorem interP_nil_left (its : List Pair) : interP [] its = [] := by
  cases its <;> rfl

@[simp] theorem interP_nil_right (cs : List Node) : interP cs [] = [] := by
  cases cs <;> rfl

@[simp] theorem interP_cons (c : Node) (cs : List Node) (p : Pair) (ps : List Pair) :
    interP (c :: cs) (p :: ps) = c.inorder ++ p :: interP cs ps := rfl

@[simp] theorem inter_nil (its : List Pair) : inter [] its = its := by
  rw [inter]

theorem inter_cons (c : Node) (cs : List Node) (p : Pair) (ps : List Pair) :
    inter (c :: cs) (p :: ps) = c.inorder ++ p :: inter cs ps := by
  rw [inter]

theorem inter_single (c : Node) : inter [c] [] = c.inorder := by
  rw [inter]
  simp

/-- Split an aligned interleaving at index `i`. -/
theorem inter_decomp (i : Nat) : ∀ (cs : List Node) (its : List Pair),
    cs.length = its.length + 1 → i ≤ its.length →
    inter cs its = interP (cs.take i) (its.take i) ++ inter (cs.drop i) (its.drop i) := by
  induction i with
  | zero => intro cs its _ _; simp
  | succ i ih =>
    intro cs its hlen hi
    cases cs with
    | nil => simp at hlen
    | cons c cs =>
      cases its with
      | nil => simp at hi
      | cons p ps =>
        rw [inter_cons, List.take_succ_cons, List.take_succ_cons,
          List.drop_succ_cons, List.drop_succ_cons, interP_cons,
          ih cs ps (by simpa using hlen) (by simpa using hi)]
        simp

/-- The aligned tail starting at a child, for `i < its.length`. -/
theorem inter_step (cs : List Node) (its : List Pair) (i : Nat)
    (hlen : cs.length = its.length + 1) (hi : i < its.length) :
    inter (cs.drop i) (its.drop i) =
      (cs.getD i default).inorder ++
        its.getD i nilPair :: inter (cs.drop (i + 1)) (its.drop (i + 1)) := by
  rw [list_drop_parts cs i (by omega), list_drop_parts its i hi, inter_cons]
  rfl

/-- The aligned tail at the final child. -/
theorem inter_last (cs : List Node) (its : List Pair)
    (hlen : cs.length = its.length + 1) :
    inter (cs.drop its.length) (its.drop its.length) =
      (cs.getD its.length default).inorder := by
  rw [list_drop_parts cs its.length (by omega)]
  have h1 : cs.drop (its.length + 1) = [] := by
    apply List.drop_eq_nil_of_le; omega
  have h2 : its.drop its.length = [] := by
    apply List.drop_eq_nil_of_le; omega
  rw [h1, h2, inter_single]

/-! ## Structural invariants (claim C1's conditions, `pairtree.go:236-238`) -/

/-- The `node` length invariant: every node has either no children or exactly
`len(items)+1` children, recursively. -/
def Node.childOkB : Node → Bool
  | .mk its chs =>
    (chs.isEmpty || (chs.length == its.length + 1)) &&
      chs.attach.all (fun c => c.1.childOkB)
decreasing_by
  have := List.sizeOf_lt_of_mem c.2
  simp only [Node.mk.sizeOf_spec]
  omega

/-- Every node of the subtree (the root of the subtree included) holds between
`minP` and `maxP` items. -/
def Node.boundedB (n : Node) (minP maxP : Nat) : Bool :=
  match n with
  | .mk its chs =>
    (decide (minP ≤ its.length) && decide (its.length ≤ maxP)) &&
      chs.attach.all (fun c => c.1.boundedB minP maxP)
decreasing_by
  have := List.sizeOf_lt_of_mem c.2
  simp only [Node.mk.sizeOf_spec]
  omega

theorem childOkB_iff (its : List Pair) (chs : List Node) :
    (Node.mk its chs).childOkB = true ↔
      (chs = [] ∨ chs.length = its.length + 1) ∧ ∀ c ∈ chs, c.childOkB = true := by
  rw [Node.childOkB]
  simp only [Bool.and_eq_true, Bool.or_eq_true, List.all_eq_true, List.mem_attach,
    true_implies, List.isEmpty_iff, beq_iff_eq]
  constructor
  · rintro ⟨h1, h2⟩
    exact ⟨h1, fun c hc => h2 ⟨c, hc⟩⟩
  · rintro ⟨h1, h2⟩
    exact ⟨h1, fun c => h2 c.1 c.2⟩

theorem boundedB_iff (its : List Pair) (chs : List Node) (minP maxP : Nat) :
    (Node.mk its chs).boundedB minP maxP = true ↔
      (minP ≤ its.length ∧ its.length ≤ maxP) ∧
        ∀ c ∈ chs, c.boundedB minP maxP = true := by
  rw [Node.boundedB]
  simp only [Bool.and_eq_true, decide_eq_true_eq, List.all_eq_true, List.mem_attach,
    true_implies]
  constructor
  · rintro ⟨h1, h2⟩
    exact ⟨h1, fun c hc => h2 ⟨c, hc⟩⟩
  · rintro ⟨h1, h2⟩
    exact ⟨h1, fun c => h2 c.1 c.2⟩

theorem boundedB_self {n : Node} {minP maxP : Nat}
    (h : n.boundedB minP maxP = true) :
    minP ≤ n.items.length ∧ n.items.length ≤ maxP := by
  cases n with
  | mk its chs => exact ((boundedB_iff its chs minP maxP).1 h).1

theorem boundedB_children {n : Node} {minP maxP : Nat}
    (h : n.boundedB minP maxP = true) :
    ∀ c ∈ n.children, c.boundedB minP maxP = true := by
  cases n with
  | mk its chs => exact ((boundedB_iff its chs minP maxP).1 h).2

theorem boundedB_mk_of {its : List Pair} {chs : List Node} {minP maxP : Nat}
    (h1 : minP ≤ its.length) (h2 : its.length ≤ maxP)
    (h3 : ∀ c ∈ chs, c.boundedB minP maxP = true) :
    (Node.mk its chs).boundedB minP maxP = true :=
  (boundedB_iff its chs minP maxP).2 ⟨⟨h1, h2⟩, h3⟩

theorem isEmpty_false_of_ne_nil {α : Type _} {l : List α} (h : l ≠ []) :
    l.isEmpty = false := by
  cases l with
  | nil => exact absurd rfl h
  | cons a as => rfl

/-- Height balance: the children of every node in the subtree all have the
same height.  (An auxiliary invariant of the B-tree algorithms: the
borrow/merge rebalancing of `remove` moves children between siblings and
relies on uniform depth.) -/
def Node.balB : Node → Bool
  | .mk _ chs =>
    (chs.all (fun c => c.height == (chs.headD default).height)) &&
      chs.attach.all (fun c => c.1.balB)
decreasing_by
  have := List.sizeOf_lt_of_mem c.2
  simp only [Node.mk.sizeOf_spec]
  omega

theorem balB_iff (its : List Pair) (chs : List Node) :
    (Node.mk its chs).balB = true ↔
      (∀ c ∈ chs, ∀ d ∈ chs, c.height = d.height) ∧
        ∀ c ∈ chs, c.balB = true := by
  rw [Node.balB]
  simp only [Bool.and_eq_true, List.all_eq_true, List.mem_attach,
    true_implies, beq_iff_eq]
  constructor
  · rintro ⟨h1, h2⟩
    refine ⟨?_, fun c hc => h2 ⟨c, hc⟩⟩
    intro c hc d hd
    rw [h1 c hc, h1 d hd]
  · rintro ⟨h1, h2⟩
    refine ⟨?_, fun c => h2 c.1 c.2⟩
    intro c hc
    cases chs with
    | nil => simp at hc
    | cons c0 cs0 => exact h1 c hc c0 (by simp)

theorem bal_children {n : Node} (h : n.balB = true) :
    ∀ c ∈ n.children, c.balB = true := by
  cases n with
  | mk its chs => exact ((balB_iff its chs).1 h).2

theorem bal_agree {n : Node} (h : n.balB = true) :
    ∀ c ∈ n.children, ∀ d ∈ n.children, c.height = d.height := by
  cases n with
  | mk its chs => exact ((balB_iff its chs).1 h).1

theorem bal_leaf (its : List Pair) : (Node.mk its []).balB = true := by
  rw [balB_iff]
  simp

/-! ## Height facts -/

theorem le_foldr_max {x : Nat} : ∀ {l : List Nat}, x ∈ l → x ≤ l.foldr Nat.max 0 := by
  intro l
  induction l with
  | nil => intro h; simp at h
  | cons a as ih =>
    intro h
    rcases List.mem_cons.1 h with h | h
    · subst h
      simp only [List.foldr_cons]
      exact Nat.le_max_left _ _
    · have := ih h
      simp only [List.foldr_cons]
      exact le_trans this (Nat.le_max_right _ _)

theorem foldr_max_le {b : Nat} : ∀ {l : List Nat}, (∀ x ∈ l, x ≤ b) → l.foldr Nat.max 0 ≤ b := by
  intro l
  induction l with
  | nil => intro _; simp
  | cons a as ih =>
    intro h
    simp only [List.foldr_cons]
    have h1 := h a (by simp)
    have h2 := ih (fun x hx => h x (by simp [hx]))
    exact Nat.max_le.2 ⟨h1, h2⟩

theorem height_mk (its : List Pair) (chs : List Node) :
    (Node.mk its chs).height = 1 + ((chs.map Node.height).foldr Nat.max 0) := by
  rw [Node.height]
  rw [List.attach_map_val chs Node.height]

theorem height_pos (n : Node) : 1 ≤ n.height := by
  cases n with
  | mk its chs => rw [height_mk]; omega

theorem height_child_lt {c : Node} {n : Node} (h : c ∈ n.children) :
    c.height < n.height := by
  cases n with
  | mk its chs =>
    rw [height_mk]
    have : c.height ∈ chs.map Node.height := List.mem_map_of_mem Node.height h
    have := le_foldr_max this
    simp only [Node.children_mk] at h
    omega

theorem childD_mem {n : Node} {i : Nat} (h : i < n.children.length) :
    n.childD i ∈ n.children := by
  unfold Node.childD
  rw [List.getD_eq_getElem n.children default h]
  exact List.getElem_mem h

theorem height_childD_lt {n : Node} {i : Nat} (h : i < n.children.length) :
    (n.childD i).height < n.height :=
  height_child_lt (childD_mem h)

/-- Height is monotone under taking a sub-collection of children. -/
theorem height_mk_le_of_sublist (its its' : List Pair) {chs chs' : List Node}
    (h : List.Sublist chs' chs) :
    (Node.mk its' chs').height ≤ (Node.mk its chs).height := by
  rw [height_mk, height_mk]
  have hsub : List.Sublist (chs'.map Node.height) (chs.map Node.height) := h.map Node.height
  have : (chs'.map Node.height).foldr Nat.max 0 ≤ (chs.map Node.height).foldr Nat.max 0 := by
    apply foldr_max_le
    intro x hx
    exact le_foldr_max (hsub.mem hx)
  omega

/-- Height ignores the items of the top node. -/
theorem height_mk_irrel (its its' : List Pair) (chs : List Node) :
    (Node.mk its chs).height = (Node.mk its' chs).height := by
  rw [height_mk, height_mk]

/-- The height of a node whose children all have the same height. -/
theorem height_of_uniform (its : List Pair) {chs : List Node} {h0 : Nat}
    (hne : chs ≠ []) (hall : ∀ c ∈ chs, c.height = h0) :
    (Node.mk its chs).height = 1 + h0 := by
  rw [height_mk]
  have h1 : (chs.map Node.height).foldr Nat.max 0 ≤ h0 := by
    apply foldr_max_le
    intro x hx
    rcases List.mem_map.1 hx with ⟨c, hc, rfl⟩
    exact le_of_eq (hall c hc)
  have h2 : h0 ≤ (chs.map Node.height).foldr Nat.max 0 := by
    cases chs with
    | nil => exact absurd rfl hne
    | cons c0 cs0 =>
      have : c0.height ∈ ((c0 :: cs0).map Node.height) := by simp
      have := le_foldr_max this
      rw [hall c0 (by simp)] at this
      exact this
  omega

/-- A node is a leaf exactly when its height is 1. -/
theorem height_eq_one_iff (n : Node) : n.height = 1 ↔ n.children = [] := by
  cases n with
  | mk its chs =>
    cases chs with
    | nil => simp [height_mk]
    | cons c0 cs0 =>
      simp only [Node.children_mk]
      constructor
      · intro h
        have := height_child_lt (c := c0) (n := Node.mk its (c0 :: cs0)) (by simp)
        have := height_pos c0
        omega
      · intro h
        simp at h

/-! ## Sorted-list model: algebra of `insKey`, `eraseKey`, `lookupKey` -/

/-- A key occurs in the list. -/
def hasKey (k : Nat) (l : List Pair) : Bool := l.any (fun x => x.key == k)

theorem sortedK_iff_pairwise {l : List Pair} : sortedK l ↔ l.Pairwise keyLt :=
  List.chain'_iff_pairwise

theorem sortedK_append {A B : List Pair} :
    sortedK (A ++ B) ↔ sortedK A ∧ sortedK B ∧ ∀ x ∈ A, ∀ y ∈ B, keyLt x y := by
  rw [sortedK_iff_pairwise, List.pairwise_append, ← sortedK_iff_pairwise,
    ← sortedK_iff_pairwise]

theorem sortedK_cons {p : Pair} {l : List Pair} :
    sortedK (p :: l) ↔ (∀ x ∈ l, keyLt p x) ∧ sortedK l := by
  rw [sortedK_iff_pairwise, List.pairwise_cons, ← sortedK_iff_pairwise]

@[simp] theorem hasKey_nil (k : Nat) : hasKey k [] = false := rfl

theorem hasKey_cons {k : Nat} {x : Pair} {xs : List Pair} :
    hasKey k (x :: xs) = (x.key == k || hasKey k xs) := by
  simp [hasKey]

theorem hasKey_append {k : Nat} {A B : List Pair} :
    hasKey k (A ++ B) = (hasKey k A || hasKey k B) := by
  simp [hasKey]

theorem hasKey_iff {k : Nat} {l : List Pair} :
    hasKey k l = true ↔ ∃ x ∈ l, x.key = k := by
  simp [hasKey]

theorem lookupKey_eq_nil_of_not_has {p : Pair} {l : List Pair}
    (h : hasKey p.key l = false) : lookupKey p l = nilPair := by
  induction l with
  | nil => rfl
  | cons x xs ih =>
    rw [hasKey_cons] at h
    simp only [Bool.or_eq_false_iff] at h
    rw [lookupKey, if_neg (by simpa using h.1)]
    exact ih h.2

theorem lookupKey_append_left {p : Pair} {A B : List Pair}
    (h : ∀ x ∈ A, x.key ≠ p.key) : lookupKey p (A ++ B) = lookupKey p B := by
  induction A with
  | nil => rfl
  | cons x xs ih =>
    rw [List.cons_append, lookupKey, if_neg (h x (by simp))]
    exact ih (fun y hy => h y (by simp [hy]))

theorem lookupKey_append_right {p : Pair} {C B : List Pair}
    (h : ∀ y ∈ B, y.key ≠ p.key) : lookupKey p (C ++ B) = lookupKey p C := by
  induction C with
  | nil =>
    rw [List.nil_append, lookupKey]
    apply lookupKey_eq_nil_of_not_has
    rw [← Bool.not_eq_true, hasKey_iff]
    rintro ⟨x, hx, hk⟩
    exact h x hx hk
  | cons x xs ih =>
    by_cases hx : x.key = p.key
    · rw [List.cons_append, lookupKey, if_pos hx, lookupKey, if_pos hx]
    · rw [List.cons_append, lookupKey, if_neg hx, lookupKey, if_neg hx, ih]

theorem insKey_append_left {p : Pair} {A B : List Pair}
    (h : ∀ x ∈ A, keyLt x p) : insKey p (A ++ B) = A ++ insKey p B := by
  induction A with
  | nil => rfl
  | cons x xs ih =>
    have hx : keyLt x p := h x (by simp)
    unfold keyLt at hx
    rw [List.cons_append, insKey, if_neg (by omega), if_neg (by omega)]
    rw [ih (fun y hy => h y (by simp [hy]))]
    rfl

theorem insKey_append_right {p : Pair} {C B : List Pair}
    (h : ∀ y ∈ B, keyLt p y) : insKey p (C ++ B) = insKey p C ++ B := by
  induction C with
  | nil =>
    rw [List.nil_append, insKey]
    cases B with
    | nil => rfl
    | cons y ys =>
      have hy : keyLt p y := h y (by simp)
      unfold keyLt at hy
      rw [insKey, if_pos (by omega)]
      rfl
  | cons x xs ih =>
    by_cases h1 : p.key < x.key
    · rw [List.cons_append, insKey, if_pos h1, insKey, if_pos h1]; rfl
    · by_cases h2 : x.key = p.key
      · rw [List.cons_append, insKey, if_neg h1, if_pos h2, insKey, if_neg h1, if_pos h2]
        rfl
      · rw [List.cons_append, insKey, if_neg h1, if_neg h2, insKey, if_neg h1, if_neg h2, ih]
        rfl

theorem eraseKey_append_left {p : Pair} {A B : List Pair}
    (h : ∀ x ∈ A, x.key ≠ p.key) : eraseKey p (A ++ B) = A ++ eraseKey p B := by
  induction A with
  | nil => rfl
  | cons x xs ih =>
    rw [List.cons_append, eraseKey, if_neg (h x (by simp))]
    rw [ih (fun y hy => h y (by simp [hy]))]
    rfl

theorem eraseKey_eq_self_of_not_has {p : Pair} {l : List Pair}
    (h : hasKey p.key l = false) : eraseKey p l = l := by
  induction l with
  | nil => rfl
  | cons x xs ih =>
    rw [hasKey_cons] at h
    simp only [Bool.or_eq_false_iff] at h
    rw [eraseKey, if_neg (by simpa using h.1), ih h.2]

theorem eraseKey_append_right {p : Pair} {C B : List Pair}
    (h : ∀ y ∈ B, y.key ≠ p.key) : eraseKey p (C ++ B) = eraseKey p C ++ B := by
  induction C with
  | nil =>
    have he : eraseKey p B = B := by
      apply eraseKey_eq_self_of_not_has
      rw [← Bool.not_eq_true, hasKey_iff]
      rintro ⟨x, hx, hk⟩
      exact h x hx hk
    simpa using he
  | cons x xs ih =>
    by_cases hx : x.key = p.key
    · rw [List.cons_append, eraseKey, if_pos hx, eraseKey, if_pos hx]
    · rw [List.cons_append, eraseKey, if_neg hx, eraseKey, if_neg hx, ih]
      rfl

theorem insKey_not_has {p : Pair} {l : List Pair} (h : hasKey p.key l = false) :
    (insKey p l).length = l.length + 1 := by
  induction l with
  | nil => rfl
  | cons x xs ih =>
    rw [hasKey_cons] at h
    simp only [Bool.or_eq_false_iff] at h
    have hx : x.key ≠ p.key := by simpa using h.1
    rw [insKey]
    by_cases h1 : p.key < x.key
    · rw [if_pos h1]; simp
    · rw [if_neg h1, if_neg hx]
      simp [ih h.2]

theorem insKey_has {p : Pair} {l : List Pair} (hs : sortedK l)
    (h : hasKey p.key l = true) : (insKey p l).length = l.length := by
  induction l with
  | nil => simp [hasKey] at h
  | cons x xs ih =>
    rw [insKey]
    by_cases h1 : p.key < x.key
    · exfalso
      rcases hasKey_iff.1 h with ⟨y, hy, hk⟩
      rcases List.mem_cons.1 hy with rfl | hy'
      · omega
      · have := (sortedK_cons.1 hs).1 y hy'
        unfold keyLt at this
        omega
    · by_cases h2 : x.key = p.key
      · rw [if_neg h1, if_pos h2]; simp
      · rw [if_neg h1, if_neg h2]
        have hxs : hasKey p.key xs = true := by
          rcases hasKey_iff.1 h with ⟨y, hy, hk⟩
          rcases List.mem_cons.1 hy with rfl | hy'
          · exact absurd hk h2
          · exact hasKey_iff.2 ⟨y, hy', hk⟩
        simp [ih (sortedK_cons.1 hs).2 hxs]

theorem lookupKey_mem {p : Pair} {l : List Pair} (h : hasKey p.key l = true) :
    lookupKey p l ∈ l ∧ (lookupKey p l).key = p.key := by
  induction l with
  | nil => simp [hasKey] at h
  | cons x xs ih =>
    rw [lookupKey]
    by_cases hx : x.key = p.key
    · rw [if_pos hx]; exact ⟨by simp, hx⟩
    · rw [if_neg hx]
      have hxs : hasKey p.key xs = true := by
        rcases hasKey_iff.1 h with ⟨y, hy, hk⟩
        rcases List.mem_cons.1 hy with rfl | hy'
        · exact absurd hk hx
        · exact hasKey_iff.2 ⟨y, hy', hk⟩
      obtain ⟨h1, h2⟩ := ih hxs
      exact ⟨by simp [h1], h2⟩

theorem mem_insKey {p x : Pair} {l : List Pair} (h : x ∈ insKey p l) :
    x = p ∨ x ∈ l := by
  induction l with
  | nil => simpa [insKey] using h
  | cons y ys ih =>
    rw [insKey] at h
    by_cases h1 : p.key < y.key
    · rw [if_pos h1] at h
      rcases List.mem_cons.1 h with rfl | h'
      · exact Or.inl rfl
      · exact Or.inr h'
    · by_cases h2 : y.key = p.key
      · rw [if_neg h1, if_pos h2] at h
        rcases List.mem_cons.1 h with rfl | h'
        · exact Or.inl rfl
        · exact Or.inr (by simp [h'])
      · rw [if_neg h1, if_neg h2] at h
        rcases List.mem_cons.1 h with rfl | h'
        · exact Or.inr (by simp)
        · rcases ih h' with h'' | h''
          · exact Or.inl h''
          · exact Or.inr (by simp [h''])

theorem mem_eraseKey {p x : Pair} {l : List Pair} (h : x ∈ eraseKey p l) :
    x ∈ l := by
  induction l with
  | nil => simpa [eraseKey] using h
  | cons y ys ih =>
    rw [eraseKey] at h
    by_cases h2 : y.key = p.key
    · rw [if_pos h2] at h
      exact by simp [h]
    · rw [if_neg h2] at h
      rcases List.mem_cons.1 h with rfl | h'
      · simp
      · simp [ih h']

theorem sortedK_insKey {p : Pair} {l : List Pair} (hs : sortedK l) :
    sortedK (insKey p l) := by
  induction l with
  | nil => simp [insKey, sortedK]
  | cons x xs ih =>
    obtain ⟨hx, hxs⟩ := sortedK_cons.1 hs
    rw [insKey]
    by_cases h1 : p.key < x.key
    · rw [if_pos h1]
      refine sortedK_cons.2 ⟨?_, hs⟩
      intro y hy
      rcases List.mem_cons.1 hy with rfl | hy'
      · exact h1
      · exact keyLt_trans (show keyLt p x from h1) (hx y hy')
    · by_cases h2 : x.key = p.key
      · rw [if_neg h1, if_pos h2]
        refine sortedK_cons.2 ⟨?_, hxs⟩
        intro y hy
        have := hx y hy
        unfold keyLt at this ⊢
        omega
      · rw [if_neg h1, if_neg h2]
        refine sortedK_cons.2 ⟨?_, ih hxs⟩
        intro y hy
        rcases mem_insKey hy with rfl | hy'
        · unfold keyLt; omega
        · exact hx y hy'

theorem sortedK_eraseKey {p : Pair} {l : List Pair} (hs : sortedK l) :
    sortedK (eraseKey p l) := by
  induction l with
  | nil => simpa [eraseKey] using hs
  | cons x xs ih =>
    obtain ⟨hx, hxs⟩ := sortedK_cons.1 hs
    rw [eraseKey]
    by_cases h2 : x.key = p.key
    · rw [if_pos h2]; exact hxs
    · rw [if_neg h2]
      exact sortedK_cons.2 ⟨fun y hy => hx y (mem_eraseKey hy), ih hxs⟩

theorem eraseKey_not_mem_len {p : Pair} {l : List Pair}
    (h : hasKey p.key l = true) : (eraseKey p l).length + 1 = l.length := by
  induction l with
  | nil => simp [hasKey] at h
  | cons x xs ih =>
    rw [eraseKey]
    by_cases h2 : x.key = p.key
    · rw [if_pos h2]; simp
    · rw [if_neg h2]
      have hxs : hasKey p.key xs = true := by
        rcases hasKey_iff.1 h with ⟨y, hy, hk⟩
        rcases List.mem_cons.1 hy with rfl | hy'
        · exact absurd hk h2
        · exact hasKey_iff.2 ⟨y, hy', hk⟩
      simp [← ih hxs]

theorem insKey_eq_cons_of_forall_gt {p : Pair} {B : List Pair}
    (h : ∀ y ∈ B, keyLt p y) : insKey p B = p :: B := by
  cases B with
  | nil => rfl
  | cons y ys =>
    have := h y (by simp)
    unfold keyLt at this
    rw [insKey, if_pos this]

theorem hasKey_false_of_bounds {p : Pair} {l : List Pair}
    (h : ∀ x ∈ l, x.key ≠ p.key) : hasKey p.key l = false := by
  rw [← Bool.not_eq_true, hasKey_iff]
  rintro ⟨x, hx, hk⟩
  exact h x hx hk

/-- Split facts out of a sorted list of the shape `X ++ p :: Y`. -/
theorem sorted_split {X Y : List Pair} {p : Pair}
    (hs : sortedK (X ++ p :: Y)) :
    (∀ x ∈ X, keyLt x p) ∧ (∀ y ∈ Y, keyLt p y) := by
  obtain ⟨_, hpy, hcross⟩ := sortedK_append.1 hs
  obtain ⟨hy, _⟩ := sortedK_cons.1 hpy
  exact ⟨fun x hx => hcross x hx p (by simp), hy⟩

/-! ## More interleaving lemmas -/

theorem items_sublist_inter : ∀ (cs : List Node) (its : List Pair),
    List.Sublist its (inter cs its) := by
  intro cs
  induction cs with
  | nil => intro its; simp
  | cons c cs ih =>
    intro its
    cases its with
    | nil => simp
    | cons p ps =>
      rw [inter_cons]
      have h1 : List.Sublist (p :: ps) (p :: inter cs ps) :=
        List.Sublist.cons₂ p (ih ps)
      exact h1.trans (List.sublist_append_right c.inorder _)

theorem items_sublist_inorder (n : Node) : List.Sublist n.items n.inorder := by
  cases n with
  | mk its chs =>
    cases chs with
    | nil => simp
    | cons c cs =>
      rw [inorder_internal its (c :: cs) (by simp)]
      exact items_sublist_inter (c :: cs) its

theorem sortedK_items {n : Node} (hs : sortedK n.inorder) : sortedK n.items := by
  rw [sortedK_iff_pairwise] at hs ⊢
  exact hs.sublist (items_sublist_inorder n)

theorem sortedK_of_sublist {l l' : List Pair} (h : List.Sublist l' l)
    (hs : sortedK l) : sortedK l' := by
  rw [sortedK_iff_pairwise] at hs ⊢
  exact hs.sublist h

/-- Extending an aligned item-terminated interleaving by one (child, item) step. -/
theorem interP_snoc (cs : List Node) (its : List Pair) (i : Nat)
    (hcs : i < cs.length) (hits : i < its.length) :
    interP (cs.take (i + 1)) (its.take (i + 1)) =
      interP (cs.take i) (its.take i) ++
        (cs.getD i default).inorder ++ [its.getD i nilPair] := by
  induction i generalizing cs its with
  | zero =>
    cases cs with
    | nil => simp at hcs
    | cons c cs' =>
      cases its with
      | nil => simp at hits
      | cons p ps => simp [interP]
  | succ i ih =>
    cases cs with
    | nil => simp at hcs
    | cons c cs' =>
      cases its with
      | nil => simp at hits
      | cons p ps =>
        rw [List.take_succ_cons, List.take_succ_cons, interP_cons,
          List.take_succ_cons, List.take_succ_cons, interP_cons,
          ih cs' ps (by simpa using hcs) (by simpa using hits)]
        simp [List.getD_cons_succ]

theorem getD_take {α : Type _} [Inhabited α] (l : List α) (i m : Nat)
    (h : i < m) : (l.take m).getD i default = l.getD i default := by
  have hlen : (l.take m).length = min m l.length := List.length_take _ _
  by_cases hl : i < l.length
  · rw [List.getD_eq_getElem _ default hl,
      List.getD_eq_getElem _ default (by omega)]
    exact List.getElem_take l
  · rw [List.getD_eq_default _ default (by omega),
      List.getD_eq_default _ default (by omega)]

theorem take_take_self {α : Type _} (l : List α) (i m : Nat) (h : i ≤ m) :
    (l.take m).take i = l.take i := by
  rw [List.take_take]
  congr 1
  omega

theorem drop_succ_set {α : Type _} (l : List α) (i : Nat) (x : α) :
    (l.set i x).drop (i + 1) = l.drop (i + 1) := by
  induction l generalizing i with
  | nil => simp
  | cons a as ih =>
    cases i with
    | zero => simp
    | succ i => simpa using ih i

theorem getD_set_self {α : Type _} [Inhabited α] (l : List α) (i : Nat) (x : α)
    (h : i < l.length) : (l.set i x).getD i default = x := by
  rw [List.getD_eq_getElem _ default (by simpa using h)]
  exact List.getElem_set_self _

theorem set_take_succ {α : Type _} (l : List α) (i : Nat) (a : α)
    (h : i < l.length) : (l.set i a).take (i + 1) = l.take i ++ [a] := by
  rw [list_set_parts _ _ _ h]
  have hlen : i + 1 = (l.take i).length + 1 := by
    simp [List.length_take]
    omega
  rw [hlen, List.take_append]
  simp

/-- `(l.set i a).insertIdx (i+1) b` in take/cons form. -/
theorem set_insertIdx_parts {α : Type _} (l : List α) (i : Nat) (a b : α)
    (h : i < l.length) :
    (l.set i a).insertIdx (i + 1) b = l.take i ++ a :: b :: l.drop (i + 1) := by
  rw [list_insertIdx_parts _ _ _ (by simp; omega), set_take_succ l i a h,
    drop_succ_set]
  simp

theorem mem_take_getD {α : Type _} [Inhabited α] {l : List α} {i : Nat} {x : α}
    (h : x ∈ l.take i) :
    ∃ k, k < i ∧ k < l.length ∧ l.getD k default = x := by
  obtain ⟨k, hk, hx⟩ := List.getElem_of_mem h
  have hlen : (l.take i).length = min i l.length := List.length_take _ _
  refine ⟨k, by omega, by omega, ?_⟩
  rw [List.getD_eq_getElem _ default (by omega)]
  rw [← hx]
  exact (List.getElem_take l).symm

theorem mem_drop_getD {α : Type _} [Inhabited α] {l : List α} {i : Nat} {x : α}
    (h : x ∈ l.drop i) :
    ∃ k, i ≤ k ∧ k < l.length ∧ l.getD k default = x := by
  obtain ⟨k, hk, hx⟩ := List.getElem_of_mem h
  have hlen : (l.drop i).length = l.length - i := List.length_drop _ _
  refine ⟨i + k, by omega, by omega, ?_⟩
  rw [List.getD_eq_getElem _ default (by omega)]
  rw [← hx]
  exact (List.getElem_drop l).symm

/-- `find` (found case) in take/drop form. -/
theorem find_found_parts {l : List Pair} {item : Pair} (hs : sortedK l)
    (hf : (Items.find l item lessP).2 = true) :
    (Items.find l item lessP).1 < l.length ∧
    (l.getD (Items.find l item lessP).1 nilPair).key = item.key ∧
    (∀ x ∈ l.take (Items.find l item lessP).1, keyLt x item) ∧
    (∀ x ∈ l.drop ((Items.find l item lessP).1 + 1), keyLt item x) := by
  obtain ⟨h1, h2, h3, h4⟩ := (find_spec l item hs).1 hf
  refine ⟨h1, h2, ?_, ?_⟩
  · intro x hx
    obtain ⟨k, hk, hkl, hget⟩ := mem_take_getD hx
    rw [← hget]
    exact h3 k hk
  · intro x hx
    obtain ⟨k, hk, hkl, hget⟩ := mem_drop_getD hx
    rw [← hget]
    exact h4 k (by omega) hkl

/-- `find` (not-found case) in take/drop form. -/
theorem find_notfound_parts {l : List Pair} {item : Pair} (hs : sortedK l)
    (hf : (Items.find l item lessP).2 = false) :
    (Items.find l item lessP).1 ≤ l.length ∧
    (∀ x ∈ l.take (Items.find l item lessP).1, keyLt x item) ∧
    (∀ x ∈ l.drop (Items.find l item lessP).1, keyLt item x) := by
  obtain ⟨h1, h2, h3⟩ := (find_spec l item hs).2 hf
  refine ⟨h1, ?_, ?_⟩
  · intro x hx
    obtain ⟨k, hk, hkl, hget⟩ := mem_take_getD hx
    rw [← hget]
    exact h2 k hk
  · intro x hx
    obtain ⟨k, hk, hkl, hget⟩ := mem_drop_getD hx
    rw [← hget]
    exact h3 k hk hkl

theorem childOk_leaf (its : List Pair) : (Node.mk its []).childOkB = true := by
  rw [childOkB_iff]
  simp

/-- Aligned child count for an internal node with the length invariant. -/
theorem childOk_len {its : List Pair} {chs : List Node}
    (h : (Node.mk its chs).childOkB = true) (hne : chs ≠ []) :
    chs.length = its.length + 1 := by
  rcases (childOkB_iff its chs).1 h with ⟨h1 | h1, _⟩
  · exact absurd h1 hne
  · exact h1

theorem childOk_children {n : Node} (h : n.childOkB = true) :
    ∀ c ∈ n.children, c.childOkB = true := by
  cases n with
  | mk its chs => exact ((childOkB_iff its chs).1 h).2

/-- Specification of `node.split` on a node satisfying the length invariant:
the in-order sequence splits around the pivot, both halves satisfy the length
invariant, their sizes are determined, their children come from the original
node, and their heights do not grow. -/
theorem splitAt_spec (child : Node) (mp : Nat)
    (hco : child.childOkB = true) (hmp : mp < child.items.length) :
    child.inorder =
      (child.splitAt mp).2.1.inorder ++
        (child.splitAt mp).1 :: (child.splitAt mp).2.2.inorder ∧
    (child.splitAt mp).2.1.childOkB = true ∧
    (child.splitAt mp).2.2.childOkB = true ∧
    (child.splitAt mp).2.1.items.length = mp ∧
    (child.splitAt mp).2.2.items.length = child.items.length - (mp + 1) ∧
    (∀ c ∈ (child.splitAt mp).2.1.children, c ∈ child.children) ∧
    (∀ c ∈ (child.splitAt mp).2.2.children, c ∈ child.children) ∧
    (child.splitAt mp).2.1.height ≤ child.height ∧
    (child.splitAt mp).2.2.height ≤ child.height ∧
    (child.splitAt mp).2.1.children.isEmpty = child.children.isEmpty ∧
    (child.splitAt mp).2.2.children.isEmpty = child.children.isEmpty ∧
    (child.balB = true → (child.splitAt mp).2.1.balB = true) ∧
    (child.balB = true → (child.splitAt mp).2.2.balB = true) ∧
    (child.balB = true → (child.splitAt mp).2.1.height = child.height) ∧
    (child.balB = true → (child.splitAt mp).2.2.height = child.height) := by
  cases child with
  | mk cits cc =>
    simp only [Node.splitAt, Node.items_mk, Node.children_mk] at *
    cases cc with
    | nil =>
      simp only [List.take_nil, List.drop_nil]
      refine ⟨?_, childOk_leaf _, childOk_leaf _, ?_, ?_, by simp, by simp, ?_, ?_,
        by simp, by simp, fun _ => bal_leaf _, fun _ => bal_leaf _,
        fun _ => by simp [height_mk], fun _ => by simp [height_mk]⟩
      · rw [inorder_leaf, inorder_leaf, inorder_leaf]
        conv_lhs => rw [← List.take_append_drop mp cits]
        rw [list_drop_parts cits mp hmp]
        rfl
      · rw [List.length_take]
        omega
      · exact List.length_drop _ _
      · simp [height_mk]
      · simp [height_mk]
    | cons c0 cc' =>
      have hlen : (c0 :: cc').length = cits.length + 1 :=
        childOk_len hco (by simp)
      have hlen' : cc'.length + 1 = cits.length + 1 := by
        simpa using hlen
      have hchld := childOk_children hco
      simp only [Node.children_mk] at hchld
      have hcl : (c0 :: cc').length = cc'.length + 1 := by simp
      have hmp1 : mp + 1 ≤ (c0 :: cc').length := by omega
      have hTl : ((c0 :: cc').take (mp + 1)).length = mp + 1 := by
        rw [List.length_take]
        omega
      have hDl : ((c0 :: cc').drop (mp + 1)).length = cits.length - mp := by
        rw [List.length_drop]
        omega
      have htne : (c0 :: cc').take (mp + 1) ≠ [] := by
        intro hcon
        have h := congrArg List.length hcon
        rw [hTl] at h
        simp at h
      have hdne : (c0 :: cc').drop (mp + 1) ≠ [] := by
        intro hcon
        have h := congrArg List.length hcon
        rw [hDl] at h
        simp at h
        omega
      have hAllh : ∀ hb : (Node.mk cits (c0 :: cc')).balB = true,
          ∀ c ∈ (c0 :: cc'), c.height = c0.height := by
        intro hb c hc
        exact bal_agree hb c hc c0 (by simp)
      refine ⟨?_, ?_, ?_, ?_, ?_, ?_, ?_, ?_, ?_, ?_, ?_, ?_, ?_, ?_, ?_⟩
      · rw [inorder_internal cits (c0 :: cc') (by simp),
          inorder_internal _ _ htne, inorder_internal _ _ hdne,
          inter_decomp mp (c0 :: cc') cits hlen (by omega),
          inter_step (c0 :: cc') cits mp hlen hmp]
        have hLl : ((c0 :: cc').take (mp + 1)).length = ((cits.take mp)).length + 1 := by
          rw [hTl, List.length_take]
          omega
        rw [inter_decomp mp ((c0 :: cc').take (mp + 1)) (cits.take mp) hLl
            (by rw [List.length_take]; omega)]
        have h2 : (cits.take mp).take mp = cits.take mp := take_take_self _ _ _ (le_refl _)
        have h3 : ((c0 :: cc').take (mp + 1)).take mp = (c0 :: cc').take mp :=
          take_take_self _ _ _ (by omega)
        have h4 : (cits.take mp).drop mp = [] := by
          apply List.drop_eq_nil_of_le
          rw [List.length_take]
          omega
        have h5 : ((c0 :: cc').take (mp + 1)).drop mp = [(c0 :: cc').getD mp default] := by
          rw [list_drop_parts _ mp (by rw [hTl]; omega), getD_take _ _ _ (by omega)]
          congr 1
          apply List.drop_eq_nil_of_le
          rw [hTl]
        rw [h2, h3, h4, h5, inter_single]
        simp [List.append_assoc]
      · rw [childOkB_iff]
        refine ⟨Or.inr ?_, ?_⟩
        · rw [hTl, List.length_take]
          omega
        · intro c hc
          exact hchld c (List.mem_of_mem_take hc)
      · rw [childOkB_iff]
        refine ⟨Or.inr ?_, ?_⟩
        · rw [hDl, List.length_drop]
          omega
        · intro c hc
          exact hchld c (List.mem_of_mem_drop hc)
      · rw [List.length_take]
        omega
      · exact List.length_drop _ _
      · intro c hc
        exact List.mem_of_mem_take hc
      · intro c hc
        exact List.mem_of_mem_drop hc
      · exact height_mk_le_of_sublist _ _ (List.take_sublist _ _)
      · exact height_mk_le_of_sublist _ _ (List.drop_sublist _ _)
      · rw [isEmpty_false_of_ne_nil htne]
        rfl
      · rw [isEmpty_false_of_ne_nil hdne]
        rfl
      · intro hb
        rw [balB_iff]
        constructor
        · intro c hc d hd
          rw [hAllh hb c (List.mem_of_mem_take hc),
            hAllh hb d (List.mem_of_mem_take hd)]
        · intro c hc
          exact bal_children hb c (List.mem_of_mem_take hc)
      · intro hb
        rw [balB_iff]
        constructor
        · intro c hc d hd
          rw [hAllh hb c (List.mem_of_mem_drop hc),
            hAllh hb d (List.mem_of_mem_drop hd)]
        · intro c hc
          exact bal_children hb c (List.mem_of_mem_drop hc)
      · intro hb
        rw [height_of_uniform _ htne
            (fun c hc => hAllh hb c (List.mem_of_mem_take hc)),
          height_of_uniform _ (by simp) (hAllh hb)]
      · intro hb
        rw [height_of_uniform _ hdne
            (fun c hc => hAllh hb c (List.mem_of_mem_drop hc)),
          height_of_uniform _ (by simp) (hAllh hb)]

/-! ## Positional helpers on `A ++ x :: B` normal forms -/

theorem take_append_len {α : Type _} (A B : List α) (i : Nat)
    (h : A.length = i) : (A ++ B).take i = A := by
  subst h
  exact List.take_left A B

theorem drop_append_len {α : Type _} (A B : List α) (i : Nat)
    (h : A.length = i) : (A ++ B).drop i = B := by
  subst h
  exact List.drop_left A B

theorem getD_append_len {α : Type _} [Inhabited α] (A B : List α) (x : α)
    (i : Nat) (h : A.length = i) : (A ++ x :: B).getD i default = x := by
  subst h
  rw [List.getD_eq_getElem _ default (by simp)]
  rw [List.getElem_append_right (le_refl _)]
  simp

theorem set_append_len {α : Type _} (A B : List α) (x y : α) (i : Nat)
    (h : A.length = i) : (A ++ x :: B).set i y = A ++ y :: B := by
  subst h
  rw [list_set_parts _ _ _ (by simp), take_append_len A _ _ rfl]
  have hd : (A ++ x :: B).drop (A.length + 1) = B := by
    rw [show A.length + 1 = (A ++ [x]).length by simp,
      show A ++ x :: B = (A ++ [x]) ++ B by simp]
    exact List.drop_left _ B
  rw [hd]

theorem isEmpty_set {α : Type _} (l : List α) (i : Nat) (x : α) :
    (l.set i x).isEmpty = l.isEmpty := by
  cases l with
  | nil => simp
  | cons a as =>
    cases i <;> simp

theorem mem_set_elim {α : Type _} {l : List α} {i : Nat} {a x : α}
    (h : x ∈ l.set i a) : x = a ∨ x ∈ l := by
  rcases List.mem_or_eq_of_mem_set h with h | h
  · exact Or.inr h
  · exact Or.inl h

theorem keyLt_congr_r {x p q : Pair} (h : keyLt x p) (hk : p.key = q.key) :
    keyLt x q := by
  unfold keyLt at h ⊢
  omega

theorem keyLt_congr_l {x p q : Pair} (h : keyLt p x) (hk : p.key = q.key) :
    keyLt q x := by
  unfold keyLt at h ⊢
  omega

theorem boundedB_of (n : Node) (minP maxP : Nat)
    (h1 : minP ≤ n.items.length) (h2 : n.items.length ≤ maxP)
    (h3 : ∀ c ∈ n.children, c.boundedB minP maxP = true) :
    n.boundedB minP maxP = true := by
  cases n with
  | mk its chs => exact boundedB_mk_of h1 h2 h3

/-- The prefix `interP (chs.take i) (its.take i)` of a sorted interleaving is
bounded above by `item` whenever the first `i` separator items are. -/
theorem interP_bound {chs : List Node} {its : List Pair} {item : Pair}
    (hlen : chs.length = its.length + 1)
    (hs : sortedK (inter chs its)) :
    ∀ i, i ≤ its.length → (∀ k < i, keyLt (its.getD k nilPair) item) →
      ∀ x ∈ interP (chs.take i) (its.take i), keyLt x item := by
  intro i
  induction i with
  | zero => intro _ _ x hx; simp at hx
  | succ i ih =>
    intro hi hk x hx
    rw [interP_snoc chs its i (by omega) (by omega)] at hx
    have hdec : inter chs its =
        (interP (chs.take i) (its.take i) ++ (chs.getD i default).inorder) ++
          its.getD i nilPair ::
            inter (chs.drop (i + 1)) (its.drop (i + 1)) := by
      rw [inter_decomp i chs its hlen (by omega),
        inter_step chs its i hlen (by omega)]
      simp [List.append_assoc]
    rcases List.mem_append.1 hx with hx' | hx'
    · rcases List.mem_append.1 hx' with hx'' | hx''
      · exact ih (by omega) (fun k hk' => hk k (by omega)) x hx''
      · have hsx : keyLt x (its.getD i nilPair) := by
          rw [hdec] at hs
          exact (sorted_split hs).1 x (List.mem_append.2 (Or.inr hx''))
        exact keyLt_trans hsx (hk i (by omega))
    · have : x = its.getD i nilPair := by simpa using hx'
      subst this
      exact hk i (by omega)

/-! ## Controlled unfolding of `insertF` -/

@[simp] theorem childD_mk (its : List Pair) (chs : List Node) (i : Nat) :
    (Node.mk its chs).childD i = chs.getD i default := rfl

theorem maybeSplitChild_lt {n : Node} {i maxP : Nat}
    (h : (n.childD i).items.length < maxP) :
    n.maybeSplitChild i maxP = (false, n) := by
  rw [Node.maybeSplitChild, if_pos h]

theorem maybeSplitChild_ge {n : Node} {i maxP : Nat}
    (h : ¬ (n.childD i).items.length < maxP) :
    n.maybeSplitChild i maxP =
      (true, Node.mk (n.items.insertIdx i ((n.childD i).splitAt (maxP / 2)).1)
        ((n.children.set i ((n.childD i).splitAt (maxP / 2)).2.1).insertIdx
          (i + 1) ((n.childD i).splitAt (maxP / 2)).2.2)) := by
  rw [Node.maybeSplitChild, if_neg h]

theorem insertF_found {fuel : Nat} {n : Node} {item : Pair} {maxP : Nat}
    {less : Pair → Pair → Bool}
    (h : (Items.find n.items item less).2 = true) :
    Node.insertF (fuel + 1) n item maxP less =
      (n.items.getD (Items.find n.items item less).1 nilPair,
       Node.mk (n.items.set (Items.find n.items item less).1 item) n.children) := by
  rw [Node.insertF]
  simp only [h, if_true]

theorem insertF_leaf {fuel : Nat} {n : Node} {item : Pair} {maxP : Nat}
    {less : Pair → Pair → Bool}
    (h : (Items.find n.items item less).2 = false)
    (hleaf : n.children.isEmpty = true) :
    Node.insertF (fuel + 1) n item maxP less =
      (nilPair,
       Node.mk (n.items.insertIdx (Items.find n.items item less).1 item)
         n.children) := by
  rw [Node.insertF]
  simp only [h, hleaf, Bool.false_eq_true, if_false, if_true]

theorem insertF_nosplit {fuel : Nat} {n : Node} {item : Pair} {maxP : Nat}
    {less : Pair → Pair → Bool}
    (h : (Items.find n.items item less).2 = false)
    (hleaf : n.children.isEmpty = false)
    (hms : (n.childD (Items.find n.items item less).1).items.length < maxP) :
    Node.insertF (fuel + 1) n item maxP less =
      ((Node.insertF fuel (n.childD (Items.find n.items item less).1) item maxP
          less).1,
       Node.mk n.items
         (n.children.set (Items.find n.items item less).1
           (Node.insertF fuel (n.childD (Items.find n.items item less).1) item
             maxP less).2)) := by
  rw [Node.insertF]
  simp only [h, hleaf, Bool.false_eq_true, if_false, maybeSplitChild_lt hms]

theorem insertF_split_lt {fuel : Nat} {n : Node} {item : Pair} {maxP : Nat}
    {less : Pair → Pair → Bool}
    (h : (Items.find n.items item less).2 = false)
    (hleaf : n.children.isEmpty = false)
    (hms : ¬ (n.childD (Items.find n.items item less).1).items.length < maxP)
    (hlt : less item
      ((n.maybeSplitChild (Items.find n.items item less).1 maxP).2.items.getD
        (Items.find n.items item less).1 nilPair) = true) :
    Node.insertF (fuel + 1) n item maxP less =
      ((Node.insertF fuel
          ((n.maybeSplitChild (Items.find n.items item less).1 maxP).2.childD
            (Items.find n.items item less).1) item maxP less).1,
       Node.mk (n.maybeSplitChild (Items.find n.items item less).1 maxP).2.items
         ((n.maybeSplitChild (Items.find n.items item less).1 maxP).2.children.set
           (Items.find n.items item less).1
           (Node.insertF fuel
             ((n.maybeSplitChild (Items.find n.items item less).1 maxP).2.childD
               (Items.find n.items item less).1) item maxP less).2)) := by
  conv_lhs => rw [Node.insertF]
  simp only [h, hleaf, Bool.false_eq_true, if_false]
  rw [show (n.maybeSplitChild (Items.find n.items item less).1 maxP).1 = true by
    rw [maybeSplitChild_ge hms]]
  simp only [if_true, hlt]

theorem insertF_split_gt {fuel : Nat} {n : Node} {item : Pair} {maxP : Nat}
    {less : Pair → Pair → Bool}
    (h : (Items.find n.items item less).2 = false)
    (hleaf : n.children.isEmpty = false)
    (hms : ¬ (n.childD (Items.find n.items item less).1).items.length < maxP)
    (hlt : less item
      ((n.maybeSplitChild (Items.find n.items item less).1 maxP).2.items.getD
        (Items.find n.items item less).1 nilPair) = false)
    (hgt : less
      ((n.maybeSplitChild (Items.find n.items item less).1 maxP).2.items.getD
        (Items.find n.items item less).1 nilPair) item = true) :
    Node.insertF (fuel + 1) n item maxP less =
      ((Node.insertF fuel
          ((n.maybeSplitChild (Items.find n.items item less).1 maxP).2.childD
            ((Items.find n.items item less).1 + 1)) item maxP less).1,
       Node.mk (n.maybeSplitChild (Items.find n.items item less).1 maxP).2.items
         ((n.maybeSplitChild (Items.find n.items item less).1 maxP).2.children.set
           ((Items.find n.items item less).1 + 1)
           (Node.insertF fuel
             ((n.maybeSplitChild (Items.find n.items item less).1 maxP).2.childD
               ((Items.find n.items item less).1 + 1)) item maxP less).2)) := by
  conv_lhs => rw [Node.insertF]
  simp only [h, hleaf, Bool.false_eq_true, if_false]
  rw [show (n.maybeSplitChild (Items.find n.items item less).1 maxP).1 = true by
    rw [maybeSplitChild_ge hms]]
  simp only [if_true, hlt, hgt, Bool.false_eq_true, if_false]

theorem insertF_split_eq {fuel : Nat} {n : Node} {item : Pair} {maxP : Nat}
    {less : Pair → Pair → Bool}
    (h : (Items.find n.items item less).2 = false)
    (hleaf : n.children.isEmpty = false)
    (hms : ¬ (n.childD (Items.find n.items item less).1).items.length < maxP)
    (hlt : less item
      ((n.maybeSplitChild (Items.find n.items item less).1 maxP).2.items.getD
        (Items.find n.items item less).1 nilPair) = false)
    (hgt : less
      ((n.maybeSplitChild (Items.find n.items item less).1 maxP).2.items.getD
        (Items.find n.items item less).1 nilPair) item = false) :
    Node.insertF (fuel + 1) n item maxP less =
      ((n.maybeSplitChild (Items.find n.items item less).1 maxP).2.items.getD
        (Items.find n.items item less).1 nilPair,
       Node.mk
         ((n.maybeSplitChild (Items.find n.items item less).1 maxP).2.items.set
           (Items.find n.items item less).1 item)
         (n.maybeSplitChild (Items.find n.items item less).1 maxP).2.children) := by
  conv_lhs => rw [Node.insertF]
  simp only [h, hleaf, Bool.false_eq_true, if_false]
  rw [show (n.maybeSplitChild (Items.find n.items item less).1 maxP).1 = true by
    rw [maybeSplitChild_ge hms]]
  simp only [if_true, hlt, hgt, Bool.false_eq_true, if_false]

/-! ## Whole-node decomposition around child `j` -/

/-- The part of an interleaving strictly after child `j`. -/
def afterIdx (chs : List Node) (its : List Pair) (j : Nat) : List Pair :=
  if j < its.length then
    its.getD j nilPair :: inter (chs.drop (j + 1)) (its.drop (j + 1))
  else []

theorem inter_decomp_full (chs : List Node) (its : List Pair) (j : Nat)
    (hlen : chs.length = its.length + 1) (hj : j ≤ its.length) :
    inter chs its =
      interP (chs.take j) (its.take j) ++ (chs.getD j default).inorder ++
        afterIdx chs its j := by
  rw [inter_decomp j chs its hlen hj]
  unfold afterIdx
  rcases Nat.lt_or_ge j its.length with hlt | hge
  · rw [if_pos hlt, inter_step chs its j hlen hlt]
    simp [List.append_assoc]
  · have : j = its.length := by omega
    subst this
    rw [if_neg (by omega), inter_last chs its hlen]
    simp

theorem inter_set_decomp (chs : List Node) (its : List Pair) (j : Nat)
    (c' : Node) (hlen : chs.length = its.length + 1) (hj : j ≤ its.length) :
    inter (chs.set j c') its =
      interP (chs.take j) (its.take j) ++ c'.inorder ++ afterIdx chs its j := by
  have hjc : j < chs.length := by omega
  have hlen' : (chs.set j c').length = its.length + 1 := by
    rw [List.length_set]; exact hlen
  rw [inter_decomp_full (chs.set j c') its j hlen' hj,
    take_set_self, getD_set_self _ _ _ hjc]
  congr 1
  unfold afterIdx
  rcases Nat.lt_or_ge j its.length with hlt | hge
  · rw [if_pos hlt, if_pos hlt, drop_succ_set]
  · rw [if_neg (by omega), if_neg (by omega)]

theorem afterIdx_set (chs : List Node) (its : List Pair) (j : Nat) (c' : Node) :
    afterIdx (chs.set j c') its j = afterIdx chs its j := by
  unfold afterIdx
  rcases Nat.lt_or_ge j its.length with hlt | hge
  · rw [if_pos hlt, if_pos hlt, drop_succ_set]
  · rw [if_neg (by omega), if_neg (by omega)]

theorem keyNe_of_lt {x p : Pair} (h : keyLt x p) : x.key ≠ p.key := by
  unfold keyLt at h
  omega

theorem keyNe_of_gt {x p : Pair} (h : keyLt p x) : x.key ≠ p.key := by
  unfold keyLt at h
  omega

/-- Invariant bundle for node-level subtrees. -/
def NWF (n : Node) (minP maxP : Nat) : Prop :=
  n.childOkB = true ∧ sortedK n.inorder ∧
    (∀ c ∈ n.children, c.boundedB minP maxP = true) ∧
    n.balB = true

/-- Conclusion of the insert specification. -/
def insConc (fuel : Nat) (n : Node) (item : Pair) (minP maxP : Nat) : Prop :=
  (n.insertF fuel item maxP lessP).1 = lookupKey item n.inorder ∧
  (n.insertF fuel item maxP lessP).2.inorder = insKey item n.inorder ∧
  NWF (n.insertF fuel item maxP lessP).2 minP maxP ∧
  (n.insertF fuel item maxP lessP).2.items.length ≤ n.items.length + 1 ∧
  n.items.length ≤ (n.insertF fuel item maxP lessP).2.items.length ∧
  (n.insertF fuel item maxP lessP).2.children.isEmpty = n.children.isEmpty ∧
  (n.insertF fuel item maxP lessP).2.height = n.height

theorem getD_mem {α : Type _} [Inhabited α] {l : List α} {j : Nat}
    (h : j < l.length) : l.getD j default ∈ l := by
  rw [List.getD_eq_getElem _ default h]
  exact List.getElem_mem h

theorem inorder_childD_sublist {chs : List Node} {its : List Pair} {j : Nat}
    (hlen : chs.length = its.length + 1) (hj : j ≤ its.length) :
    List.Sublist (chs.getD j default).inorder (inter chs its) := by
  rw [inter_decomp_full chs its j hlen hj, List.append_assoc]
  exact ((List.sublist_append_left _ _).trans (List.sublist_append_right _ _))

/-- Everything after child `j` is above `item` whenever the separators from
position `j` on are. -/
theorem afterIdx_bound {chs : List Node} {its : List Pair} {item : Pair} {j : Nat}
    (hlen : chs.length = its.length + 1) (hj : j ≤ its.length)
    (hsor : sortedK (inter chs its))
    (hfind : ∀ k, j ≤ k → k < its.length → keyLt item (its.getD k nilPair)) :
    ∀ y ∈ afterIdx chs its j, keyLt item y := by
  unfold afterIdx
  rcases Nat.lt_or_ge j its.length with hlt | hge
  · rw [if_pos hlt]
    intro y hy
    rcases List.mem_cons.1 hy with rfl | hy'
    · exact hfind j (le_refl _) hlt
    · have hdec : inter chs its =
          (interP (chs.take j) (its.take j) ++ (chs.getD j default).inorder) ++
            its.getD j nilPair :: inter (chs.drop (j + 1)) (its.drop (j + 1)) := by
        rw [inter_decomp j chs its hlen hj, inter_step chs its j hlen hlt]
        simp [List.append_assoc]
      rw [hdec] at hsor
      exact keyLt_trans (hfind j (le_refl _) hlt) ((sorted_split hsor).2 y hy')
  · rw [if_neg (by omega)]
    intro y hy
    simp at hy

/-- Shared reasoning for the recursive descent of `insert` into child `j`. -/
theorem insert_descend (minP maxP fuel : Nat) (hmin : 1 ≤ minP)
    (IH : ∀ (m : Node) (it : Pair), m.height ≤ fuel → NWF m minP maxP →
      m.items.length < maxP → insConc fuel m it minP maxP)
    (mts : List Pair) (mchs : List Node) (item : Pair) (j : Nat)
    (hlen : mchs.length = mts.length + 1) (hj : j ≤ mts.length)
    (hco : (Node.mk mts mchs).childOkB = true)
    (hsor : sortedK (inter mchs mts))
    (hb : ∀ c ∈ mchs, c.boundedB minP maxP = true)
    (hsh : (Node.mk mts mchs).balB = true)
    (hA : ∀ x ∈ interP (mchs.take j) (mts.take j), keyLt x item)
    (hB : ∀ y ∈ afterIdx mchs mts j, keyLt item y)
    (hcjlen : (mchs.getD j default).items.length < maxP)
    (hhj : (mchs.getD j default).height ≤ fuel) :
    (Node.insertF fuel (mchs.getD j default) item maxP lessP).1 =
      lookupKey item (inter mchs mts) ∧
    inter
      (mchs.set j (Node.insertF fuel (mchs.getD j default) item maxP lessP).2)
      mts = insKey item (inter mchs mts) ∧
    NWF (Node.mk mts
      (mchs.set j (Node.insertF fuel (mchs.getD j default) item maxP lessP).2))
      minP maxP ∧
    (mchs.set j
      (Node.insertF fuel (mchs.getD j default) item maxP lessP).2).isEmpty =
        false ∧
    (Node.mk mts
      (mchs.set j (Node.insertF fuel (mchs.getD j default) item maxP lessP).2)
      ).height = (Node.mk mts mchs).height := by
  have hjc : j < mchs.length := by omega
  have hcjmem : mchs.getD j default ∈ mchs := getD_mem hjc
  have hcjb := hb _ hcjmem
  have hcjco : (mchs.getD j default).childOkB = true := by
    have := childOk_children hco
    simp only [Node.children_mk] at this
    exact this _ hcjmem
  have hcjsor : sortedK (mchs.getD j default).inorder :=
    sortedK_of_sublist (inorder_childD_sublist hlen hj) hsor
  have hcjsh : (mchs.getD j default).balB = true := by
    have := bal_children hsh
    simp only [Node.children_mk] at this
    exact this _ hcjmem
  have hnwf : NWF (mchs.getD j default) minP maxP :=
    ⟨hcjco, hcjsor, boundedB_children hcjb, hcjsh⟩
  obtain ⟨r1, r2, ⟨rco, rsor, rbc, rsh⟩, rlen1, rlen2, rempty, rheight⟩ :=
    IH (mchs.getD j default) item hhj hnwf hcjlen
  have hdec' : inter mchs mts =
      interP (mchs.take j) (mts.take j) ++
        ((mchs.getD j default).inorder ++ afterIdx mchs mts j) := by
    rw [inter_decomp_full mchs mts j hlen hj, List.append_assoc]
  have hAne : ∀ x ∈ interP (mchs.take j) (mts.take j), x.key ≠ item.key :=
    fun x hx => keyNe_of_lt (hA x hx)
  have hBne : ∀ y ∈ afterIdx mchs mts j, y.key ≠ item.key :=
    fun y hy => keyNe_of_gt (hB y hy)
  have hne : mchs.set j (Node.insertF fuel (mchs.getD j default) item maxP
      lessP).2 ≠ [] := by
    intro hcon
    have hcl := congrArg List.length hcon
    rw [List.length_set, List.length_nil] at hcl
    omega
  have hIns : inter
      (mchs.set j (Node.insertF fuel (mchs.getD j default) item maxP lessP).2)
      mts = insKey item (inter mchs mts) := by
    rw [inter_set_decomp mchs mts j _ hlen hj, hdec',
      insKey_append_left hA, insKey_append_right hB, r2, List.append_assoc]
  have hAllh : ∀ x ∈ mchs.set j
      (Node.insertF fuel (mchs.getD j default) item maxP lessP).2,
      x.height = (mchs.getD j default).height := by
    intro x hx
    rcases mem_set_elim hx with rfl | hx'
    · exact rheight
    · have hAg := bal_agree hsh
      simp only [Node.children_mk] at hAg
      exact hAg x hx' _ hcjmem
  have hmne : mchs ≠ [] := by
    intro hcon
    rw [hcon] at hlen
    simp at hlen
  refine ⟨?_, hIns, ⟨?_, ?_, ?_, ?_⟩, ?_, ?_⟩
  · rw [hdec', lookupKey_append_left hAne, lookupKey_append_right hBne]
    exact r1
  · rw [childOkB_iff]
    refine ⟨Or.inr (by rw [List.length_set]; omega), ?_⟩
    intro c hc
    rcases mem_set_elim hc with rfl | hc'
    · exact rco
    · have := childOk_children hco
      simp only [Node.children_mk] at this
      exact this c hc'
  · rw [inorder_internal _ _ hne, hIns]
    exact sortedK_insKey hsor
  · intro c hc
    simp only [Node.children_mk] at hc
    rcases mem_set_elim hc with rfl | hc'
    · refine boundedB_of _ _ _ (le_trans (boundedB_self hcjb).1 rlen2)
        (le_trans rlen1 (by omega)) rbc
    · exact hb c hc'
  · rw [balB_iff]
    constructor
    · intro c hc d hd
      rw [hAllh c hc, hAllh d hd]
    · intro c hc
      rcases mem_set_elim hc with rfl | hc'
      · exact rsh
      · have := bal_children hsh
        simp only [Node.children_mk] at this
        exact this c hc'
  · cases hLs : mchs.set j
        (Node.insertF fuel (mchs.getD j default) item maxP lessP).2 with
    | nil => exact absurd hLs hne
    | cons a rest => rfl
  · rw [height_of_uniform mts hne hAllh,
      height_of_uniform mts hmne ?_]
    have hAg := bal_agree hsh
    simp only [Node.children_mk] at hAg
    exact fun c hc => hAg c hc _ hcjmem

theorem lookupKey_cons_eq {p x : Pair} {xs : List Pair} (h : x.key = p.key) :
    lookupKey p (x :: xs) = x := by
  rw [lookupKey, if_pos h]

theorem insKey_cons_eq {p x : Pair} {xs : List Pair} (h : x.key = p.key) :
    insKey p (x :: xs) = p :: xs := by
  rw [insKey, if_neg (by omega), if_pos h]

/-- Decomposition of an interleaving whose item at `i` was overwritten. -/
theorem inter_itemset_decomp (chs : List Node) (its : List Pair) (i : Nat)
    (x : Pair) (hlen : chs.length = its.length + 1) (hi : i < its.length) :
    inter chs (its.set i x) =
      interP (chs.take i) (its.take i) ++ (chs.getD i default).inorder ++
        x :: inter (chs.drop (i + 1)) (its.drop (i + 1)) := by
  have hlen' : chs.length = (its.set i x).length + 1 := by
    rw [List.length_set]; exact hlen
  rw [inter_decomp_full chs (its.set i x) i hlen' (by rw [List.length_set]; omega),
    take_set_self]
  unfold afterIdx
  have hg : (its.set i x).getD i nilPair = x := getD_set_self its i x hi
  rw [if_pos (by rw [List.length_set]; omega), hg, drop_succ_set]



theorem inter_append (X : List Node) (xs : List Pair) :
    X.length = xs.length →
    ∀ (Y : List Node) (ys : List Pair),
      inter (X ++ Y) (xs ++ ys) = interP X xs ++ inter Y ys := by
  induction X generalizing xs with
  | nil =>
    intro hX Y ys
    cases xs with
    | nil => simp
    | cons p xs' => simp at hX
  | cons c X' ih =>
    intro hX Y ys
    cases xs with
    | nil => simp at hX
    | cons p xs' =>
      rw [List.cons_append, List.cons_append, inter_cons, interP_cons,
        ih xs' (by simpa using hX) Y ys]
      simp

theorem insertF_spec (minP maxP : Nat) (hmax : maxP = 2 * minP + 1)
    (hmin : 1 ≤ minP) :
    ∀ fuel (n : Node) (item : Pair), n.height ≤ fuel → NWF n minP maxP →
      n.items.length < maxP → insConc fuel n item minP maxP := by
  intro fuel
  induction fuel with
  | zero =>
    intro n item hh _ _
    have := height_pos n
    omega
  | succ fuel ih =>
    rintro ⟨its, chs⟩ item hh ⟨hco, hsor, hb, hsh⟩ hl
    simp only [Node.items_mk, Node.children_mk] at hl hb
    have hsits : sortedK its := by
      have := sortedK_items (n := Node.mk its chs) hsor
      simpa using this
    by_cases hfound : (Items.find its item lessP).2 = true
    · -- item's key found among this node's items: replace in place
      obtain ⟨hiL, hkey, htake, hdrop⟩ := find_found_parts hsits hfound
      unfold insConc
      rw [insertF_found (n := Node.mk its chs) (by simpa using hfound)]
      simp only [Node.items_mk, Node.children_mk]
      set I := (Items.find its item lessP).1 with hI
      have hsplit : its = its.take I ++ its.getD I nilPair :: its.drop (I + 1) := by
        rw [show its.getD I nilPair :: its.drop (I + 1) = its.drop I from
          (list_drop_parts its I hiL).symm]
        exact (List.take_append_drop I its).symm
      have htne : ∀ x ∈ its.take I, x.key ≠ item.key :=
        fun x hx => keyNe_of_lt (htake x hx)
      cases chs with
      | nil =>
        have h2 : its.set I item = insKey item its := by
          conv_rhs => rw [hsplit]
          rw [insKey_append_left htake, insKey_cons_eq hkey,
            list_set_parts its I item hiL]
        refine ⟨?_, ?_, ⟨childOk_leaf _, ?_, by simp, bal_leaf _⟩, ?_, ?_,
          by simp, height_mk_irrel _ _ _⟩
        · rw [inorder_leaf]
          conv_rhs => rw [hsplit]
          rw [lookupKey_append_left htne, lookupKey_cons_eq hkey]
        · rw [inorder_leaf, inorder_leaf]
          exact h2
        · rw [inorder_leaf, h2]
          exact sortedK_insKey (by simpa using hsor)
        · rw [List.length_set]
          omega
        · rw [List.length_set]
      | cons c0 cs0 =>
        have hlen : (c0 :: cs0).length = its.length + 1 := childOk_len hco (by simp)
        have hne : (c0 :: cs0) ≠ [] := by simp
        have hsor' : sortedK (inter (c0 :: cs0) its) := by
          rw [← inorder_internal its _ hne]; exact hsor
        have hdecf : inter (c0 :: cs0) its =
            (interP ((c0 :: cs0).take I) (its.take I) ++
              (((c0 :: cs0).getD I default).inorder)) ++
              its.getD I nilPair ::
                inter ((c0 :: cs0).drop (I + 1)) (its.drop (I + 1)) := by
          rw [inter_decomp_full (c0 :: cs0) its I hlen (by omega)]
          unfold afterIdx
          rw [if_pos hiL]
        have hsor2 : sortedK ((interP ((c0 :: cs0).take I) (its.take I) ++
            (((c0 :: cs0).getD I default).inorder)) ++
              its.getD I nilPair ::
                inter ((c0 :: cs0).drop (I + 1)) (its.drop (I + 1))) := by
          rw [← hdecf]; exact hsor'
        have hX : ∀ x ∈ interP ((c0 :: cs0).take I) (its.take I) ++
            (((c0 :: cs0).getD I default).inorder), keyLt x item := by
          intro x hx
          exact keyLt_congr_r ((sorted_split hsor2).1 x hx) hkey
        have h2' : inter (c0 :: cs0) (its.set I item) =
            insKey item (inter (c0 :: cs0) its) := by
          conv_rhs => rw [hdecf]
          rw [insKey_append_left hX, insKey_cons_eq hkey,
            inter_itemset_decomp _ its I item hlen hiL]
        refine ⟨?_, ?_, ⟨?_, ?_, ?_, ?_⟩, ?_, ?_, by simp,
          height_mk_irrel _ _ _⟩
        · conv_rhs => rw [inorder_internal its _ hne, hdecf]
          rw [lookupKey_append_left (fun x hx => keyNe_of_lt (hX x hx)),
            lookupKey_cons_eq hkey]
        · rw [inorder_internal its _ hne, inorder_internal _ _ hne]
          exact h2'
        · rw [childOkB_iff]
          refine ⟨Or.inr (by rw [List.length_set]; omega), ?_⟩
          exact fun c hc => childOk_children hco c (by simpa using hc)
        · rw [inorder_internal _ _ hne, h2', ← inorder_internal its _ hne]
          exact sortedK_insKey hsor
        · intro c hc
          exact hb c (by simpa using hc)
        · rw [balB_iff]
          exact (balB_iff _ _).1 hsh
        · rw [List.length_set]
          omega
        · rw [List.length_set]
    · have hfound' : (Items.find its item lessP).2 = false := by
        rwa [Bool.not_eq_true] at hfound
      obtain ⟨hiL, htake, hdrop⟩ := find_notfound_parts hsits hfound'
      obtain ⟨_, hgetlt, hgetgt⟩ := (find_spec its item hsits).2 hfound'
      cases chs with
      | nil =>
        unfold insConc
        rw [insertF_leaf (n := Node.mk its []) (by simpa using hfound') (by simp)]
        simp only [Node.items_mk, Node.children_mk]
        set I := (Items.find its item lessP).1 with hI
        have hparts : its = its.take I ++ its.drop I :=
          (List.take_append_drop I its).symm
        have hlk : lookupKey item its = nilPair := by
          apply lookupKey_eq_nil_of_not_has
          conv_lhs => rw [hparts]
          rw [hasKey_append,
            hasKey_false_of_bounds (fun x hx => keyNe_of_lt (htake x hx)),
            hasKey_false_of_bounds (fun x hx => keyNe_of_gt (hdrop x hx))]
          rfl
        have hins : its.insertIdx I item = insKey item its := by
          conv_rhs => rw [hparts]
          rw [insKey_append_left htake, insKey_eq_cons_of_forall_gt hdrop,
            list_insertIdx_parts its I item hiL]
        refine ⟨by rw [inorder_leaf]; exact hlk.symm,
          by rw [inorder_leaf, inorder_leaf]; exact hins,
          ⟨childOk_leaf _, ?_, by simp, bal_leaf _⟩, ?_, ?_, by simp,
          height_mk_irrel _ _ _⟩
        · rw [inorder_leaf, hins]
          exact sortedK_insKey (by simpa using hsor)
        · rw [List.length_insertIdx _ _ hiL]
        · rw [List.length_insertIdx _ _ hiL]
          omega
      | cons c0 cs0 =>
        have hlen : (c0 :: cs0).length = its.length + 1 := childOk_len hco (by simp)
        have hne : (c0 :: cs0) ≠ [] := by simp
        have hsor' : sortedK (inter (c0 :: cs0) its) := by
          rw [← inorder_internal its _ hne]; exact hsor
        by_cases hguard :
            ((c0 :: cs0).getD (Items.find its item lessP).1 default).items.length
              < maxP
        · unfold insConc
          rw [insertF_nosplit (n := Node.mk its (c0 :: cs0))
            (by simpa using hfound') (by simp) (by simpa using hguard)]
          simp only [Node.items_mk, Node.children_mk, childD_mk]
          set I := (Items.find its item lessP).1 with hI
          have hA := interP_bound hlen hsor' I hiL (fun k hk => hgetlt k hk)
          have hB := afterIdx_bound hlen hiL hsor'
            (fun k hk hkl => hgetgt k hk hkl)
          have hhj : ((c0 :: cs0).getD I default).height ≤ fuel := by
            have h1 : ((c0 :: cs0).getD I default).height <
                (Node.mk its (c0 :: cs0)).height := by
              apply height_child_lt (n := Node.mk its (c0 :: cs0))
              simp only [Node.children_mk]
              exact getD_mem (by omega)
            omega
          obtain ⟨d1, d2, d3, d4, d5⟩ := insert_descend minP maxP fuel hmin ih
            its (c0 :: cs0) item I hlen hiL hco hsor' hb hsh hA hB (by omega) hhj
          have hne2 : (c0 :: cs0).set I
              (Node.insertF fuel ((c0 :: cs0).getD I default) item maxP
                lessP).2 ≠ [] := by
            intro hcon
            rw [hcon] at d4
            simp at d4
          refine ⟨?_, ?_, d3, by omega, le_refl _, by simp [d4], d5⟩
          · rw [inorder_internal its _ hne]
            exact d1
          · rw [inorder_internal its _ hne, inorder_internal _ _ hne2]
            exact d2
        · -- the target child is full: split it before descending
          set I := (Items.find its item lessP).1 with hI
          have hIchs : I < (c0 :: cs0).length := by omega
          set child := (c0 :: cs0).getD I default with hchild
          have hchmem : child ∈ c0 :: cs0 := getD_mem hIchs
          have hchb := hb child hchmem
          have hchco : child.childOkB = true := by
            have := childOk_children hco
            simp only [Node.children_mk] at this
            exact this child hchmem
          have hchlen : child.items.length = maxP := by
            have h1 := (boundedB_self hchb).2
            omega
          have hmp : maxP / 2 = minP := by omega
          have hmpl : maxP / 2 < child.items.length := by omega
          obtain ⟨sp1, sp2, sp3, sp4, sp5, sp6, sp7, sp8, sp9, sp10, sp11,
            sp12, sp13, sp14, sp15⟩ := splitAt_spec child (maxP / 2) hchco hmpl
          set piv := (child.splitAt (maxP / 2)).1 with hpiv
          set left := (child.splitAt (maxP / 2)).2.1 with hleft
          set right := (child.splitAt (maxP / 2)).2.2 with hright
          rw [hmp] at sp4 sp5
          rw [hchlen] at sp5
          have hlmin : left.items.length = minP := sp4
          have hrmin : right.items.length = minP := by omega
          have hguard2 : ¬ ((Node.mk its (c0 :: cs0)).childD I).items.length
              < maxP := by
            rw [childD_mk, ← hchild]
            exact hguard
          have hms : (Node.mk its (c0 :: cs0)).maybeSplitChild I maxP =
              (true, Node.mk (its.insertIdx I piv)
                (((c0 :: cs0).set I left).insertIdx (I + 1) right)) := by
            rw [maybeSplitChild_ge hguard2]
            rfl
          have hlenN : cs0.length + 1 = its.length + 1 := by
            simpa using hlen
          have htakeLen : ((c0 :: cs0).take I).length = I := by
            rw [List.length_take]; omega
          have htakeLenI : (its.take I).length = I := by
            rw [List.length_take]; omega
          have hits' : its.insertIdx I piv = its.take I ++ piv :: its.drop I :=
            list_insertIdx_parts its I piv hiL
          have hchs' : ((c0 :: cs0).set I left).insertIdx (I + 1) right =
              (c0 :: cs0).take I ++ left :: right :: (c0 :: cs0).drop (I + 1) :=
            set_insertIdx_parts _ I left right hIchs
          have hli' : (its.take I ++ piv :: its.drop I).length = its.length + 1 := by
            simp only [List.length_append, List.length_cons, List.length_take,
              List.length_drop]
            omega
          have hlc' : ((c0 :: cs0).take I ++
              left :: right :: (c0 :: cs0).drop (I + 1)).length =
                its.length + 2 := by
            simp only [List.length_append, List.length_cons, List.length_take,
              List.length_drop]
            omega
          have hInner : ∀ c : Node,
              inter (c :: (c0 :: cs0).drop (I + 1)) (its.drop I) =
                c.inorder ++ afterIdx (c0 :: cs0) its I := by
            intro c
            unfold afterIdx
            rcases Nat.lt_or_ge I its.length with hlt | hge
            · rw [if_pos hlt, list_drop_parts its I hlt, inter_cons]
              rfl
            · rw [if_neg (by omega)]
              have h1 : its.drop I = [] := List.drop_eq_nil_of_le (by omega)
              have h2 : (c0 :: cs0).drop (I + 1) = [] :=
                List.drop_eq_nil_of_le (by simp only [List.length_cons]; omega)
              rw [h1, h2, inter_single]
              simp
          have hsplitc : c0 :: cs0 =
              (c0 :: cs0).take I ++ child :: (c0 :: cs0).drop (I + 1) := by
            rw [show child :: (c0 :: cs0).drop (I + 1) = (c0 :: cs0).drop I from
              (list_drop_parts _ I hIchs).symm]
            exact (List.take_append_drop I _).symm
          have hOrig : inter (c0 :: cs0) its =
              interP ((c0 :: cs0).take I) (its.take I) ++
                (child.inorder ++ afterIdx (c0 :: cs0) its I) := by
            conv_lhs =>
              rw [hsplitc, show its = its.take I ++ its.drop I from
                (List.take_append_drop I its).symm]
            rw [inter_append _ _ (by rw [htakeLen, htakeLenI]) _ _, hInner child]
          have hOrigAssoc : inter (c0 :: cs0) its =
              (interP ((c0 :: cs0).take I) (its.take I) ++ left.inorder) ++
                piv :: (right.inorder ++ afterIdx (c0 :: cs0) its I) := by
            rw [hOrig, sp1]
            simp
          have hN1g : ∀ q : Pair,
              inter ((c0 :: cs0).take I ++
                  left :: right :: (c0 :: cs0).drop (I + 1))
                (its.take I ++ q :: its.drop I) =
                interP ((c0 :: cs0).take I) (its.take I) ++
                  (left.inorder ++ q :: (right.inorder ++
                    afterIdx (c0 :: cs0) its I)) := by
            intro q
            rw [inter_append _ _ (by rw [htakeLen, htakeLenI]) _ _, inter_cons,
              hInner right]
          have hS1 : inter ((c0 :: cs0).take I ++
              left :: right :: (c0 :: cs0).drop (I + 1))
              (its.take I ++ piv :: its.drop I) = inter (c0 :: cs0) its := by
            rw [hN1g piv, hOrig, sp1]
            simp
          have hmemN : ∀ x ∈ (c0 :: cs0).take I ++
              left :: right :: (c0 :: cs0).drop (I + 1),
              x = left ∨ x = right ∨ x ∈ c0 :: cs0 := by
            intro x hx
            rcases List.mem_append.1 hx with hx' | hx'
            · exact Or.inr (Or.inr (List.mem_of_mem_take hx'))
            · rcases List.mem_cons.1 hx' with rfl | hx''
              · exact Or.inl rfl
              · rcases List.mem_cons.1 hx'' with rfl | hx'''
                · exact Or.inr (Or.inl rfl)
                · exact Or.inr (Or.inr (List.mem_of_mem_drop hx'''))
          have hcoN : (Node.mk (its.take I ++ piv :: its.drop I)
              ((c0 :: cs0).take I ++
                left :: right :: (c0 :: cs0).drop (I + 1))).childOkB = true := by
            rw [childOkB_iff]
            constructor
            · right
              rw [hlc', hli']
            · intro c hc
              rcases hmemN c hc with rfl | rfl | hc'
              · exact sp2
              · exact sp3
              · have := childOk_children hco
                simp only [Node.children_mk] at this
                exact this c hc'
          have hbN : ∀ c ∈ (c0 :: cs0).take I ++
              left :: right :: (c0 :: cs0).drop (I + 1),
              c.boundedB minP maxP = true := by
            intro c hc
            rcases hmemN c hc with rfl | rfl | hc'
            · refine boundedB_of _ _ _ (by omega) (by omega) ?_
              intro d hd
              exact boundedB_children hchb d (sp6 d hd)
            · refine boundedB_of _ _ _ (by omega) (by omega) ?_
              intro d hd
              exact boundedB_children hchb d (sp7 d hd)
            · exact hb c hc'
          have hchsh : child.balB = true := by
            have := bal_children hsh
            simp only [Node.children_mk] at this
            exact this child hchmem
          have hAgO := bal_agree hsh
          simp only [Node.children_mk] at hAgO
          have hAllN : ∀ x, (x = left ∨ x = right ∨ x ∈ c0 :: cs0) →
              x.height = child.height := by
            intro x hx
            rcases hx with rfl | rfl | hx'
            · exact sp14 hchsh
            · exact sp15 hchsh
            · exact hAgO x hx' child hchmem
          have hshN : (Node.mk (its.take I ++ piv :: its.drop I)
              ((c0 :: cs0).take I ++
                left :: right :: (c0 :: cs0).drop (I + 1))).balB = true := by
            rw [balB_iff]
            constructor
            · intro c hc d hd
              rw [hAllN c (hmemN c hc), hAllN d (hmemN d hd)]
            · intro c hc
              rcases hmemN c hc with rfl | rfl | hc'
              · exact sp12 hchsh
              · exact sp13 hchsh
              · have := bal_children hsh
                simp only [Node.children_mk] at this
                exact this c hc'
          have hneN0 : (c0 :: cs0).take I ++
              left :: right :: (c0 :: cs0).drop (I + 1) ≠ [] := by
            intro hcon
            have hl2 := congrArg List.length hcon
            rw [hlc'] at hl2
            simp at hl2
          have hHeightN : (Node.mk (its.take I ++ piv :: its.drop I)
              ((c0 :: cs0).take I ++
                left :: right :: (c0 :: cs0).drop (I + 1))).height =
              (Node.mk its (c0 :: cs0)).height := by
            rw [height_of_uniform _ hneN0 (fun c hc => hAllN c (hmemN c hc)),
              height_of_uniform _ (by simp)
                (fun c hc => hAgO c hc child hchmem)]
          have hsorN : sortedK (inter ((c0 :: cs0).take I ++
              left :: right :: (c0 :: cs0).drop (I + 1))
              (its.take I ++ piv :: its.drop I)) := by
            rw [hS1]
            exact hsor'
          have hchildheight : child.height < (Node.mk its (c0 :: cs0)).height := by
            apply height_child_lt
            simp only [Node.children_mk]
            exact hchmem
          have hInT : ((Node.mk its (c0 :: cs0)).maybeSplitChild I
              maxP).2.items.getD I nilPair = piv := by
            rw [hms]
            show (its.insertIdx I piv).getD I nilPair = piv
            rw [hits']
            exact getD_append_len _ _ _ _ htakeLenI
          have hAorig : ∀ x ∈ interP ((c0 :: cs0).take I) (its.take I),
              keyLt x item :=
            interP_bound hlen hsor' I hiL (fun k hk => hgetlt k hk)
          have hBorig : ∀ y ∈ afterIdx (c0 :: cs0) its I, keyLt item y :=
            afterIdx_bound hlen hiL hsor' (fun k hk hkl => hgetgt k hk hkl)
          have hXpiv : ∀ x ∈ interP ((c0 :: cs0).take I) (its.take I) ++
              left.inorder, keyLt x piv := by
            have hss : sortedK ((interP ((c0 :: cs0).take I) (its.take I) ++
                left.inorder) ++
                  piv :: (right.inorder ++ afterIdx (c0 :: cs0) its I)) := by
              rw [← hOrigAssoc]
              exact hsor'
            exact (sorted_split hss).1
          have hYpiv : ∀ y ∈ right.inorder ++ afterIdx (c0 :: cs0) its I,
              keyLt piv y := by
            have hss : sortedK ((interP ((c0 :: cs0).take I) (its.take I) ++
                left.inorder) ++
                  piv :: (right.inorder ++ afterIdx (c0 :: cs0) its I)) := by
              rw [← hOrigAssoc]
              exact hsor'
            exact (sorted_split hss).2
          by_cases hroute1 : lessP item piv = true
          · unfold insConc
            rw [insertF_split_lt (n := Node.mk its (c0 :: cs0))
              (by simpa using hfound') (by simp) hguard2
              (by simp only [Node.items_mk]; rw [← hI, hInT]; exact hroute1)]
            simp only [Node.items_mk, Node.children_mk]
            rw [← hI, hms]
            dsimp only
            rw [hchs', hits']
            simp only [Node.items_mk, Node.children_mk, childD_mk]
            have hgl : ((c0 :: cs0).take I ++
                left :: right :: (c0 :: cs0).drop (I + 1)).getD I default =
                  left := getD_append_len _ _ _ _ htakeLen
            have hhL : left.height ≤ fuel := by
              have h1 := sp8
              omega
            have hAN : ∀ x ∈ interP (((c0 :: cs0).take I ++
                left :: right :: (c0 :: cs0).drop (I + 1)).take I)
                ((its.take I ++ piv :: its.drop I).take I), keyLt x item := by
              rw [take_append_len _ _ _ htakeLen, take_append_len _ _ _ htakeLenI]
              exact hAorig
            have hdc : ((c0 :: cs0).take I ++
                left :: right :: (c0 :: cs0).drop (I + 1)).drop (I + 1) =
                  right :: (c0 :: cs0).drop (I + 1) := by
              rw [show (c0 :: cs0).take I ++
                  left :: right :: (c0 :: cs0).drop (I + 1) =
                  ((c0 :: cs0).take I ++ [left]) ++
                    right :: (c0 :: cs0).drop (I + 1) by simp]
              exact drop_append_len _ _ _ (by simp only [List.length_append,
                List.length_cons, List.length_nil]; omega)
            have hdi : (its.take I ++ piv :: its.drop I).drop (I + 1) =
                its.drop I := by
              rw [show its.take I ++ piv :: its.drop I =
                (its.take I ++ [piv]) ++ its.drop I by simp]
              exact drop_append_len _ _ _ (by simp only [List.length_append,
                List.length_cons, List.length_nil]; omega)
            have hBN : ∀ y ∈ afterIdx ((c0 :: cs0).take I ++
                left :: right :: (c0 :: cs0).drop (I + 1))
                (its.take I ++ piv :: its.drop I) I, keyLt item y := by
              unfold afterIdx
              rw [if_pos (by rw [hli']; omega)]
              have hg : (its.take I ++ piv :: its.drop I).getD I nilPair = piv :=
                getD_append_len _ _ _ _ htakeLenI
              rw [hg, hdc, hdi, hInner right]
              intro y hy
              rcases List.mem_cons.1 hy with rfl | hy'
              · exact (lessP_iff _ _).1 hroute1
              · exact keyLt_trans ((lessP_iff _ _).1 hroute1) (hYpiv y hy')
            obtain ⟨d1, d2, d3, d4, d5⟩ := insert_descend minP maxP fuel hmin
              ih (its.take I ++ piv :: its.drop I)
              ((c0 :: cs0).take I ++ left :: right :: (c0 :: cs0).drop (I + 1))
              item I (by rw [hlc', hli']) (by rw [hli']; omega)
              hcoN hsorN hbN hshN hAN hBN
              (by rw [hgl]; omega) (by rw [hgl]; exact hhL)
            have hne2 : ((c0 :: cs0).take I ++
                left :: right :: (c0 :: cs0).drop (I + 1)).set I
                (Node.insertF fuel (((c0 :: cs0).take I ++
                  left :: right :: (c0 :: cs0).drop (I + 1)).getD I default)
                  item maxP lessP).2 ≠ [] := by
              intro hcon
              rw [hcon] at d4
              simp at d4
            refine ⟨?_, ?_, d3, ?_, ?_, ?_, d5.trans hHeightN⟩
            · rw [inorder_internal its _ hne]
              conv_rhs => rw [← hS1]
              exact d1
            · rw [inorder_internal its _ hne, inorder_internal _ _ hne2]
              rw [hS1] at d2
              exact d2
            · rw [hli']
            · rw [hli']
              omega
            · rw [d4]
              rfl
          · have hroute1' : lessP item piv = false := by
              rwa [Bool.not_eq_true] at hroute1
            by_cases hroute2 : lessP piv item = true
            · unfold insConc
              rw [insertF_split_gt (n := Node.mk its (c0 :: cs0))
                (by simpa using hfound') (by simp) hguard2
                (by simp only [Node.items_mk]; rw [← hI, hInT]; exact hroute1')
                (by simp only [Node.items_mk]; rw [← hI, hInT]; exact hroute2)]
              simp only [Node.items_mk, Node.children_mk]
              rw [← hI, hms]
              dsimp only
              rw [hchs', hits']
              simp only [Node.items_mk, Node.children_mk, childD_mk]
              have hchsNassoc : (c0 :: cs0).take I ++
                  left :: right :: (c0 :: cs0).drop (I + 1) =
                  ((c0 :: cs0).take I ++ [left]) ++
                    right :: (c0 :: cs0).drop (I + 1) := by simp
              have hgl : ((c0 :: cs0).take I ++
                  left :: right :: (c0 :: cs0).drop (I + 1)).getD I default =
                    left := getD_append_len _ _ _ _ htakeLen
              have hgr : ((c0 :: cs0).take I ++
                  left :: right :: (c0 :: cs0).drop (I + 1)).getD (I + 1)
                    default = right := by
                rw [hchsNassoc]
                exact getD_append_len _ _ _ _ (by simp only [List.length_append,
                  List.length_cons, List.length_nil]; omega)
              have hgp : (its.take I ++ piv :: its.drop I).getD I nilPair = piv :=
                getD_append_len _ _ _ _ htakeLenI
              have hhR : right.height ≤ fuel := by
                have h1 := sp9
                omega
              have hAN : ∀ x ∈ interP (((c0 :: cs0).take I ++
                  left :: right :: (c0 :: cs0).drop (I + 1)).take (I + 1))
                  ((its.take I ++ piv :: its.drop I).take (I + 1)),
                    keyLt x item := by
                rw [interP_snoc _ _ I (by rw [hlc']; omega) (by rw [hli']; omega),
                  take_append_len _ _ _ htakeLen, take_append_len _ _ _ htakeLenI,
                  hgl]
                intro x hx
                rcases List.mem_append.1 hx with hx' | hx'
                · exact keyLt_trans (hXpiv x hx') ((lessP_iff _ _).1 hroute2)
                · have hxp : x = (its.take I ++ piv :: its.drop I).getD I
                      nilPair := by simpa using hx'
                  rw [hxp, hgp]
                  exact (lessP_iff _ _).1 hroute2
              have hAfterEq : afterIdx ((c0 :: cs0).take I ++
                  left :: right :: (c0 :: cs0).drop (I + 1))
                  (its.take I ++ piv :: its.drop I) (I + 1) =
                    afterIdx (c0 :: cs0) its I := by
                unfold afterIdx
                rcases Nat.lt_or_ge I its.length with hlt | hge
                · rw [if_pos (by rw [hli']; omega), if_pos hlt]
                  have hdropI : its.drop I =
                      its.getD I nilPair :: its.drop (I + 1) :=
                    list_drop_parts its I hlt
                  have e1 : (its.take I ++ piv :: its.drop I).getD (I + 1)
                      nilPair = its.getD I nilPair := by
                    rw [hdropI, show its.take I ++
                      piv :: its.getD I nilPair :: its.drop (I + 1) =
                      (its.take I ++ [piv]) ++
                        its.getD I nilPair :: its.drop (I + 1) by simp]
                    exact getD_append_len _ _ _ _ (by
                      simp only [List.length_append, List.length_cons,
                        List.length_nil]; omega)
                  have e2 : ((c0 :: cs0).take I ++
                      left :: right :: (c0 :: cs0).drop (I + 1)).drop (I + 2) =
                        (c0 :: cs0).drop (I + 1) := by
                    rw [show (c0 :: cs0).take I ++
                      left :: right :: (c0 :: cs0).drop (I + 1) =
                      ((c0 :: cs0).take I ++ [left, right]) ++
                        (c0 :: cs0).drop (I + 1) by simp]
                    exact drop_append_len _ _ _ (by
                      simp only [List.length_append, List.length_cons,
                        List.length_nil]; omega)
                  have e3 : (its.take I ++ piv :: its.drop I).drop (I + 2) =
                      its.drop (I + 1) := by
                    rw [hdropI, show its.take I ++
                      piv :: its.getD I nilPair :: its.drop (I + 1) =
                      (its.take I ++ [piv, its.getD I nilPair]) ++
                        its.drop (I + 1) by simp]
                    exact drop_append_len _ _ _ (by
                      simp only [List.length_append, List.length_cons,
                        List.length_nil]; omega)
                  rw [e1, e2, e3]
                · rw [if_neg (by rw [hli']; omega), if_neg (by omega)]
              have hBN : ∀ y ∈ afterIdx ((c0 :: cs0).take I ++
                  left :: right :: (c0 :: cs0).drop (I + 1))
                  (its.take I ++ piv :: its.drop I) (I + 1), keyLt item y := by
                rw [hAfterEq]
                exact hBorig
              obtain ⟨d1, d2, d3, d4, d5⟩ := insert_descend minP maxP fuel
                hmin ih (its.take I ++ piv :: its.drop I)
                ((c0 :: cs0).take I ++ left :: right :: (c0 :: cs0).drop (I + 1))
                item (I + 1) (by rw [hlc', hli']) (by rw [hli']; omega)
                hcoN hsorN hbN hshN hAN hBN
                (by rw [hgr]; omega) (by rw [hgr]; exact hhR)
              have hne2 : ((c0 :: cs0).take I ++
                  left :: right :: (c0 :: cs0).drop (I + 1)).set (I + 1)
                  (Node.insertF fuel (((c0 :: cs0).take I ++
                    left :: right :: (c0 :: cs0).drop (I + 1)).getD (I + 1)
                      default) item maxP lessP).2 ≠ [] := by
                intro hcon
                rw [hcon] at d4
                simp at d4
              refine ⟨?_, ?_, d3, ?_, ?_, ?_, d5.trans hHeightN⟩
              · rw [inorder_internal its _ hne]
                conv_rhs => rw [← hS1]
                exact d1
              · rw [inorder_internal its _ hne, inorder_internal _ _ hne2]
                rw [hS1] at d2
                exact d2
              · rw [hli']
              · rw [hli']
                omega
              · rw [d4]
                rfl
            · -- keys equal: the promoted pivot is replaced in place
              have hroute2' : lessP piv item = false := by
                rwa [Bool.not_eq_true] at hroute2
              have hkeyEq : piv.key = item.key := by
                unfold lessP at hroute1' hroute2'
                simp only [decide_eq_false_iff_not] at hroute1' hroute2'
                omega
              unfold insConc
              rw [insertF_split_eq (n := Node.mk its (c0 :: cs0))
                (by simpa using hfound') (by simp) hguard2
                (by simp only [Node.items_mk]; rw [← hI, hInT]; exact hroute1')
                (by simp only [Node.items_mk]; rw [← hI, hInT]; exact hroute2')]
              simp only [Node.items_mk, Node.children_mk]
              rw [← hI, hms]
              dsimp only
              rw [hchs', hits']
              simp only [Node.items_mk, Node.children_mk, childD_mk]
              have hgp : (its.take I ++ piv :: its.drop I).getD I nilPair = piv :=
                getD_append_len _ _ _ _ htakeLenI
              have hsetI : (its.take I ++ piv :: its.drop I).set I item =
                  its.take I ++ item :: its.drop I :=
                set_append_len _ _ _ _ _ htakeLenI
              have hXlt : ∀ x ∈ interP ((c0 :: cs0).take I) (its.take I) ++
                  left.inorder, keyLt x item :=
                fun x hx => keyLt_congr_r (hXpiv x hx) hkeyEq
              have hneN : (c0 :: cs0).take I ++
                  left :: right :: (c0 :: cs0).drop (I + 1) ≠ [] := by
                intro hcon
                have hl2 := congrArg List.length hcon
                rw [hlc'] at hl2
                simp at hl2
              have hIns2 : inter ((c0 :: cs0).take I ++
                  left :: right :: (c0 :: cs0).drop (I + 1))
                  ((its.take I ++ piv :: its.drop I).set I item) =
                    insKey item (inter (c0 :: cs0) its) := by
                rw [hsetI, hN1g item, hOrigAssoc, insKey_append_left hXlt,
                  insKey_cons_eq hkeyEq]
                simp
              refine ⟨?_, ?_, ⟨?_, ?_, ?_, ?_⟩, ?_, ?_, by simp,
                (height_mk_irrel _ _ _).trans hHeightN⟩
              · rw [hgp, inorder_internal its _ hne]
                conv_rhs => rw [hOrigAssoc]
                rw [lookupKey_append_left (fun x hx => keyNe_of_lt (hXlt x hx)),
                  lookupKey_cons_eq hkeyEq]
              · rw [inorder_internal its _ hne, inorder_internal _ _ hneN]
                exact hIns2
              · rw [childOkB_iff]
                constructor
                · right
                  rw [hlc', List.length_set, hli']
                · intro c hc
                  have := childOk_children hcoN
                  simp only [Node.children_mk] at this
                  exact this c hc
              · rw [inorder_internal _ _ hneN, hIns2,
                  ← inorder_internal its _ hne]
                exact sortedK_insKey hsor
              · intro c hc
                simp only [Node.children_mk] at hc
                exact hbN c hc
              · rw [balB_iff]
                exact (balB_iff _ _).1 hshN
              · rw [List.length_set, hli']
              · rw [List.length_set, hli']
                omega

/-! ## Positional helpers for the remove development -/

theorem take_set_le {α : Type _} (l : List α) (j k : Nat) (x : α)
    (h : k ≤ j) : (l.set j x).take k = l.take k := by
  induction l generalizing j k with
  | nil => simp
  | cons a as ih =>
    cases j with
    | zero =>
      have : k = 0 := by omega
      subst this
      simp
    | succ j =>
      cases k with
      | zero => simp
      | succ k => simp [List.set_cons_succ, ih j k (by omega)]

theorem drop_set_lt {α : Type _} (l : List α) (j k : Nat) (x : α)
    (h : j < k) : (l.set j x).drop k = l.drop k := by
  induction l generalizing j k with
  | nil => simp
  | cons a as ih =>
    cases j with
    | zero =>
      cases k with
      | zero => omega
      | succ k => simp
    | succ j =>
      cases k with
      | zero => omega
      | succ k => simpa using ih j k (by omega)

theorem getD_set_ne {α : Type _} [Inhabited α] (l : List α) (j k : Nat) (x : α)
    (h : j ≠ k) : (l.set j x).getD k default = l.getD k default := by
  induction l generalizing j k with
  | nil => simp
  | cons a as ih =>
    cases j with
    | zero =>
      cases k with
      | zero => omega
      | succ k => simp
    | succ j =>
      cases k with
      | zero => simp
      | succ k => simpa using ih j k (by omega)

theorem drop_set_eq {α : Type _} (l : List α) (i : Nat) (x : α)
    (h : i < l.length) : (l.set i x).drop i = x :: l.drop (i + 1) :=
  drop_set_self l i x h

theorem take_eraseIdx {α : Type _} (l : List α) (j : Nat) :
    (l.eraseIdx j).take j = l.take j := by
  rw [list_eraseIdx_parts]
  by_cases h : j ≤ l.length
  · rcases Nat.lt_or_ge j l.length with h1 | h1
    · exact take_append_len _ _ _ (by rw [List.length_take]; omega)
    · have : j = l.length := by omega
      subst this
      rw [List.drop_eq_nil_of_le (by omega), List.append_nil,
        List.take_take]
      simp
  · rw [List.drop_eq_nil_of_le (by omega), List.append_nil, List.take_take]
    simp

theorem drop_eraseIdx {α : Type _} (l : List α) (j : Nat) (h : j < l.length) :
    (l.eraseIdx j).drop j = l.drop (j + 1) := by
  rw [list_eraseIdx_parts]
  exact drop_append_len _ _ _ (by rw [List.length_take]; omega)

theorem getD_eraseIdx_lt {α : Type _} [Inhabited α] (l : List α) (j k : Nat)
    (h : k < j) : (l.eraseIdx j).getD k default = l.getD k default := by
  have h1 : (l.eraseIdx j).getD k default =
      ((l.eraseIdx j).take j).getD k default := (getD_take _ _ _ h).symm
  rw [h1, take_eraseIdx, getD_take _ _ _ h]

theorem getLastD_eq_getLast {α : Type _} [Inhabited α] {l : List α}
    (h : l ≠ []) : l.getLastD default = l.getLast h := by
  rw [List.getLastD_eq_getLast?, List.getLast?_eq_getLast l h]
  rfl

theorem dropLast_append_getLast {α : Type _} [Inhabited α] {l : List α}
    (h : l ≠ []) : l.dropLast ++ [l.getLastD default] = l := by
  rw [getLastD_eq_getLast h]
  exact List.dropLast_append_getLast h

theorem headD_append_left {α : Type _} [Inhabited α] {A : List α}
    (B : List α) (h : A ≠ []) : (A ++ B).headD default = A.headD default := by
  cases A with
  | nil => exact absurd rfl h
  | cons a as => rfl

theorem getLastD_append_right {α : Type _} [Inhabited α] (A : List α)
    {B : List α} (h : B ≠ []) :
    (A ++ B).getLastD default = B.getLastD default := by
  rw [List.getLastD_eq_getLast?, List.getLastD_eq_getLast?,
    List.getLast?_append_of_ne_nil A h]

theorem tail_append {α : Type _} {A : List α} (B : List α) (h : A ≠ []) :
    (A ++ B).drop 1 = A.drop 1 ++ B := by
  cases A with
  | nil => exact absurd rfl h
  | cons a as => simp

theorem dropLast_append_ne {α : Type _} (A : List α) {B : List α}
    (h : B ≠ []) : (A ++ B).dropLast = A ++ B.dropLast := by
  rw [List.dropLast_append_of_ne_nil _ h]

theorem mem_headD {α : Type _} [Inhabited α] {l : List α} (h : l ≠ []) :
    l.headD default ∈ l := by
  cases l with
  | nil => exact absurd rfl h
  | cons a as => simp

theorem mem_getLastD {α : Type _} [Inhabited α] {l : List α} (h : l ≠ []) :
    l.getLastD default ∈ l := by
  rw [getLastD_eq_getLast h]
  exact List.getLast_mem h

theorem ne_nil_of_length_pos {α : Type _} {l : List α} (h : 0 < l.length) :
    l ≠ [] := by
  intro hcon
  rw [hcon] at h
  simp at h

/-! ## Further interleaving decompositions -/

/-- The aligned tail from index `j` in child-first normal form. -/
theorem inter_drop_decomp (chs : List Node) (its : List Pair) (j : Nat)
    (hlen : chs.length = its.length + 1) (hj : j ≤ its.length) :
    inter (chs.drop j) (its.drop j) =
      (chs.getD j default).inorder ++ afterIdx chs its j := by
  unfold afterIdx
  rcases Nat.lt_or_ge j its.length with hlt | hge
  · rw [if_pos hlt]
    exact inter_step chs its j hlen hlt
  · have : j = its.length := by omega
    subst this
    rw [if_neg (by omega), inter_last chs its hlen, List.append_nil]

/-- An aligned interleaving pops its final item. -/
theorem interP_eq_inter_dropLast : ∀ (X : List Node) (xs : List Pair),
    X.length = xs.length → xs ≠ [] →
    interP X xs = inter X xs.dropLast ++ [xs.getLastD nilPair] := by
  intro X
  induction X with
  | nil =>
    intro xs hlen hne
    cases xs with
    | nil => exact absurd rfl hne
    | cons x xs' => simp at hlen
  | cons c X' ih =>
    intro xs hlen hne
    cases xs with
    | nil => simp at hlen
    | cons x xs' =>
      cases xs' with
      | nil =>
        have hX : X' = [] := by simpa using hlen
        subst hX
        have h0 : interP ([] : List Node) [] = [] := rfl
        rw [interP_cons, h0]
        simp [inter_single]
      | cons y ys =>
        rw [interP_cons, ih (y :: ys) (by simpa using hlen) (by simp),
          List.dropLast_cons₂, inter_cons]
        simp

/-- A trailing child/item pair peels off an unaligned interleaving. -/
theorem inter_snoc : ∀ (Y : List Node) (ys : List Pair) (c : Node) (x : Pair),
    Y.length = ys.length + 1 →
    inter (Y ++ [c]) (ys ++ [x]) = inter Y ys ++ x :: c.inorder := by
  intro Y
  induction Y with
  | nil => intro ys c x hlen; simp at hlen
  | cons c0 Y' ih =>
    intro ys c x hlen
    cases ys with
    | nil =>
      have hY : Y' = [] := by simpa using hlen
      subst hY
      simp only [List.nil_append, List.cons_append, List.singleton_append]
      rw [inter_cons, inter_single, inter_single]
    | cons y ys' =>
      simp only [List.cons_append]
      rw [inter_cons, inter_cons, ih ys' c x (by simpa using hlen)]
      simp

/-- Concatenating two unaligned interleavings around a separator. -/
theorem inter_merge : ∀ (Y : List Node) (ys : List Pair) (Z : List Node)
    (zs : List Pair) (x : Pair), Y.length = ys.length + 1 →
    inter (Y ++ Z) (ys ++ x :: zs) = inter Y ys ++ x :: inter Z zs := by
  intro Y
  induction Y with
  | nil => intro ys Z zs x hlen; simp at hlen
  | cons c0 Y' ih =>
    intro ys Z zs x hlen
    cases ys with
    | nil =>
      have hY : Y' = [] := by simpa using hlen
      subst hY
      simp only [List.singleton_append, List.nil_append]
      rw [inter_cons, inter_single]
    | cons y ys' =>
      simp only [List.cons_append]
      rw [inter_cons, inter_cons, ih ys' Z zs x (by simpa using hlen)]
      simp

/-- Decomposition after overwriting the child and the item at index `i`. -/
theorem getD_set_self_pair (l : List Pair) (i : Nat) (x : Pair)
    (h : i < l.length) : (l.set i x).getD i nilPair = x := by
  rw [List.getD_eq_getElem _ nilPair (by simpa using h)]
  exact List.getElem_set_self _

theorem inter_setboth_decomp (chs : List Node) (its : List Pair) (i : Nat)
    (c' : Node) (x : Pair) (hlen : chs.length = its.length + 1)
    (hi : i < its.length) :
    inter (chs.set i c') (its.set i x) =
      interP (chs.take i) (its.take i) ++ c'.inorder ++
        x :: inter (chs.drop (i + 1)) (its.drop (i + 1)) := by
  rw [inter_set_decomp chs (its.set i x) i c'
      (by rw [List.length_set]; exact hlen) (by rw [List.length_set]; omega),
    take_set_self]
  unfold afterIdx
  rw [if_pos (by rw [List.length_set]; omega),
    getD_set_self_pair _ _ _ hi, drop_succ_set]

/-! ## Determination of `items.find` on sorted lists -/

theorem getD_mem_pair {l : List Pair} {k : Nat} (h : k < l.length) :
    l.getD k nilPair ∈ l := by
  rw [List.getD_eq_getElem _ _ h]
  exact List.getElem_mem h

theorem getD_take_pair (l : List Pair) (i m : Nat) (h : i < m) :
    (l.take m).getD i nilPair = l.getD i nilPair := by
  by_cases hl : i < l.length
  · rw [List.getD_eq_getElem _ nilPair (by rw [List.length_take]; omega),
      List.getD_eq_getElem _ nilPair hl]
    exact List.getElem_take l
  · rw [List.getD_eq_default _ nilPair (by rw [List.length_take]; omega),
      List.getD_eq_default _ nilPair (by omega)]

theorem getD_mem_take_pair {l : List Pair} {k j : Nat} (hk : k < j)
    (hl : k < l.length) : l.getD k nilPair ∈ l.take j := by
  rw [← getD_take_pair l k j hk]
  exact getD_mem_pair (by rw [List.length_take]; omega)

theorem getD_mem_drop_pair {l : List Pair} {k j : Nat} (hj : j ≤ k)
    (hl : k < l.length) : l.getD k nilPair ∈ l.drop j := by
  have h1 : (l.drop j).getD (k - j) nilPair = l.getD k nilPair := by
    rw [List.getD_eq_getElem _ _ (by rw [List.length_drop]; omega),
      List.getD_eq_getElem _ _ hl]
    rw [List.getElem_drop l]
    congr 1
    omega
  rw [← h1]
  exact getD_mem_pair (by rw [List.length_drop]; omega)

/-- `find` is determined by the not-found characterization. -/
theorem find_det_notfound (its : List Pair) (item : Pair) (hs : sortedK its)
    {j : Nat} (hj : j ≤ its.length)
    (hlo : ∀ x ∈ its.take j, keyLt x item)
    (hhi : ∀ y ∈ its.drop j, keyLt item y) :
    Items.find its item lessP = (j, false) := by
  by_cases hf : (Items.find its item lessP).2 = true
  · exfalso
    obtain ⟨hiL, hkey, _, _⟩ := find_found_parts hs hf
    rcases Nat.lt_or_ge (Items.find its item lessP).1 j with hlt | hge
    · have hmem := getD_mem_take_pair hlt hiL
      have := hlo _ hmem
      unfold keyLt at this
      omega
    · have hmem := getD_mem_drop_pair hge hiL
      have := hhi _ hmem
      unfold keyLt at this
      omega
  · have hf' : (Items.find its item lessP).2 = false := by
      rwa [Bool.not_eq_true] at hf
    obtain ⟨hiL, htk, hdp⟩ := find_notfound_parts hs hf'
    have h1 : (Items.find its item lessP).1 = j := by
      rcases Nat.lt_trichotomy (Items.find its item lessP).1 j with hlt | heq | hgt
      · exfalso
        have hIlen : (Items.find its item lessP).1 < its.length := by omega
        have hm1 := getD_mem_take_pair hlt hIlen
        have hm2 := getD_mem_drop_pair (le_refl _) hIlen
        have hx := hlo _ hm1
        have hy := hdp _ hm2
        unfold keyLt at hx hy
        omega
      · exact heq
      · exfalso
        have hjlen : j < its.length := by omega
        have hm1 := getD_mem_take_pair hgt hjlen
        have hm2 := getD_mem_drop_pair (le_refl _) hjlen
        have hx := htk _ hm1
        have hy := hhi _ hm2
        unfold keyLt at hx hy
        omega
    exact Prod.ext_iff.2 ⟨h1, hf'⟩

/-- `find` is determined by a key match at a position of a sorted list. -/
theorem find_det_found (its : List Pair) (item : Pair) (hs : sortedK its)
    {j : Nat} (hj : j < its.length)
    (hkey : (its.getD j nilPair).key = item.key) :
    Items.find its item lessP = (j, true) := by
  by_cases hf : (Items.find its item lessP).2 = true
  · obtain ⟨hiL, hkey2, htk, _⟩ := find_found_parts hs hf
    have h1 : (Items.find its item lessP).1 = j := by
      rcases Nat.lt_trichotomy (Items.find its item lessP).1 j with hlt | heq | hgt
      · exfalso
        have := sortedK_getD_lt hs hlt hj
        unfold keyLt at this
        omega
      · exact heq
      · exfalso
        have := sortedK_getD_lt hs hgt hiL
        unfold keyLt at this
        omega
    exact Prod.ext_iff.2 ⟨h1, hf⟩
  · exfalso
    have hf' : (Items.find its item lessP).2 = false := by
      rwa [Bool.not_eq_true] at hf
    obtain ⟨hiL, htk, hdp⟩ := find_notfound_parts hs hf'
    rcases Nat.lt_or_ge j (Items.find its item lessP).1 with hlt | hge
    · have := htk _ (getD_mem_take_pair hlt hj)
      unfold keyLt at this
      omega
    · have := hdp _ (getD_mem_drop_pair hge hj)
      unfold keyLt at this
      omega

/-! ## Controlled unfolding of `Node.removeF` -/

theorem removeF_leaf_max {fuel : Nat} {n : Node} {item : Pair} {minP : Nat}
    {less : Pair → Pair → Bool} (hleaf : n.children.isEmpty = true) :
    Node.removeF (fuel + 1) n item minP .removeMax less =
      (n.items.getLastD nilPair, Node.mk n.items.dropLast n.children) := by
  rw [Node.removeF]
  simp only [hleaf, if_true]

theorem removeF_leaf_min {fuel : Nat} {n : Node} {item : Pair} {minP : Nat}
    {less : Pair → Pair → Bool} (hleaf : n.children.isEmpty = true) :
    Node.removeF (fuel + 1) n item minP .removeMin less =
      (n.items.headD nilPair, Node.mk (n.items.eraseIdx 0) n.children) := by
  rw [Node.removeF]
  simp only [hleaf, if_true]

theorem removeF_leaf_pair_found {fuel : Nat} {n : Node} {item : Pair}
    {minP : Nat} {less : Pair → Pair → Bool} (hleaf : n.children.isEmpty = true)
    (h : (Items.find n.items item less).2 = true) :
    Node.removeF (fuel + 1) n item minP .removePair less =
      (n.items.getD (Items.find n.items item less).1 nilPair,
       Node.mk (n.items.eraseIdx (Items.find n.items item less).1)
         n.children) := by
  rw [Node.removeF]
  simp only [hleaf, h, if_true]

theorem removeF_leaf_pair_notfound {fuel : Nat} {n : Node} {item : Pair}
    {minP : Nat} {less : Pair → Pair → Bool} (hleaf : n.children.isEmpty = true)
    (h : (Items.find n.items item less).2 = false) :
    Node.removeF (fuel + 1) n item minP .removePair less = (nilPair, n) := by
  rw [Node.removeF]
  simp only [hleaf, h, if_true, Bool.false_eq_true, if_false]

theorem removeF_max_grow {fuel : Nat} {n : Node} {item : Pair} {minP : Nat}
    {less : Pair → Pair → Bool} (hch : n.children.isEmpty = false)
    (hsmall : (n.childD n.items.length).items.length ≤ minP) :
    Node.removeF (fuel + 1) n item minP .removeMax less =
      Node.removeF fuel (n.growChild n.items.length minP) item minP
        .removeMax less := by
  rw [Node.removeF]
  simp only [hch, Bool.false_eq_true, if_false, if_pos hsmall]

theorem removeF_max_descend {fuel : Nat} {n : Node} {item : Pair} {minP : Nat}
    {less : Pair → Pair → Bool} (hch : n.children.isEmpty = false)
    (hbig : ¬ (n.childD n.items.length).items.length ≤ minP) :
    Node.removeF (fuel + 1) n item minP .removeMax less =
      ((Node.removeF fuel (n.childD n.items.length) item minP .removeMax
          less).1,
       Node.mk n.items
         (n.children.set n.items.length
           (Node.removeF fuel (n.childD n.items.length) item minP .removeMax
             less).2)) := by
  rw [Node.removeF]
  simp only [hch, Bool.false_eq_true, if_false, if_neg hbig]

theorem removeF_min_grow {fuel : Nat} {n : Node} {item : Pair} {minP : Nat}
    {less : Pair → Pair → Bool} (hch : n.children.isEmpty = false)
    (hsmall : (n.childD 0).items.length ≤ minP) :
    Node.removeF (fuel + 1) n item minP .removeMin less =
      Node.removeF fuel (n.growChild 0 minP) item minP .removeMin less := by
  rw [Node.removeF]
  simp only [hch, Bool.false_eq_true, if_false, if_pos hsmall]

theorem removeF_min_descend {fuel : Nat} {n : Node} {item : Pair} {minP : Nat}
    {less : Pair → Pair → Bool} (hch : n.children.isEmpty = false)
    (hbig : ¬ (n.childD 0).items.length ≤ minP) :
    Node.removeF (fuel + 1) n item minP .removeMin less =
      ((Node.removeF fuel (n.childD 0) item minP .removeMin less).1,
       Node.mk n.items
         (n.children.set 0
           (Node.removeF fuel (n.childD 0) item minP .removeMin less).2)) := by
  rw [Node.removeF]
  simp only [hch, Bool.false_eq_true, if_false, if_neg hbig]

theorem removeF_pair_grow {fuel : Nat} {n : Node} {item : Pair} {minP : Nat}
    {less : Pair → Pair → Bool} (hch : n.children.isEmpty = false)
    (hsmall : (n.childD (Items.find n.items item less).1).items.length ≤
      minP) :
    Node.removeF (fuel + 1) n item minP .removePair less =
      Node.removeF fuel
        (n.growChild (Items.find n.items item less).1 minP) item minP
        .removePair less := by
  rw [Node.removeF]
  simp only [hch, Bool.false_eq_true, if_false, if_pos hsmall]

theorem removeF_pair_found {fuel : Nat} {n : Node} {item : Pair} {minP : Nat}
    {less : Pair → Pair → Bool} (hch : n.children.isEmpty = false)
    (hf : (Items.find n.items item less).2 = true)
    (hbig : ¬ (n.childD (Items.find n.items item less).1).items.length ≤
      minP) :
    Node.removeF (fuel + 1) n item minP .removePair less =
      (n.items.getD (Items.find n.items item less).1 nilPair,
       Node.mk
         (n.items.set (Items.find n.items item less).1
           (Node.removeF fuel (n.childD (Items.find n.items item less).1)
             nilPair minP .removeMax less).1)
         (n.children.set (Items.find n.items item less).1
           (Node.removeF fuel (n.childD (Items.find n.items item less).1)
             nilPair minP .removeMax less).2)) := by
  rw [Node.removeF]
  simp only [hch, Bool.false_eq_true, if_false, if_neg hbig, hf, if_true]

theorem removeF_pair_descend {fuel : Nat} {n : Node} {item : Pair} {minP : Nat}
    {less : Pair → Pair → Bool} (hch : n.children.isEmpty = false)
    (hf : (Items.find n.items item less).2 = false)
    (hbig : ¬ (n.childD (Items.find n.items item less).1).items.length ≤
      minP) :
    Node.removeF (fuel + 1) n item minP .removePair less =
      ((Node.removeF fuel (n.childD (Items.find n.items item less).1) item
          minP .removePair less).1,
       Node.mk n.items
         (n.children.set (Items.find n.items item less).1
           (Node.removeF fuel (n.childD (Items.find n.items item less).1) item
             minP .removePair less).2)) := by
  rw [Node.removeF]
  simp only [hch, Bool.false_eq_true, if_false, if_neg hbig, hf, if_true]

/-! ## List-level model of removal, and the `growChildAndRemove` branches -/

/-- List-level result of `node.remove`: removed value and remaining list. -/
def remRes : ToRemove → Pair → List Pair → Pair × List Pair
  | .removeMax, _, l => (l.getLastD nilPair, l.dropLast)
  | .removeMin, _, l => (l.headD nilPair, l.drop 1)
  | .removePair, item, l => (lookupKey item l, eraseKey item l)

/-- The child index `node.remove` selects for each removal type. -/
def remIdx (typ : ToRemove) (item : Pair) (its : List Pair) : Nat :=
  match typ with
  | .removeMax => its.length
  | .removeMin => 0
  | .removePair => (Items.find its item lessP).1

/-- Caller guarantee of `node.remove`: a node with children either still has
an item or has a first child that can spare one (the tree-level entry point
guarantees the second disjunct never matters, since it only calls `remove`
on a root with at least one item). -/
def remPre (n : Node) (minP : Nat) : Prop :=
  n.children = [] ∨ 1 ≤ n.items.length

/-- Conclusion of the remove specification. -/
def remConc (fuel : Nat) (n : Node) (item : Pair) (typ : ToRemove)
    (minP maxP : Nat) : Prop :=
  (n.removeF fuel item minP typ lessP).1 = (remRes typ item n.inorder).1 ∧
  (n.removeF fuel item minP typ lessP).2.inorder =
    (remRes typ item n.inorder).2 ∧
  NWF (n.removeF fuel item minP typ lessP).2 minP maxP ∧
  n.items.length - 1 ≤ (n.removeF fuel item minP typ lessP).2.items.length ∧
  (n.removeF fuel item minP typ lessP).2.items.length ≤ n.items.length ∧
  (n.removeF fuel item minP typ lessP).2.height = n.height

theorem growChild_left {n : Node} {i minP : Nat}
    (hcond : 0 < i ∧ minP < (n.childD (i - 1)).items.length) :
    n.growChild i minP =
      Node.mk
        (n.items.set (i - 1) ((n.childD (i - 1)).items.getLastD nilPair))
        ((n.children.set i
          (Node.mk
            ((n.childD i).items.insertIdx 0 (n.items.getD (i - 1) nilPair))
            (if (n.childD (i - 1)).children.isEmpty then (n.childD i).children
             else (n.childD i).children.insertIdx 0
               ((n.childD (i - 1)).children.getLastD default)))).set (i - 1)
          (Node.mk (n.childD (i - 1)).items.dropLast
            (if (n.childD (i - 1)).children.isEmpty then
              (n.childD (i - 1)).children
             else (n.childD (i - 1)).children.dropLast))) := by
  rw [Node.growChild, if_pos hcond]

theorem growChild_right {n : Node} {i minP : Nat}
    (hcond1 : ¬ (0 < i ∧ minP < (n.childD (i - 1)).items.length))
    (hcond2 : i < n.items.length ∧
      minP < (n.childD (i + 1)).items.length) :
    n.growChild i minP =
      Node.mk (n.items.set i ((n.childD (i + 1)).items.headD nilPair))
        ((n.children.set i
          (Node.mk ((n.childD i).items ++ [n.items.getD i nilPair])
            (if (n.childD (i + 1)).children.isEmpty then (n.childD i).children
             else (n.childD i).children ++
               [(n.childD (i + 1)).children.headD default]))).set (i + 1)
          (Node.mk ((n.childD (i + 1)).items.drop 1)
            (if (n.childD (i + 1)).children.isEmpty then
              (n.childD (i + 1)).children
             else (n.childD (i + 1)).children.drop 1))) := by
  rw [Node.growChild, if_neg hcond1, if_pos hcond2]

theorem growChild_merge {n : Node} {i minP : Nat}
    (hcond1 : ¬ (0 < i ∧ minP < (n.childD (i - 1)).items.length))
    (hcond2 : ¬ (i < n.items.length ∧
      minP < (n.childD (i + 1)).items.length)) :
    n.growChild i minP =
      Node.mk
        (n.items.eraseIdx (if n.items.length ≤ i then i - 1 else i))
        ((n.children.set (if n.items.length ≤ i then i - 1 else i)
          (Node.mk
            ((n.childD (if n.items.length ≤ i then i - 1 else i)).items ++
              n.items.getD (if n.items.length ≤ i then i - 1 else i) nilPair ::
                (n.childD
                  ((if n.items.length ≤ i then i - 1 else i) + 1)).items)
            ((n.childD (if n.items.length ≤ i then i - 1 else i)).children ++
              (n.childD
                ((if n.items.length ≤ i then i - 1 else i) + 1)).children))
          ).eraseIdx ((if n.items.length ≤ i then i - 1 else i) + 1)) := by
  rw [Node.growChild, if_neg hcond1, if_neg hcond2]

theorem getD_set_ne_pair (l : List Pair) (j k : Nat) (x : Pair)
    (h : j ≠ k) : (l.set j x).getD k nilPair = l.getD k nilPair := by
  induction l generalizing j k with
  | nil => simp
  | cons a as ih =>
    cases j with
    | zero =>
      cases k with
      | zero => omega
      | succ k => simp
    | succ j =>
      cases k with
      | zero => simp
      | succ k => simpa using ih j k (by omega)

theorem getD_mem_take {α : Type _} [Inhabited α] {l : List α} {k j : Nat}
    (hk : k < j) (hl : k < l.length) : l.getD k default ∈ l.take j := by
  rw [← getD_take l k j hk]
  exact getD_mem (by rw [List.length_take]; omega)

/-- Any entry of an aligned child of an interleaving occurs in it. -/
theorem inorder_mem_interP {c : Node} {y : Pair} :
    ∀ (X : List Node) (xs : List Pair), X.length = xs.length → c ∈ X →
    y ∈ c.inorder → y ∈ interP X xs := by
  intro X
  induction X with
  | nil => intro xs _ hc _; simp at hc
  | cons c0 X' ih =>
    intro xs hlen hc hy
    cases xs with
    | nil => simp at hlen
    | cons x xs' =>
      rw [interP_cons]
      rcases List.mem_cons.1 hc with rfl | hc'
      · exact List.mem_append.2 (Or.inl hy)
      · refine List.mem_append.2 (Or.inr ?_)
        exact List.mem_cons.2 (Or.inr (ih xs' (by simpa using hlen) hc' hy))

/-- Any item of an aligned child of an interleaving occurs in it. -/
theorem items_mem_interP {c : Node} {y : Pair} (X : List Node)
    (xs : List Pair) (hlen : X.length = xs.length) (hc : c ∈ X)
    (hy : y ∈ c.items) : y ∈ interP X xs :=
  inorder_mem_interP X xs hlen hc ((items_sublist_inorder c).mem hy)

/-! ## Rebalancing (`growChildAndRemove`) preserves the invariants -/

theorem inorder_leafE {n : Node} (h : n.children = []) :
    n.inorder = n.items := by
  cases n with
  | mk its chs =>
    simp only [Node.children_mk] at h
    subst h
    exact inorder_leaf its

theorem inorder_internalE {n : Node} (h : n.children ≠ []) :
    n.inorder = inter n.children n.items := by
  cases n with
  | mk its chs =>
    simp only [Node.children_mk] at h
    exact inorder_internal its chs h

theorem childOk_lenE {n : Node} (h : n.childOkB = true)
    (hne : n.children ≠ []) : n.children.length = n.items.length + 1 := by
  cases n with
  | mk its chs =>
    simp only [Node.children_mk] at hne ⊢
    exact childOk_len h hne

theorem height_uniformE {n : Node} (hbal : n.balB = true)
    (hne : n.children ≠ []) :
    ∀ c ∈ n.children, n.height = 1 + c.height := by
  intro c hc
  cases n with
  | mk its chs =>
    simp only [Node.children_mk] at hne hc
    exact height_of_uniform its hne
      (fun d hd => bal_agree hbal d hd c hc)

theorem items_ne_of_pos {n : Node} {minP : Nat} (h : minP < n.items.length)
    (hmin : 1 ≤ minP) : n.items ≠ [] :=
  ne_nil_of_length_pos (by omega)

theorem afterIdx_lt {chs : List Node} {its : List Pair} {j : Nat}
    (h : j < its.length) :
    afterIdx chs its j =
      its.getD j nilPair :: inter (chs.drop (j + 1)) (its.drop (j + 1)) := by
  unfold afterIdx
  rw [if_pos h]

theorem afterIdx_ge {chs : List Node} {its : List Pair} {j : Nat}
    (h : its.length ≤ j) : afterIdx chs its j = [] := by
  unfold afterIdx
  rw [if_neg (by omega)]

theorem growLeft_spec (minP maxP : Nat) (hmax : maxP = 2 * minP + 1)
    (hmin : 1 ≤ minP) (its : List Pair) (chs : List Node) (i : Nat)
    (hlen : chs.length = its.length + 1)
    (hco : (Node.mk its chs).childOkB = true)
    (hsor : sortedK (inter chs its))
    (hb : ∀ c ∈ chs, c.boundedB minP maxP = true)
    (hbal : (Node.mk its chs).balB = true)
    (hi : 0 < i) (hiL : i ≤ its.length)
    (hbigS : minP < (chs.getD (i - 1) default).items.length)
    (hsmall : (chs.getD i default).items.length ≤ minP) :
    ((Node.mk its chs).growChild i minP).inorder = inter chs its ∧
    NWF ((Node.mk its chs).growChild i minP) minP maxP ∧
    ((Node.mk its chs).growChild i minP).height = (Node.mk its chs).height ∧
    ((Node.mk its chs).growChild i minP).items =
      its.set (i - 1) ((chs.getD (i - 1) default).items.getLastD nilPair) ∧
    ((Node.mk its chs).growChild i minP).children.length = chs.length ∧
    minP < (((Node.mk its chs).growChild i minP).childD i).items.length ∧
    (chs.getD (i - 1) default).items.getLastD nilPair ∈
      interP (chs.take i) (its.take i) := by
  have hcond : 0 < i ∧
      minP < ((Node.mk its chs).childD (i - 1)).items.length := by
    refine ⟨hi, ?_⟩
    simpa only [childD_mk] using hbigS
  rw [growChild_left hcond]
  simp only [childD_mk, Node.items_mk, Node.children_mk]
  have hii : i - 1 + 1 = i := by omega
  have hi1L : i - 1 < its.length := by omega
  have hiC : i < chs.length := by omega
  have hi1C : i - 1 < chs.length := by omega
  have hSmem : chs.getD (i - 1) default ∈ chs := getD_mem hi1C
  have hCmem : chs.getD i default ∈ chs := getD_mem hiC
  have hSb := hb _ hSmem
  have hCb := hb _ hCmem
  have hchldco := childOk_children hco
  simp only [Node.children_mk] at hchldco
  have hSco := hchldco _ hSmem
  have hCco := hchldco _ hCmem
  have hchldbal := bal_children hbal
  simp only [Node.children_mk] at hchldbal
  have hSbal := hchldbal _ hSmem
  have hCbal := hchldbal _ hCmem
  have hAg := bal_agree hbal
  simp only [Node.children_mk] at hAg
  have hSCh : (chs.getD (i - 1) default).height =
      (chs.getD i default).height := hAg _ hSmem _ hCmem
  have hSitne : (chs.getD (i - 1) default).items ≠ [] :=
    items_ne_of_pos hbigS hmin
  -- the moved grandchild block
  set S := chs.getD (i - 1) default with hSdef
  set C := chs.getD i default with hCdef
  set stolen := S.items.getLastD nilPair with hstolen
  set p := its.getD (i - 1) nilPair with hp
  set S' := Node.mk S.items.dropLast
    (if S.children.isEmpty then S.children else S.children.dropLast)
    with hS'
  set C' := Node.mk (C.items.insertIdx 0 p)
    (if S.children.isEmpty then C.children
     else C.children.insertIdx 0 (S.children.getLastD default)) with hC'
  set X : List Pair :=
    if S.children.isEmpty then [] else (S.children.getLastD default).inorder
    with hX
  -- leafness agreement between the two siblings
  have hleafiff : C.children = [] ↔ S.children = [] := by
    rw [← height_eq_one_iff, ← height_eq_one_iff, hSCh]
  -- popping the last item (and child) off the left sibling
  have hs1 : S.inorder = S'.inorder ++ stolen :: X := by
    by_cases hSleaf : S.children.isEmpty = true
    · have hSnil : S.children = [] := by
        rwa [List.isEmpty_iff] at hSleaf
      rw [hX, hS', if_pos hSleaf, if_pos hSleaf, hSnil,
        inorder_leafE hSnil, inorder_leaf]
      exact (dropLast_append_getLast hSitne).symm
    · have hSnil : S.children ≠ [] := by
        intro hcon
        rw [hcon] at hSleaf
        simp at hSleaf
      have hSlen : S.children.length = S.items.length + 1 :=
        childOk_lenE hSco hSnil
      have hm2 : 2 ≤ S.items.length := by omega
      have hdropne : S.children.dropLast ≠ [] := by
        apply ne_nil_of_length_pos
        rw [List.length_dropLast]
        omega
      rw [hX, hS', if_neg hSleaf, if_neg hSleaf,
        inorder_internalE hSnil, inorder_internal _ _ hdropne]
      have hdl : S.children.dropLast = S.children.take S.items.length := by
        rw [List.dropLast_eq_take, hSlen]
        rfl
      have hfull := inter_decomp_full S.children S.items S.items.length
        hSlen (le_refl _)
      have haf : afterIdx S.children S.items S.items.length = [] := by
        unfold afterIdx
        rw [if_neg (by omega)]
      rw [hfull, haf, List.append_nil]
      have htk : S.items.take S.items.length = S.items := by
        simp
      rw [htk]
      have hPd := interP_eq_inter_dropLast (S.children.take S.items.length)
        S.items (by rw [List.length_take]; omega) hSitne
      rw [hPd, ← hdl]
      have hgl : S.children.getD S.items.length default =
          S.children.getLastD default := by
        rw [getLastD_eq_getLast hSnil, List.getD_eq_getElem _ _ (by omega),
          List.getLast_eq_getElem]
        congr 1
        omega
      rw [hgl, ← hstolen]
      simp
  -- pushing the separator (and moved child) onto the front of the target
  have hs2 : C'.inorder = X ++ p :: C.inorder := by
    by_cases hSleaf : S.children.isEmpty = true
    · have hSnil : S.children = [] := by
        rwa [List.isEmpty_iff] at hSleaf
      have hCnil : C.children = [] := hleafiff.2 hSnil
      rw [hX, hC', if_pos hSleaf, if_pos hSleaf, hCnil,
        inorder_leafE (n := Node.mk (C.items.insertIdx 0 p) []) rfl]
      simp only [Node.items_mk, List.insertIdx_zero, List.nil_append]
      rw [inorder_leafE hCnil]
    · have hSnil : S.children ≠ [] := by
        intro hcon
        rw [hcon] at hSleaf
        simp at hSleaf
      have hCnil : C.children ≠ [] := by
        intro hcon
        exact hSnil (hleafiff.1 hcon)
      rw [hX, hC', if_neg hSleaf, if_neg hSleaf]
      have hins : C.children.insertIdx 0 (S.children.getLastD default) =
          S.children.getLastD default :: C.children :=
        List.insertIdx_zero _ _
      have hins2 : C.items.insertIdx 0 p = p :: C.items :=
        List.insertIdx_zero _ _
      rw [inorder_internalE
        (n := Node.mk (C.items.insertIdx 0 p)
          (C.children.insertIdx 0 (S.children.getLastD default)))
        (by simp only [Node.children_mk, hins]; simp)]
      simp only [Node.items_mk, Node.children_mk, hins, hins2]
      rw [inter_cons, inorder_internalE hCnil]
  -- structural facts about the modified siblings
  have hC'ilen : C'.items.length = C.items.length + 1 := by
    rw [hC']
    simp only [Node.items_mk]
    rw [List.length_insertIdx _ _ (by omega)]
  have hS'ilen : S'.items.length = S.items.length - 1 := by
    rw [hS']
    simp only [Node.items_mk, List.length_dropLast]
  have hCbnd := boundedB_self hCb
  have hSbnd := boundedB_self hSb
  have hstruct : S'.childOkB = true ∧ C'.childOkB = true ∧
      S'.boundedB minP maxP = true ∧ C'.boundedB minP maxP = true ∧
      S'.balB = true ∧ C'.balB = true ∧
      S'.height = S.height ∧ C'.height = C.height := by
    by_cases hSleaf : S.children.isEmpty = true
    · have hSnil : S.children = [] := by rwa [List.isEmpty_iff] at hSleaf
      have hCnil : C.children = [] := hleafiff.2 hSnil
      rw [hS', hC', if_pos hSleaf, if_pos hSleaf, hSnil, hCnil]
      refine ⟨childOk_leaf _, childOk_leaf _, ?_, ?_, bal_leaf _, bal_leaf _,
        ?_, ?_⟩
      · exact boundedB_mk_of (by simp [List.length_dropLast]; omega)
          (by simp [List.length_dropLast]; omega) (by intro c hc; simp at hc)
      · refine boundedB_mk_of ?_ ?_ (by intro c hc; simp at hc)
        · rw [List.length_insertIdx _ _ (by omega)]
          omega
        · rw [List.length_insertIdx _ _ (by omega)]
          omega
      · rw [show (Node.mk S.items.dropLast []).height = 1 by simp [height_mk],
          (height_eq_one_iff S).2 hSnil]
      · rw [show (Node.mk (C.items.insertIdx 0 p) []).height = 1 by
          simp [height_mk], (height_eq_one_iff C).2 hCnil]
    · have hSnil : S.children ≠ [] := by
        intro hcon
        rw [hcon] at hSleaf
        simp at hSleaf
      have hCnil : C.children ≠ [] := by
        intro hcon
        exact hSnil (hleafiff.1 hcon)
      have hSlen : S.children.length = S.items.length + 1 :=
        childOk_lenE hSco hSnil
      have hClen : C.children.length = C.items.length + 1 :=
        childOk_lenE hCco hCnil
      have hm2 : 2 ≤ S.items.length := by omega
      have hdropne : S.children.dropLast ≠ [] := by
        apply ne_nil_of_length_pos
        rw [List.length_dropLast]
        omega
      have hlastmem : S.children.getLastD default ∈ S.children :=
        mem_getLastD hSnil
      have hSh := height_uniformE hSbal hSnil
      have hCh := height_uniformE hCbal hCnil
      have hins : C.children.insertIdx 0 (S.children.getLastD default) =
          S.children.getLastD default :: C.children :=
        List.insertIdx_zero _ _
      have hdropmem : ∀ c ∈ S.children.dropLast, c ∈ S.children :=
        fun c hc => (List.dropLast_sublist S.children).mem hc
      rw [hS', hC', if_neg hSleaf, if_neg hSleaf]
      refine ⟨?_, ?_, ?_, ?_, ?_, ?_, ?_, ?_⟩
      · rw [childOkB_iff]
        refine ⟨Or.inr ?_, ?_⟩
        · rw [List.length_dropLast, List.length_dropLast]
          omega
        · intro c hc
          exact childOk_children hSco c (hdropmem c hc)
      · rw [childOkB_iff, hins]
        refine ⟨Or.inr ?_, ?_⟩
        · rw [List.length_cons, List.length_insertIdx _ _ (by omega)]
          omega
        · intro c hc
          rcases List.mem_cons.1 hc with rfl | hc'
          · exact childOk_children hSco _ hlastmem
          · exact childOk_children hCco c hc'
      · refine boundedB_mk_of (by rw [List.length_dropLast]; omega)
          (by rw [List.length_dropLast]; omega) ?_
        intro c hc
        exact boundedB_children hSb c (hdropmem c hc)
      · refine boundedB_mk_of ?_ ?_ ?_
        · rw [List.length_insertIdx _ _ (by omega)]
          omega
        · rw [List.length_insertIdx _ _ (by omega)]
          omega
        · rw [hins]
          intro c hc
          rcases List.mem_cons.1 hc with rfl | hc'
          · exact boundedB_children hSb _ hlastmem
          · exact boundedB_children hCb c hc'
      · rw [balB_iff]
        constructor
        · intro c hc d hd
          exact bal_agree hSbal c (hdropmem c hc) d (hdropmem d hd)
        · intro c hc
          exact bal_children hSbal c (hdropmem c hc)
      · rw [balB_iff, hins]
        constructor
        · intro c hc d hd
          have hone : ∀ e ∈ S.children.getLastD default :: C.children,
              e.height = (S.children.getLastD default).height := by
            intro e he
            rcases List.mem_cons.1 he with rfl | he'
            · rfl
            · have h1 := hCh e he'
              have h2 := hSh _ hlastmem
              rw [hSCh] at h2
              omega
          rw [hone c hc, hone d hd]
        · intro c hc
          rcases List.mem_cons.1 hc with rfl | hc'
          · exact bal_children hSbal _ hlastmem
          · exact bal_children hCbal c hc'
      · rw [height_of_uniform _ hdropne
          (fun c hc => bal_agree hSbal c (hdropmem c hc) _ hlastmem)]
        rw [hSh _ hlastmem]
      · have hone : ∀ c ∈ S.children.getLastD default :: C.children,
            c.height = (S.children.getLastD default).height := by
          intro c hc
          rcases List.mem_cons.1 hc with rfl | hc'
          · rfl
          · have h1 := hCh c hc'
            have h2 := hSh _ hlastmem
            rw [hSCh] at h2
            omega
        rw [hins, height_of_uniform _ (by simp) hone]
        have h2 := hSh _ hlastmem
        rw [hSCh] at h2
        omega
  obtain ⟨hS'co, hC'co, hS'b, hC'b, hS'bal, hC'bal, hS'h, hC'h⟩ := hstruct
  -- decomposition of the original interleaving around positions i-1 and i
  have hafi1 : afterIdx chs its (i - 1) =
      p :: (C.inorder ++ afterIdx chs its i) := by
    rw [afterIdx_lt hi1L, hii, inter_drop_decomp chs its i hlen hiL]
  have hdecN : inter chs its =
      interP (chs.take (i - 1)) (its.take (i - 1)) ++ S.inorder ++
        p :: (C.inorder ++ afterIdx chs its i) := by
    rw [inter_decomp_full chs its (i - 1) hlen (by omega), hafi1]
  -- decomposition of the rebalanced interleaving
  have hchs2len : ((chs.set i C').set (i - 1) S').length = chs.length := by
    simp
  have hits2len : (its.set (i - 1) stolen).length = its.length := by simp
  have hne2 : (chs.set i C').set (i - 1) S' ≠ [] :=
    ne_nil_of_length_pos (by rw [hchs2len]; omega)
  have hgetS' : ((chs.set i C').set (i - 1) S').getD (i - 1) default = S' :=
    getD_set_self _ _ _ (by rw [List.length_set]; omega)
  have hgetC' : ((chs.set i C').set (i - 1) S').getD i default = C' := by
    rw [getD_set_ne _ _ _ _ (by omega), getD_set_self _ _ _ (by omega)]
  have htake2c : ((chs.set i C').set (i - 1) S').take (i - 1) =
      chs.take (i - 1) := by
    rw [take_set_le _ _ _ _ (le_refl _), take_set_le _ _ _ _ (by omega)]
  have htake2i : (its.set (i - 1) stolen).take (i - 1) = its.take (i - 1) :=
    take_set_le _ _ _ _ (le_refl _)
  have hafter2 : afterIdx ((chs.set i C').set (i - 1) S')
      (its.set (i - 1) stolen) i = afterIdx chs its i := by
    rcases Nat.lt_or_ge i its.length with hlt | hge
    · rw [afterIdx_lt (by rw [hits2len]; exact hlt), afterIdx_lt hlt,
        getD_set_ne_pair _ _ _ _ (by omega),
        drop_set_lt _ _ _ _ (by omega), drop_set_lt _ _ _ _ (by omega),
        drop_set_lt _ _ _ _ (by omega)]
    · rw [afterIdx_ge (by rw [hits2len]; omega), afterIdx_ge (by omega)]
  have hdecN2 : inter ((chs.set i C').set (i - 1) S')
      (its.set (i - 1) stolen) =
      interP (chs.take (i - 1)) (its.take (i - 1)) ++ S'.inorder ++
        stolen :: (C'.inorder ++ afterIdx chs its i) := by
    rw [inter_decomp_full _ _ (i - 1)
        (by rw [hchs2len, hits2len]; exact hlen)
        (by rw [hits2len]; omega),
      htake2c, htake2i, hgetS']
    have hafm : afterIdx ((chs.set i C').set (i - 1) S')
        (its.set (i - 1) stolen) (i - 1) =
        stolen :: (C'.inorder ++ afterIdx chs its i) := by
      rw [afterIdx_lt (by rw [hits2len]; exact hi1L), hii,
        getD_set_self_pair _ _ _ (by omega),
        inter_drop_decomp _ _ i (by rw [hchs2len, hits2len]; exact hlen)
          (by rw [hits2len]; omega),
        hgetC', hafter2]
    rw [hafm]
  have hg1 : inter ((chs.set i C').set (i - 1) S')
      (its.set (i - 1) stolen) = inter chs its := by
    rw [hdecN2, hdecN, hs1, hs2]
    simp [List.append_assoc]
  have hAll2 : ∀ c ∈ (chs.set i C').set (i - 1) S', c.height = S.height := by
    intro c hc
    rcases mem_set_elim hc with rfl | hc1
    · exact hS'h
    · rcases mem_set_elim hc1 with rfl | hc2
      · rw [hC'h, ← hSCh]
      · exact hAg c hc2 _ hSmem
  have hchsne : chs ≠ [] := ne_nil_of_length_pos (by omega)
  refine ⟨?_, ⟨?_, ?_, ?_, ?_⟩, ?_, ?_, ?_, ?_, ?_⟩
  · rw [inorder_internal _ _ hne2]
    exact hg1
  · rw [childOkB_iff]
    refine ⟨Or.inr (by simp only [List.length_set]; omega), ?_⟩
    intro c hc
    rcases mem_set_elim hc with rfl | hc1
    · exact hS'co
    · rcases mem_set_elim hc1 with rfl | hc2
      · exact hC'co
      · exact hchldco c hc2
  · rw [inorder_internal _ _ hne2, hg1]
    exact hsor
  · intro c hc
    simp only [Node.children_mk] at hc
    rcases mem_set_elim hc with rfl | hc1
    · refine boundedB_of _ _ _ (by omega) (by omega) ?_
      exact boundedB_children hS'b
    · rcases mem_set_elim hc1 with rfl | hc2
      · refine boundedB_of _ _ _ (by omega) (by omega) ?_
        exact boundedB_children hC'b
      · exact hb c hc2
  · rw [balB_iff]
    constructor
    · intro c hc d hd
      rw [hAll2 c hc, hAll2 d hd]
    · intro c hc
      rcases mem_set_elim hc with rfl | hc1
      · exact hS'bal
      · rcases mem_set_elim hc1 with rfl | hc2
        · exact hC'bal
        · exact hchldbal c hc2
  · rw [height_of_uniform _ hne2 hAll2,
      height_of_uniform _ hchsne (fun c hc => hAg c hc _ hSmem)]
  · trivial
  · simp only [Node.children_mk, List.length_set]
  · rw [hgetC']
    omega
  · refine items_mem_interP (chs.take i) (its.take i) ?_ ?_
      (mem_getLastD hSitne)
    · rw [List.length_take, List.length_take]
      omega
    · exact getD_mem_take (by omega) hi1C

theorem headD_cons_drop {α : Type _} [Inhabited α] {l : List α}
    (h : l ≠ []) : l = l.headD default :: l.drop 1 := by
  cases l with
  | nil => exact absurd rfl h
  | cons a as => rfl

theorem headD_cons_drop_pair {l : List Pair} (h : l ≠ []) :
    l = l.headD nilPair :: l.drop 1 := by
  cases l with
  | nil => exact absurd rfl h
  | cons a as => rfl

theorem mem_headD_pair {l : List Pair} (h : l ≠ []) : l.headD nilPair ∈ l := by
  cases l with
  | nil => exact absurd rfl h
  | cons a as => simp

theorem growRight_spec (minP maxP : Nat) (hmax : maxP = 2 * minP + 1)
    (hmin : 1 ≤ minP) (its : List Pair) (chs : List Node) (i : Nat)
    (hlen : chs.length = its.length + 1)
    (hco : (Node.mk its chs).childOkB = true)
    (hsor : sortedK (inter chs its))
    (hb : ∀ c ∈ chs, c.boundedB minP maxP = true)
    (hbal : (Node.mk its chs).balB = true)
    (hnotleft : ¬ (0 < i ∧
      minP < ((Node.mk its chs).childD (i - 1)).items.length))
    (hiL : i < its.length)
    (hbigS : minP < (chs.getD (i + 1) default).items.length)
    (hsmall : (chs.getD i default).items.length ≤ minP) :
    ((Node.mk its chs).growChild i minP).inorder = inter chs its ∧
    NWF ((Node.mk its chs).growChild i minP) minP maxP ∧
    ((Node.mk its chs).growChild i minP).height = (Node.mk its chs).height ∧
    ((Node.mk its chs).growChild i minP).items =
      its.set i ((chs.getD (i + 1) default).items.headD nilPair) ∧
    ((Node.mk its chs).growChild i minP).children.length = chs.length ∧
    minP < (((Node.mk its chs).growChild i minP).childD i).items.length ∧
    keyLt (its.getD i nilPair)
      ((chs.getD (i + 1) default).items.headD nilPair) := by
  have hcond : i < (Node.mk its chs).items.length ∧
      minP < ((Node.mk its chs).childD (i + 1)).items.length := by
    refine ⟨by simpa using hiL, ?_⟩
    simpa only [childD_mk] using hbigS
  rw [growChild_right hnotleft hcond]
  simp only [childD_mk, Node.items_mk, Node.children_mk]
  have hiC : i < chs.length := by omega
  have hi1C : i + 1 < chs.length := by omega
  have hSmem : chs.getD (i + 1) default ∈ chs := getD_mem hi1C
  have hCmem : chs.getD i default ∈ chs := getD_mem hiC
  have hSb := hb _ hSmem
  have hCb := hb _ hCmem
  have hchldco := childOk_children hco
  simp only [Node.children_mk] at hchldco
  have hSco := hchldco _ hSmem
  have hCco := hchldco _ hCmem
  have hchldbal := bal_children hbal
  simp only [Node.children_mk] at hchldbal
  have hSbal := hchldbal _ hSmem
  have hCbal := hchldbal _ hCmem
  have hAg := bal_agree hbal
  simp only [Node.children_mk] at hAg
  have hSCh : (chs.getD (i + 1) default).height =
      (chs.getD i default).height := hAg _ hSmem _ hCmem
  have hSitne : (chs.getD (i + 1) default).items ≠ [] :=
    items_ne_of_pos hbigS hmin
  set S := chs.getD (i + 1) default with hSdef
  set C := chs.getD i default with hCdef
  set stolen := S.items.headD nilPair with hstolen
  set p := its.getD i nilPair with hp
  set S' := Node.mk (S.items.drop 1)
    (if S.children.isEmpty then S.children else S.children.drop 1)
    with hS'
  set C' := Node.mk (C.items ++ [p])
    (if S.children.isEmpty then C.children
     else C.children ++ [S.children.headD default]) with hC'
  set Y : List Pair :=
    if S.children.isEmpty then [] else (S.children.headD default).inorder
    with hY
  have hleafiff : C.children = [] ↔ S.children = [] := by
    rw [← height_eq_one_iff, ← height_eq_one_iff, hSCh]
  -- popping the first item (and child) off the right sibling
  have hs1 : S.inorder = Y ++ stolen :: S'.inorder := by
    by_cases hSleaf : S.children.isEmpty = true
    · have hSnil : S.children = [] := by rwa [List.isEmpty_iff] at hSleaf
      rw [hY, hS', if_pos hSleaf, if_pos hSleaf, hSnil,
        inorder_leafE hSnil, inorder_leaf]
      simp only [List.nil_append]
      exact headD_cons_drop_pair hSitne
    · have hSnil : S.children ≠ [] := by
        intro hcon
        rw [hcon] at hSleaf
        simp at hSleaf
      have hSlen : S.children.length = S.items.length + 1 :=
        childOk_lenE hSco hSnil
      have hdropne : S.children.drop 1 ≠ [] := by
        apply ne_nil_of_length_pos
        rw [List.length_drop]
        omega
      rw [hY, hS', if_neg hSleaf, if_neg hSleaf,
        inorder_internalE hSnil, inorder_internal _ _ hdropne]
      conv_lhs => rw [headD_cons_drop (l := S.children) hSnil,
        headD_cons_drop_pair hSitne]
      rw [inter_cons]
  -- appending the separator (and moved child) onto the target
  have hs2 : C'.inorder = C.inorder ++ p :: Y := by
    by_cases hSleaf : S.children.isEmpty = true
    · have hSnil : S.children = [] := by rwa [List.isEmpty_iff] at hSleaf
      have hCnil : C.children = [] := hleafiff.2 hSnil
      rw [hY, hC', if_pos hSleaf, if_pos hSleaf, hCnil,
        inorder_leafE (n := Node.mk (C.items ++ [p]) []) rfl]
      simp only [Node.items_mk]
      rw [inorder_leafE hCnil]
    · have hSnil : S.children ≠ [] := by
        intro hcon
        rw [hcon] at hSleaf
        simp at hSleaf
      have hCnil : C.children ≠ [] := by
        intro hcon
        exact hSnil (hleafiff.1 hcon)
      have hClen : C.children.length = C.items.length + 1 :=
        childOk_lenE hCco hCnil
      rw [hY, hC', if_neg hSleaf, if_neg hSleaf]
      rw [inorder_internalE
        (n := Node.mk (C.items ++ [p])
          (C.children ++ [S.children.headD default]))
        (by simp only [Node.children_mk]; simp)]
      simp only [Node.items_mk, Node.children_mk]
      rw [inter_snoc C.children C.items _ _ hClen, inorder_internalE hCnil]
  have hC'ilen : C'.items.length = C.items.length + 1 := by
    rw [hC']
    simp
  have hS'ilen : S'.items.length = S.items.length - 1 := by
    rw [hS']
    simp only [Node.items_mk, List.length_drop]
  have hCbnd := boundedB_self hCb
  have hSbnd := boundedB_self hSb
  have hstruct : S'.childOkB = true ∧ C'.childOkB = true ∧
      S'.boundedB minP maxP = true ∧ C'.boundedB minP maxP = true ∧
      S'.balB = true ∧ C'.balB = true ∧
      S'.height = S.height ∧ C'.height = C.height := by
    by_cases hSleaf : S.children.isEmpty = true
    · have hSnil : S.children = [] := by rwa [List.isEmpty_iff] at hSleaf
      have hCnil : C.children = [] := hleafiff.2 hSnil
      rw [hS', hC', if_pos hSleaf, if_pos hSleaf, hSnil, hCnil]
      refine ⟨childOk_leaf _, childOk_leaf _, ?_, ?_, bal_leaf _, bal_leaf _,
        ?_, ?_⟩
      · exact boundedB_mk_of (by simp [List.length_drop]; omega)
          (by simp [List.length_drop]; omega) (by intro c hc; simp at hc)
      · exact boundedB_mk_of (by simp; omega) (by simp; omega)
          (by intro c hc; simp at hc)
      · rw [show (Node.mk (S.items.drop 1) []).height = 1 by simp [height_mk],
          (height_eq_one_iff S).2 hSnil]
      · rw [show (Node.mk (C.items ++ [p]) []).height = 1 by simp [height_mk],
          (height_eq_one_iff C).2 hCnil]
    · have hSnil : S.children ≠ [] := by
        intro hcon
        rw [hcon] at hSleaf
        simp at hSleaf
      have hCnil : C.children ≠ [] := by
        intro hcon
        exact hSnil (hleafiff.1 hcon)
      have hSlen : S.children.length = S.items.length + 1 :=
        childOk_lenE hSco hSnil
      have hClen : C.children.length = C.items.length + 1 :=
        childOk_lenE hCco hCnil
      have hdropne : S.children.drop 1 ≠ [] := by
        apply ne_nil_of_length_pos
        rw [List.length_drop]
        omega
      have hheadmem : S.children.headD default ∈ S.children :=
        mem_headD hSnil
      have hSh := height_uniformE hSbal hSnil
      have hCh := height_uniformE hCbal hCnil
      have hdropmem : ∀ c ∈ S.children.drop 1, c ∈ S.children :=
        fun c hc => List.mem_of_mem_drop hc
      have happmem : ∀ c ∈ C.children ++ [S.children.headD default],
          c ∈ C.children ∨ c = S.children.headD default := by
        intro c hc
        rcases List.mem_append.1 hc with hc' | hc'
        · exact Or.inl hc'
        · exact Or.inr (by simpa using hc')
      have hone : ∀ c ∈ C.children ++ [S.children.headD default],
          c.height = (S.children.headD default).height := by
        intro c hc
        rcases happmem c hc with hc' | rfl
        · have h1 := hCh c hc'
          have h2 := hSh _ hheadmem
          rw [hSCh] at h2
          omega
        · rfl
      rw [hS', hC', if_neg hSleaf, if_neg hSleaf]
      refine ⟨?_, ?_, ?_, ?_, ?_, ?_, ?_, ?_⟩
      · rw [childOkB_iff]
        refine ⟨Or.inr ?_, ?_⟩
        · rw [List.length_drop, List.length_drop]
          omega
        · intro c hc
          exact childOk_children hSco c (hdropmem c hc)
      · rw [childOkB_iff]
        refine ⟨Or.inr ?_, ?_⟩
        · rw [List.length_append, List.length_append]
          simp only [List.length_cons, List.length_nil]
          omega
        · intro c hc
          rcases happmem c hc with hc' | rfl
          · exact childOk_children hCco c hc'
          · exact childOk_children hSco _ hheadmem
      · refine boundedB_mk_of (by rw [List.length_drop]; omega)
          (by rw [List.length_drop]; omega) ?_
        intro c hc
        exact boundedB_children hSb c (hdropmem c hc)
      · refine boundedB_mk_of ?_ ?_ ?_
        · rw [List.length_append]
          simp only [List.length_cons, List.length_nil]
          omega
        · rw [List.length_append]
          simp only [List.length_cons, List.length_nil]
          omega
        · intro c hc
          rcases happmem c hc with hc' | rfl
          · exact boundedB_children hCb c hc'
          · exact boundedB_children hSb _ hheadmem
      · rw [balB_iff]
        constructor
        · intro c hc d hd
          exact bal_agree hSbal c (hdropmem c hc) d (hdropmem d hd)
        · intro c hc
          exact bal_children hSbal c (hdropmem c hc)
      · rw [balB_iff]
        constructor
        · intro c hc d hd
          rw [hone c hc, hone d hd]
        · intro c hc
          rcases happmem c hc with hc' | rfl
          · exact bal_children hCbal c hc'
          · exact bal_children hSbal _ hheadmem
      · rw [height_of_uniform _ hdropne
          (fun c hc => bal_agree hSbal c (hdropmem c hc) _ hheadmem)]
        rw [hSh _ hheadmem]
      · rw [height_of_uniform _ (by simp) hone]
        have h2 := hSh _ hheadmem
        rw [hSCh] at h2
        omega
  obtain ⟨hS'co, hC'co, hS'b, hC'b, hS'bal, hC'bal, hS'h, hC'h⟩ := hstruct
  -- decomposition of the original interleaving around positions i and i+1
  have hdecN : inter chs its =
      interP (chs.take i) (its.take i) ++ C.inorder ++
        p :: (S.inorder ++ afterIdx chs its (i + 1)) := by
    rw [inter_decomp_full chs its i hlen (by omega), afterIdx_lt hiL,
      inter_drop_decomp chs its (i + 1) hlen (by omega)]
  -- decomposition of the rebalanced interleaving
  have hchs2len : ((chs.set i C').set (i + 1) S').length = chs.length := by
    simp
  have hits2len : (its.set i stolen).length = its.length := by simp
  have hne2 : (chs.set i C').set (i + 1) S' ≠ [] :=
    ne_nil_of_length_pos (by rw [hchs2len]; omega)
  have hgetC' : ((chs.set i C').set (i + 1) S').getD i default = C' := by
    rw [getD_set_ne _ _ _ _ (by omega), getD_set_self _ _ _ (by omega)]
  have hgetS' : ((chs.set i C').set (i + 1) S').getD (i + 1) default = S' :=
    getD_set_self _ _ _ (by rw [List.length_set]; omega)
  have htake2c : ((chs.set i C').set (i + 1) S').take i = chs.take i := by
    rw [take_set_le _ _ _ _ (by omega), take_set_le _ _ _ _ (le_refl _)]
  have htake2i : (its.set i stolen).take i = its.take i :=
    take_set_le _ _ _ _ (le_refl _)
  have hafter2 : afterIdx ((chs.set i C').set (i + 1) S')
      (its.set i stolen) (i + 1) = afterIdx chs its (i + 1) := by
    rcases Nat.lt_or_ge (i + 1) its.length with hlt | hge
    · rw [afterIdx_lt (by rw [hits2len]; exact hlt), afterIdx_lt hlt,
        getD_set_ne_pair _ _ _ _ (by omega),
        drop_set_lt _ _ _ _ (by omega), drop_set_lt _ _ _ _ (by omega),
        drop_set_lt _ _ _ _ (by omega)]
    · rw [afterIdx_ge (by rw [hits2len]; omega), afterIdx_ge (by omega)]
  have hdecN2 : inter ((chs.set i C').set (i + 1) S') (its.set i stolen) =
      interP (chs.take i) (its.take i) ++ C'.inorder ++
        stolen :: (S'.inorder ++ afterIdx chs its (i + 1)) := by
    rw [inter_decomp_full _ _ i
        (by rw [hchs2len, hits2len]; exact hlen)
        (by rw [hits2len]; omega),
      htake2c, htake2i, hgetC']
    have hafm : afterIdx ((chs.set i C').set (i + 1) S')
        (its.set i stolen) i =
        stolen :: (S'.inorder ++ afterIdx chs its (i + 1)) := by
      rw [afterIdx_lt (by rw [hits2len]; exact hiL),
        getD_set_self_pair _ _ _ (by omega),
        inter_drop_decomp _ _ (i + 1)
          (by rw [hchs2len, hits2len]; exact hlen)
          (by rw [hits2len]; omega),
        hgetS', hafter2]
    rw [hafm]
  have hg1 : inter ((chs.set i C').set (i + 1) S') (its.set i stolen) =
      inter chs its := by
    rw [hdecN2, hdecN, hs1, hs2]
    simp [List.append_assoc]
  have hAll2 : ∀ c ∈ (chs.set i C').set (i + 1) S', c.height = S.height := by
    intro c hc
    rcases mem_set_elim hc with rfl | hc1
    · exact hS'h
    · rcases mem_set_elim hc1 with rfl | hc2
      · rw [hC'h, ← hSCh]
      · exact hAg c hc2 _ hSmem
  have hchsne : chs ≠ [] := ne_nil_of_length_pos (by omega)
  refine ⟨?_, ⟨?_, ?_, ?_, ?_⟩, ?_, ?_, ?_, ?_, ?_⟩
  · rw [inorder_internal _ _ hne2]
    exact hg1
  · rw [childOkB_iff]
    refine ⟨Or.inr (by simp only [List.length_set]; omega), ?_⟩
    intro c hc
    rcases mem_set_elim hc with rfl | hc1
    · exact hS'co
    · rcases mem_set_elim hc1 with rfl | hc2
      · exact hC'co
      · exact hchldco c hc2
  · rw [inorder_internal _ _ hne2, hg1]
    exact hsor
  · intro c hc
    simp only [Node.children_mk] at hc
    rcases mem_set_elim hc with rfl | hc1
    · refine boundedB_of _ _ _ (by omega) (by omega) ?_
      exact boundedB_children hS'b
    · rcases mem_set_elim hc1 with rfl | hc2
      · refine boundedB_of _ _ _ (by omega) (by omega) ?_
        exact boundedB_children hC'b
      · exact hb c hc2
  · rw [balB_iff]
    constructor
    · intro c hc d hd
      rw [hAll2 c hc, hAll2 d hd]
    · intro c hc
      rcases mem_set_elim hc with rfl | hc1
      · exact hS'bal
      · rcases mem_set_elim hc1 with rfl | hc2
        · exact hC'bal
        · exact hchldbal c hc2
  · rw [height_of_uniform _ hne2 hAll2,
      height_of_uniform _ hchsne (fun c hc => hAg c hc _ hSmem)]
  · trivial
  · simp only [Node.children_mk, List.length_set]
  · rw [hgetC']
    rw [hC'ilen]
    omega
  · have hre : inter chs its =
        (interP (chs.take i) (its.take i) ++ C.inorder) ++
          p :: (S.inorder ++ afterIdx chs its (i + 1)) := by
      rw [hdecN]
    have hsor2 : sortedK ((interP (chs.take i) (its.take i) ++ C.inorder) ++
        p :: (S.inorder ++ afterIdx chs its (i + 1))) := by
      rw [← hre]
      exact hsor
    have hmem : stolen ∈ S.inorder ++ afterIdx chs its (i + 1) :=
      List.mem_append.2 (Or.inl
        ((items_sublist_inorder S).mem (mem_headD_pair hSitne)))
    exact (sorted_split hsor2).2 stolen hmem

theorem take_eraseIdx_le {α : Type _} (l : List α) (j k : Nat) (h : k ≤ j) :
    (l.eraseIdx j).take k = l.take k := by
  induction l generalizing j k with
  | nil => simp
  | cons a as ih =>
    cases j with
    | zero =>
      have : k = 0 := by omega
      subst this
      simp
    | succ j =>
      cases k with
      | zero => simp
      | succ k =>
        rw [List.eraseIdx_cons_succ, List.take_succ_cons, List.take_succ_cons,
          ih j k (by omega)]

theorem eraseIdx_length_lt {α : Type _} (l : List α) (j : Nat)
    (h : j < l.length) : (l.eraseIdx j).length = l.length - 1 := by
  rw [list_eraseIdx_parts, List.length_append, List.length_take,
    List.length_drop]
  omega

theorem getD_eraseIdx_succ_pair (l : List Pair) (j : Nat)
    (h : j + 1 < l.length) :
    (l.eraseIdx j).getD j nilPair = l.getD (j + 1) nilPair := by
  rw [list_eraseIdx_parts, list_drop_parts l (j + 1) h]
  exact getD_append_len _ _ _ _ (by rw [List.length_take]; omega)

theorem drop_eraseIdx_ge {α : Type _} (l : List α) (j k : Nat) (h : j ≤ k) :
    (l.eraseIdx j).drop k = l.drop (k + 1) := by
  induction l generalizing j k with
  | nil => simp
  | cons a as ih =>
    cases j with
    | zero =>
      rw [List.eraseIdx_cons_zero, List.drop_succ_cons]
    | succ j =>
      cases k with
      | zero => omega
      | succ k =>
        rw [List.eraseIdx_cons_succ, List.drop_succ_cons,
          List.drop_succ_cons, ih j k (by omega)]

theorem growMerge_spec (minP maxP : Nat) (hmax : maxP = 2 * minP + 1)
    (hmin : 1 ≤ minP) (its : List Pair) (chs : List Node) (j : Nat)
    (hlen : chs.length = its.length + 1)
    (hco : (Node.mk its chs).childOkB = true)
    (hsor : sortedK (inter chs its))
    (hb : ∀ c ∈ chs, c.boundedB minP maxP = true)
    (hbal : (Node.mk its chs).balB = true)
    (hj : j + 1 ≤ its.length)
    (hsC : (chs.getD j default).items.length ≤ minP)
    (hsM : (chs.getD (j + 1) default).items.length ≤ minP) :
    (Node.mk (its.eraseIdx j)
      ((chs.set j (Node.mk
          ((chs.getD j default).items ++ its.getD j nilPair ::
            (chs.getD (j + 1) default).items)
          ((chs.getD j default).children ++
            (chs.getD (j + 1) default).children))).eraseIdx (j + 1))).inorder =
      inter chs its ∧
    NWF (Node.mk (its.eraseIdx j)
      ((chs.set j (Node.mk
          ((chs.getD j default).items ++ its.getD j nilPair ::
            (chs.getD (j + 1) default).items)
          ((chs.getD j default).children ++
            (chs.getD (j + 1) default).children))).eraseIdx (j + 1)))
      minP maxP ∧
    (Node.mk (its.eraseIdx j)
      ((chs.set j (Node.mk
          ((chs.getD j default).items ++ its.getD j nilPair ::
            (chs.getD (j + 1) default).items)
          ((chs.getD j default).children ++
            (chs.getD (j + 1) default).children))).eraseIdx (j + 1))).height =
      (Node.mk its chs).height ∧
    ((chs.set j (Node.mk
        ((chs.getD j default).items ++ its.getD j nilPair ::
          (chs.getD (j + 1) default).items)
        ((chs.getD j default).children ++
          (chs.getD (j + 1) default).children))).eraseIdx (j + 1)).length =
      chs.length - 1 ∧
    minP < (((chs.set j (Node.mk
        ((chs.getD j default).items ++ its.getD j nilPair ::
          (chs.getD (j + 1) default).items)
        ((chs.getD j default).children ++
          (chs.getD (j + 1) default).children))).eraseIdx (j + 1)).getD j
        default).items.length := by
  have hjL : j < its.length := by omega
  have hjC : j < chs.length := by omega
  have hj1C : j + 1 < chs.length := by omega
  have hCmem : chs.getD j default ∈ chs := getD_mem hjC
  have hMmem : chs.getD (j + 1) default ∈ chs := getD_mem hj1C
  have hCb := hb _ hCmem
  have hMb := hb _ hMmem
  have hchldco := childOk_children hco
  simp only [Node.children_mk] at hchldco
  have hCco := hchldco _ hCmem
  have hMco := hchldco _ hMmem
  have hchldbal := bal_children hbal
  simp only [Node.children_mk] at hchldbal
  have hCbal := hchldbal _ hCmem
  have hMbal := hchldbal _ hMmem
  have hAg := bal_agree hbal
  simp only [Node.children_mk] at hAg
  have hMCh : (chs.getD (j + 1) default).height =
      (chs.getD j default).height := hAg _ hMmem _ hCmem
  set C := chs.getD j default with hCdef
  set M := chs.getD (j + 1) default with hMdef
  set p := its.getD j nilPair with hp
  set child' := Node.mk (C.items ++ p :: M.items)
    (C.children ++ M.children) with hchild'
  have hCbnd := boundedB_self hCb
  have hMbnd := boundedB_self hMb
  have hleafiff : C.children = [] ↔ M.children = [] := by
    rw [← height_eq_one_iff, ← height_eq_one_iff, hMCh]
  have hilen : child'.items.length = C.items.length + M.items.length + 1 := by
    rw [hchild']
    simp only [Node.items_mk, List.length_append, List.length_cons]
    omega
  -- the merged node
  have hs2 : child'.inorder = C.inorder ++ p :: M.inorder := by
    by_cases hCleaf : C.children.isEmpty = true
    · have hCnil : C.children = [] := by rwa [List.isEmpty_iff] at hCleaf
      have hMnil : M.children = [] := hleafiff.1 hCnil
      rw [hchild', hCnil, hMnil, inorder_leafE
        (n := Node.mk (C.items ++ p :: M.items) ([] ++ [])) (by simp)]
      simp only [Node.items_mk]
      rw [inorder_leafE hCnil, inorder_leafE hMnil]
    · have hCnil : C.children ≠ [] := by
        intro hcon
        rw [hcon] at hCleaf
        simp at hCleaf
      have hMnil : M.children ≠ [] := by
        intro hcon
        exact hCnil (hleafiff.2 hcon)
      have hClen : C.children.length = C.items.length + 1 :=
        childOk_lenE hCco hCnil
      rw [hchild', inorder_internalE
        (n := Node.mk (C.items ++ p :: M.items) (C.children ++ M.children))
        (by simp only [Node.children_mk]
            intro hcon
            exact hCnil (List.append_eq_nil.1 hcon).1)]
      simp only [Node.items_mk, Node.children_mk]
      rw [inter_merge C.children C.items M.children M.items p hClen,
        inorder_internalE hCnil, inorder_internalE hMnil]
  have hstruct : child'.childOkB = true ∧
      child'.boundedB minP maxP = true ∧ child'.balB = true ∧
      child'.height = C.height := by
    by_cases hCleaf : C.children.isEmpty = true
    · have hCnil : C.children = [] := by rwa [List.isEmpty_iff] at hCleaf
      have hMnil : M.children = [] := hleafiff.1 hCnil
      rw [hchild', hCnil, hMnil]
      refine ⟨childOk_leaf _, ?_, bal_leaf _, ?_⟩
      · refine boundedB_mk_of ?_ ?_ (by intro c hc; simp at hc)
        · rw [List.length_append, List.length_cons]
          omega
        · rw [List.length_append, List.length_cons]
          omega
      · rw [show (Node.mk (C.items ++ p :: M.items) ([] ++ [])).height = 1 by
          simp [height_mk], (height_eq_one_iff C).2 hCnil]
    · have hCnil : C.children ≠ [] := by
        intro hcon
        rw [hcon] at hCleaf
        simp at hCleaf
      have hMnil : M.children ≠ [] := by
        intro hcon
        exact hCnil (hleafiff.2 hcon)
      have hClen : C.children.length = C.items.length + 1 :=
        childOk_lenE hCco hCnil
      have hMlen : M.children.length = M.items.length + 1 :=
        childOk_lenE hMco hMnil
      have hCh := height_uniformE hCbal hCnil
      have hMh := height_uniformE hMbal hMnil
      have happmem : ∀ c ∈ C.children ++ M.children,
          c ∈ C.children ∨ c ∈ M.children := by
        intro c hc
        exact List.mem_append.1 hc
      have hCheadmem : C.children.headD default ∈ C.children :=
        mem_headD hCnil
      have hone : ∀ c ∈ C.children ++ M.children,
          c.height = (C.children.headD default).height := by
        intro c hc
        rcases happmem c hc with hc' | hc'
        · exact bal_agree hCbal c hc' _ hCheadmem
        · have h1 := hMh c hc'
          have h2 := hCh _ hCheadmem
          rw [hMCh] at h1
          omega
      rw [hchild']
      refine ⟨?_, ?_, ?_, ?_⟩
      · rw [childOkB_iff]
        refine ⟨Or.inr ?_, ?_⟩
        · rw [List.length_append, List.length_append, List.length_cons]
          omega
        · intro c hc
          rcases happmem c hc with hc' | hc'
          · exact childOk_children hCco c hc'
          · exact childOk_children hMco c hc'
      · refine boundedB_mk_of ?_ ?_ ?_
        · rw [List.length_append, List.length_cons]
          omega
        · rw [List.length_append, List.length_cons]
          omega
        · intro c hc
          rcases happmem c hc with hc' | hc'
          · exact boundedB_children hCb c hc'
          · exact boundedB_children hMb c hc'
      · rw [balB_iff]
        constructor
        · intro c hc d hd
          rw [hone c hc, hone d hd]
        · intro c hc
          rcases happmem c hc with hc' | hc'
          · exact bal_children hCbal c hc'
          · exact bal_children hMbal c hc'
      · rw [height_of_uniform _ (by
          intro hcon
          exact hCnil (List.append_eq_nil.1 hcon).1) hone]
        rw [hCh _ hCheadmem]
  obtain ⟨hc'co, hc'b, hc'bal, hc'h⟩ := hstruct
  -- decompositions
  have hdecN : inter chs its =
      interP (chs.take j) (its.take j) ++ C.inorder ++
        p :: (M.inorder ++ afterIdx chs its (j + 1)) := by
    rw [inter_decomp_full chs its j hlen (by omega), afterIdx_lt hjL,
      inter_drop_decomp chs its (j + 1) hlen (by omega)]
  have hits2len : (its.eraseIdx j).length = its.length - 1 :=
    eraseIdx_length_lt _ _ hjL
  have hchs2len : ((chs.set j child').eraseIdx (j + 1)).length =
      chs.length - 1 := by
    rw [eraseIdx_length_lt _ _ (by rw [List.length_set]; omega),
      List.length_set]
  have hne2 : (chs.set j child').eraseIdx (j + 1) ≠ [] :=
    ne_nil_of_length_pos (by rw [hchs2len]; omega)
  have hgetc' : ((chs.set j child').eraseIdx (j + 1)).getD j default =
      child' := by
    rw [getD_eraseIdx_lt _ _ _ (by omega), getD_set_self _ _ _ (by omega)]
  have htake2c : ((chs.set j child').eraseIdx (j + 1)).take j =
      chs.take j := by
    rw [take_eraseIdx_le _ _ _ (by omega), take_set_le _ _ _ _ (le_refl _)]
  have htake2i : (its.eraseIdx j).take j = its.take j :=
    take_eraseIdx_le _ _ _ (le_refl _)
  have hafter2 : afterIdx ((chs.set j child').eraseIdx (j + 1))
      (its.eraseIdx j) j = afterIdx chs its (j + 1) := by
    rcases Nat.lt_or_ge (j + 1) its.length with hlt | hge
    · rw [afterIdx_lt (by rw [hits2len]; omega), afterIdx_lt hlt,
        getD_eraseIdx_succ_pair _ _ (by omega)]
      have hd1 : ((chs.set j child').eraseIdx (j + 1)).drop (j + 1) =
          chs.drop (j + 2) := by
        rw [drop_eraseIdx _ _ (by rw [List.length_set]; omega),
          drop_set_lt _ _ _ _ (by omega)]
      have hd2 : (its.eraseIdx j).drop (j + 1) = its.drop (j + 2) :=
        drop_eraseIdx_ge _ _ _ (by omega)
      rw [hd1, hd2]
    · rw [afterIdx_ge (by rw [hits2len]; omega), afterIdx_ge (by omega)]
  have hdecN2 : inter ((chs.set j child').eraseIdx (j + 1))
      (its.eraseIdx j) =
      interP (chs.take j) (its.take j) ++ child'.inorder ++
        afterIdx chs its (j + 1) := by
    rw [inter_decomp_full _ _ j (by rw [hchs2len, hits2len]; omega)
        (by rw [hits2len]; omega),
      htake2c, htake2i, hgetc', hafter2]
  have hg1 : inter ((chs.set j child').eraseIdx (j + 1)) (its.eraseIdx j) =
      inter chs its := by
    rw [hdecN2, hdecN, hs2]
    simp [List.append_assoc]
  have hmem2 : ∀ c ∈ (chs.set j child').eraseIdx (j + 1),
      c = child' ∨ c ∈ chs := by
    intro c hc
    have hc1 := List.mem_of_mem_eraseIdx hc
    exact mem_set_elim hc1
  have hAll2 : ∀ c ∈ (chs.set j child').eraseIdx (j + 1),
      c.height = C.height := by
    intro c hc
    rcases hmem2 c hc with rfl | hc1
    · exact hc'h
    · exact hAg c hc1 _ hCmem
  have hchsne : chs ≠ [] := ne_nil_of_length_pos (by omega)
  refine ⟨?_, ⟨?_, ?_, ?_, ?_⟩, ?_, ?_, ?_⟩
  · rw [inorder_internal _ _ hne2]
    exact hg1
  · rw [childOkB_iff]
    refine ⟨Or.inr (by rw [hchs2len, hits2len]; omega), ?_⟩
    intro c hc
    rcases hmem2 c hc with rfl | hc1
    · exact hc'co
    · exact hchldco c hc1
  · rw [inorder_internal _ _ hne2, hg1]
    exact hsor
  · intro c hc
    simp only [Node.children_mk] at hc
    rcases hmem2 c hc with rfl | hc1
    · exact hc'b
    · exact hb c hc1
  · rw [balB_iff]
    constructor
    · intro c hc d hd
      rw [hAll2 c hc, hAll2 d hd]
    · intro c hc
      rcases hmem2 c hc with rfl | hc1
      · exact hc'bal
      · exact hchldbal c hc1
  · rw [height_of_uniform _ hne2 hAll2,
      height_of_uniform _ hchsne (fun c hc => hAg c hc _ hCmem)]
  · exact hchs2len
  · rw [hgetc', hilen]
    omega

/-! ## The non-rebalancing step of `node.remove` -/

theorem interP_nil (its : List Pair) : interP [] its = [] := rfl

theorem getLastD_append_right_pair (A : List Pair) {B : List Pair}
    (h : B ≠ []) : (A ++ B).getLastD nilPair = B.getLastD nilPair :=
  getLastD_append_right A h

theorem headD_append_left_pair {A : List Pair} (B : List Pair)
    (h : A ≠ []) : (A ++ B).headD nilPair = A.headD nilPair :=
  headD_append_left B h

theorem dropLast_append_getLast_pair {l : List Pair} (h : l ≠ []) :
    l.dropLast ++ [l.getLastD nilPair] = l :=
  dropLast_append_getLast h

theorem eraseKey_cons_eq {p x : Pair} {xs : List Pair} (h : x.key = p.key) :
    eraseKey p (x :: xs) = xs := by
  rw [eraseKey, if_pos h]

/-- Replacing child `j` by an invariant-respecting node of the same height
preserves the structural invariants (the items list may be rewritten to any
list of the same length). -/
theorem replace_child_wf (minP maxP : Nat) (its its2 : List Pair)
    (chs : List Node) (j : Nat) (r2 : Node)
    (hlen : chs.length = its.length + 1) (hj : j ≤ its.length)
    (hits2 : its2.length = its.length)
    (hco : (Node.mk its chs).childOkB = true)
    (hb : ∀ c ∈ chs, c.boundedB minP maxP = true)
    (hbal : (Node.mk its chs).balB = true)
    (hrco : r2.childOkB = true)
    (hrb : r2.boundedB minP maxP = true)
    (hrbal : r2.balB = true)
    (hrh : r2.height = (chs.getD j default).height) :
    (Node.mk its2 (chs.set j r2)).childOkB = true ∧
    (∀ c ∈ chs.set j r2, c.boundedB minP maxP = true) ∧
    (Node.mk its2 (chs.set j r2)).balB = true ∧
    (Node.mk its2 (chs.set j r2)).height = (Node.mk its chs).height := by
  have hjC : j < chs.length := by omega
  have hjmem : chs.getD j default ∈ chs := getD_mem hjC
  have hchldco := childOk_children hco
  simp only [Node.children_mk] at hchldco
  have hchldbal := bal_children hbal
  simp only [Node.children_mk] at hchldbal
  have hAg := bal_agree hbal
  simp only [Node.children_mk] at hAg
  have hAll : ∀ c ∈ chs.set j r2, c.height = (chs.getD j default).height := by
    intro c hc
    rcases mem_set_elim hc with rfl | hc1
    · exact hrh
    · exact hAg c hc1 _ hjmem
  have hne : chs ≠ [] := ne_nil_of_length_pos (by omega)
  have hne2 : chs.set j r2 ≠ [] :=
    ne_nil_of_length_pos (by rw [List.length_set]; omega)
  refine ⟨?_, ?_, ?_, ?_⟩
  · rw [childOkB_iff]
    refine ⟨Or.inr (by rw [List.length_set, hits2]; omega), ?_⟩
    intro c hc
    rcases mem_set_elim hc with rfl | hc1
    · exact hrco
    · exact hchldco c hc1
  · intro c hc
    rcases mem_set_elim hc with rfl | hc1
    · exact hrb
    · exact hb c hc1
  · rw [balB_iff]
    constructor
    · intro c hc d hd
      rw [hAll c hc, hAll d hd]
    · intro c hc
      rcases mem_set_elim hc with rfl | hc1
      · exact hrbal
      · exact hchldbal c hc1
  · rw [height_of_uniform _ hne2 hAll,
      height_of_uniform _ hne (fun c hc => hAg c hc _ hjmem)]

theorem remove_step (minP maxP H : Nat) (hmax : maxP = 2 * minP + 1)
    (hmin : 1 ≤ minP)
    (IH : ∀ m : Node, m.height ≤ H → ∀ (fl : Nat) (it : Pair)
      (ty : ToRemove), 2 * m.height ≤ fl + 1 → NWF m minP maxP →
      remPre m minP → remConc fl m it ty minP maxP)
    (fuel : Nat) (its : List Pair) (chs : List Node) (item : Pair)
    (typ : ToRemove)
    (hne : chs ≠ [])
    (hh : ∀ c ∈ chs, c.height ≤ H)
    (hfl : ∀ c ∈ chs, 2 * c.height ≤ fuel + 1)
    (hlen : chs.length = its.length + 1)
    (hco : (Node.mk its chs).childOkB = true)
    (hsor : sortedK (inter chs its))
    (hb : ∀ c ∈ chs, c.boundedB minP maxP = true)
    (hbal : (Node.mk its chs).balB = true)
    (hbig : ¬ ((chs.getD (remIdx typ item its) default).items.length ≤
      minP)) :
    remConc (fuel + 1) (Node.mk its chs) item typ minP maxP ∧
    ((Node.mk its chs).removeF (fuel + 1) item minP typ
      lessP).2.items.length = its.length := by
  have hchE : (Node.mk its chs).children.isEmpty = false := by
    simp only [Node.children_mk]
    exact isEmpty_false_of_ne_nil hne
  have hsits : sortedK its := by
    have h0 := sortedK_items (n := Node.mk its chs)
      (by rw [inorder_internal _ _ hne]; exact hsor)
    simpa using h0
  have hchldco := childOk_children hco
  simp only [Node.children_mk] at hchldco
  have hchldbal := bal_children hbal
  simp only [Node.children_mk] at hchldbal
  cases typ with
  | removeMax =>
    simp only [remIdx] at hbig
    have hLC : its.length < chs.length := by omega
    have hcmem : chs.getD its.length default ∈ chs := getD_mem hLC
    have hcb := hb _ hcmem
    have hcbnd := boundedB_self hcb
    have hcsor : sortedK (chs.getD its.length default).inorder :=
      sortedK_of_sublist (inorder_childD_sublist hlen (le_refl _)) hsor
    have hnwfc : NWF (chs.getD its.length default) minP maxP :=
      ⟨hchldco _ hcmem, hcsor, boundedB_children hcb, hchldbal _ hcmem⟩
    have hprec : remPre (chs.getD its.length default) minP :=
      Or.inr (by omega)
    obtain ⟨r1, r2, ⟨rco, rsor, rbc, rbal⟩, rl1, rl2, rh⟩ :=
      IH _ (hh _ hcmem) fuel item .removeMax (hfl _ hcmem) hnwfc hprec
    simp only [remRes] at r1 r2
    have htkL : its.take its.length = its := by simp
    have hdec : inter chs its =
        interP (chs.take its.length) its ++
          (chs.getD its.length default).inorder := by
      rw [inter_decomp_full chs its its.length hlen (le_refl _),
        afterIdx_ge (le_refl _), List.append_nil, htkL]
    have hchine : (chs.getD its.length default).inorder ≠ [] := by
      apply ne_nil_of_length_pos
      have h1 := (items_sublist_inorder (chs.getD its.length default)).length_le
      omega
    have hsetdec : inter (chs.set its.length
        (Node.removeF fuel (chs.getD its.length default) item minP
          .removeMax lessP).2) its =
        interP (chs.take its.length) its ++
          (Node.removeF fuel (chs.getD its.length default) item minP
            .removeMax lessP).2.inorder := by
      rw [inter_set_decomp chs its its.length _ hlen (le_refl _),
        afterIdx_ge (le_refl _), List.append_nil, htkL]
    have hsetne : chs.set its.length
        (Node.removeF fuel (chs.getD its.length default) item minP
          .removeMax lessP).2 ≠ [] :=
      ne_nil_of_length_pos (by rw [List.length_set]; omega)
    obtain ⟨wco, wb, wbal, wh⟩ := replace_child_wf minP maxP its its chs
      its.length _ hlen (le_refl _) rfl hco hb hbal rco
      (boundedB_of _ _ _ (by omega) (by omega) rbc) rbal rh
    unfold remConc
    rw [removeF_max_descend hchE
      (by simpa only [childD_mk, Node.items_mk] using hbig)]
    simp only [Node.items_mk, Node.children_mk, childD_mk, remRes]
    refine ⟨⟨?_, ?_, ⟨wco, ?_, wb, wbal⟩, by omega, le_refl _, wh⟩,
      by simp [List.length_set]⟩
    · rw [inorder_internal _ _ hne, hdec,
        getLastD_append_right_pair _ hchine]
      exact r1
    · rw [inorder_internal _ _ hsetne, hsetdec, r2,
        inorder_internal _ _ hne, hdec, dropLast_append_ne _ hchine]
    · rw [inorder_internal _ _ hsetne, hsetdec, r2,
        ← dropLast_append_ne _ hchine, ← hdec]
      exact sortedK_of_sublist (List.dropLast_sublist _) hsor
  | removeMin =>
    simp only [remIdx] at hbig
    have h0C : 0 < chs.length := by omega
    have hcmem : chs.getD 0 default ∈ chs := getD_mem h0C
    have hcb := hb _ hcmem
    have hcbnd := boundedB_self hcb
    have hcsor : sortedK (chs.getD 0 default).inorder :=
      sortedK_of_sublist (inorder_childD_sublist hlen (by omega)) hsor
    have hnwfc : NWF (chs.getD 0 default) minP maxP :=
      ⟨hchldco _ hcmem, hcsor, boundedB_children hcb, hchldbal _ hcmem⟩
    have hprec : remPre (chs.getD 0 default) minP := Or.inr (by omega)
    obtain ⟨r1, r2, ⟨rco, rsor, rbc, rbal⟩, rl1, rl2, rh⟩ :=
      IH _ (hh _ hcmem) fuel item .removeMin (hfl _ hcmem) hnwfc hprec
    simp only [remRes] at r1 r2
    have hdec : inter chs its =
        (chs.getD 0 default).inorder ++ afterIdx chs its 0 := by
      rw [inter_decomp_full chs its 0 hlen (by omega)]
      simp only [List.take_zero, interP_nil, List.nil_append]
    have hchine : (chs.getD 0 default).inorder ≠ [] := by
      apply ne_nil_of_length_pos
      have h1 := (items_sublist_inorder (chs.getD 0 default)).length_le
      omega
    have hsetdec : inter (chs.set 0
        (Node.removeF fuel (chs.getD 0 default) item minP
          .removeMin lessP).2) its =
        (Node.removeF fuel (chs.getD 0 default) item minP
          .removeMin lessP).2.inorder ++ afterIdx chs its 0 := by
      rw [inter_set_decomp chs its 0 _ hlen (by omega)]
      simp only [List.take_zero, interP_nil, List.nil_append]
    have hsetne : chs.set 0
        (Node.removeF fuel (chs.getD 0 default) item minP
          .removeMin lessP).2 ≠ [] :=
      ne_nil_of_length_pos (by rw [List.length_set]; omega)
    obtain ⟨wco, wb, wbal, wh⟩ := replace_child_wf minP maxP its its chs
      0 _ hlen (by omega) rfl hco hb hbal rco
      (boundedB_of _ _ _ (by omega) (by omega) rbc) rbal rh
    unfold remConc
    rw [removeF_min_descend hchE
      (by simpa only [childD_mk] using hbig)]
    simp only [Node.items_mk, Node.children_mk, childD_mk, remRes]
    refine ⟨⟨?_, ?_, ⟨wco, ?_, wb, wbal⟩, by omega, le_refl _, wh⟩,
      by simp [List.length_set]⟩
    · rw [inorder_internal _ _ hne, hdec,
        headD_append_left_pair _ hchine]
      exact r1
    · rw [inorder_internal _ _ hsetne, hsetdec, r2,
        inorder_internal _ _ hne, hdec, tail_append _ hchine]
    · rw [inorder_internal _ _ hsetne, hsetdec, r2,
        ← tail_append _ hchine, ← hdec]
      exact sortedK_of_sublist (List.drop_sublist _ _) hsor
  | removePair =>
    simp only [remIdx] at hbig
    by_cases hfound : (Items.find its item lessP).2 = true
    · obtain ⟨hiL, hkey, hgetlt, hgetgt⟩ := (find_spec its item hsits).1 hfound
      have hIC : (Items.find its item lessP).1 < chs.length := by omega
      have hcmem : chs.getD (Items.find its item lessP).1 default ∈ chs :=
        getD_mem hIC
      have hcb := hb _ hcmem
      have hcbnd := boundedB_self hcb
      have hcsor : sortedK (chs.getD (Items.find its item lessP).1
          default).inorder :=
        sortedK_of_sublist (inorder_childD_sublist hlen (by omega)) hsor
      have hnwfc : NWF (chs.getD (Items.find its item lessP).1 default)
          minP maxP :=
        ⟨hchldco _ hcmem, hcsor, boundedB_children hcb, hchldbal _ hcmem⟩
      have hprec : remPre (chs.getD (Items.find its item lessP).1 default)
          minP := Or.inr (by omega)
      obtain ⟨r1, r2, ⟨rco, rsor, rbc, rbal⟩, rl1, rl2, rh⟩ :=
        IH _ (hh _ hcmem) fuel nilPair .removeMax (hfl _ hcmem) hnwfc hprec
      simp only [remRes] at r1 r2
      have hdec : inter chs its =
          interP (chs.take (Items.find its item lessP).1)
            (its.take (Items.find its item lessP).1) ++
          (chs.getD (Items.find its item lessP).1 default).inorder ++
          its.getD (Items.find its item lessP).1 nilPair ::
            inter (chs.drop ((Items.find its item lessP).1 + 1))
              (its.drop ((Items.find its item lessP).1 + 1)) := by
        rw [inter_decomp_full chs its (Items.find its item lessP).1 hlen
          (by omega), afterIdx_lt hiL]
      have hdecA : inter chs its =
          (interP (chs.take (Items.find its item lessP).1)
            (its.take (Items.find its item lessP).1) ++
          (chs.getD (Items.find its item lessP).1 default).inorder) ++
          its.getD (Items.find its item lessP).1 nilPair ::
            inter (chs.drop ((Items.find its item lessP).1 + 1))
              (its.drop ((Items.find its item lessP).1 + 1)) := by
        rw [hdec, List.append_assoc]
      have hso2 : sortedK ((interP (chs.take (Items.find its item lessP).1)
            (its.take (Items.find its item lessP).1) ++
          (chs.getD (Items.find its item lessP).1 default).inorder) ++
          its.getD (Items.find its item lessP).1 nilPair ::
            inter (chs.drop ((Items.find its item lessP).1 + 1))
              (its.drop ((Items.find its item lessP).1 + 1))) := by
        rw [← hdecA]
        exact hsor
      have hXlt := (sorted_split hso2).1
      have hYgt := (sorted_split hso2).2
      have hXlt' : ∀ x ∈ interP (chs.take (Items.find its item lessP).1)
            (its.take (Items.find its item lessP).1) ++
          (chs.getD (Items.find its item lessP).1 default).inorder,
          keyLt x item :=
        fun x hx => keyLt_congr_r (hXlt x hx) hkey
      have hYgt' : ∀ y ∈ inter
            (chs.drop ((Items.find its item lessP).1 + 1))
            (its.drop ((Items.find its item lessP).1 + 1)),
          keyLt item y :=
        fun y hy => keyLt_congr_l (hYgt y hy) hkey
      have hchine : (chs.getD (Items.find its item lessP).1
          default).inorder ≠ [] := by
        apply ne_nil_of_length_pos
        have h1 := (items_sublist_inorder
          (chs.getD (Items.find its item lessP).1 default)).length_le
        omega
      have hsetdec := inter_setboth_decomp chs its
        (Items.find its item lessP).1
        (Node.removeF fuel (chs.getD (Items.find its item lessP).1 default)
          nilPair minP .removeMax lessP).2
        (Node.removeF fuel (chs.getD (Items.find its item lessP).1 default)
          nilPair minP .removeMax lessP).1
        hlen hiL
      have hsetne : chs.set (Items.find its item lessP).1
          (Node.removeF fuel (chs.getD (Items.find its item lessP).1
            default) nilPair minP .removeMax lessP).2 ≠ [] :=
        ne_nil_of_length_pos (by rw [List.length_set]; omega)
      obtain ⟨wco, wb, wbal, wh⟩ := replace_child_wf minP maxP its
        (its.set (Items.find its item lessP).1
          (Node.removeF fuel (chs.getD (Items.find its item lessP).1
            default) nilPair minP .removeMax lessP).1)
        chs (Items.find its item lessP).1 _ hlen (by omega)
        (by rw [List.length_set]) hco hb hbal rco
        (boundedB_of _ _ _ (by omega) (by omega) rbc) rbal rh
      have hjoin : (chs.getD (Items.find its item lessP).1
            default).inorder.dropLast ++
          (chs.getD (Items.find its item lessP).1
            default).inorder.getLastD nilPair ::
          inter (chs.drop ((Items.find its item lessP).1 + 1))
            (its.drop ((Items.find its item lessP).1 + 1)) =
          (chs.getD (Items.find its item lessP).1 default).inorder ++
          inter (chs.drop ((Items.find its item lessP).1 + 1))
            (its.drop ((Items.find its item lessP).1 + 1)) := by
        conv_lhs => rw [show (chs.getD (Items.find its item lessP).1
            default).inorder.dropLast ++
          (chs.getD (Items.find its item lessP).1
            default).inorder.getLastD nilPair ::
          inter (chs.drop ((Items.find its item lessP).1 + 1))
            (its.drop ((Items.find its item lessP).1 + 1)) =
          ((chs.getD (Items.find its item lessP).1
            default).inorder.dropLast ++
          [(chs.getD (Items.find its item lessP).1
            default).inorder.getLastD nilPair]) ++
          inter (chs.drop ((Items.find its item lessP).1 + 1))
            (its.drop ((Items.find its item lessP).1 + 1)) by simp]
        rw [dropLast_append_getLast_pair hchine]
      have herase : eraseKey item (inter chs its) =
          (interP (chs.take (Items.find its item lessP).1)
            (its.take (Items.find its item lessP).1) ++
          (chs.getD (Items.find its item lessP).1 default).inorder) ++
          inter (chs.drop ((Items.find its item lessP).1 + 1))
            (its.drop ((Items.find its item lessP).1 + 1)) := by
        rw [hdecA, eraseKey_append_left
          (fun x hx => keyNe_of_lt (hXlt' x hx)), eraseKey_cons_eq hkey]
      unfold remConc
      rw [removeF_pair_found hchE hfound
        (by simpa only [childD_mk] using hbig)]
      simp only [Node.items_mk, Node.children_mk, childD_mk, remRes]
      refine ⟨⟨?_, ?_, ⟨wco, ?_, wb, wbal⟩, ?_, ?_, wh⟩,
        by simp [List.length_set]⟩
      · rw [inorder_internal _ _ hne]
        conv_rhs => rw [hdecA]
        rw [lookupKey_append_left (fun x hx => keyNe_of_lt (hXlt' x hx)),
          lookupKey_cons_eq hkey]
      · rw [inorder_internal _ _ hsetne, hsetdec, r2, r1,
        inorder_internal _ _ hne, herase]
        simp only [List.append_assoc]
        rw [hjoin]
      · rw [inorder_internal _ _ hsetne, hsetdec, r2, r1]
        have : interP (chs.take (Items.find its item lessP).1)
              (its.take (Items.find its item lessP).1) ++
            (chs.getD (Items.find its item lessP).1
              default).inorder.dropLast ++
            (chs.getD (Items.find its item lessP).1
              default).inorder.getLastD nilPair ::
            inter (chs.drop ((Items.find its item lessP).1 + 1))
              (its.drop ((Items.find its item lessP).1 + 1)) =
            eraseKey item (inter chs its) := by
          rw [herase]
          simp only [List.append_assoc]
          rw [hjoin]
        rw [this]
        exact sortedK_eraseKey hsor
      · simp only [List.length_set]
        omega
      · simp only [List.length_set]
        omega
    · have hfound' : (Items.find its item lessP).2 = false := by
        rwa [Bool.not_eq_true] at hfound
      obtain ⟨hiL, hgetlt, hgetgt⟩ := (find_spec its item hsits).2 hfound'
      have hIC : (Items.find its item lessP).1 < chs.length := by omega
      have hcmem : chs.getD (Items.find its item lessP).1 default ∈ chs :=
        getD_mem hIC
      have hcb := hb _ hcmem
      have hcbnd := boundedB_self hcb
      have hcsor : sortedK (chs.getD (Items.find its item lessP).1
          default).inorder :=
        sortedK_of_sublist (inorder_childD_sublist hlen hiL) hsor
      have hnwfc : NWF (chs.getD (Items.find its item lessP).1 default)
          minP maxP :=
        ⟨hchldco _ hcmem, hcsor, boundedB_children hcb, hchldbal _ hcmem⟩
      have hprec : remPre (chs.getD (Items.find its item lessP).1 default)
          minP := Or.inr (by omega)
      obtain ⟨r1, r2, ⟨rco, rsor, rbc, rbal⟩, rl1, rl2, rh⟩ :=
        IH _ (hh _ hcmem) fuel item .removePair (hfl _ hcmem) hnwfc hprec
      simp only [remRes] at r1 r2
      have hA := interP_bound hlen hsor (Items.find its item lessP).1 hiL
        (fun k hk => hgetlt k hk)
      have hB := afterIdx_bound hlen hiL hsor
        (fun k h1 h2 => hgetgt k h1 h2)
      have hAne : ∀ x ∈ interP (chs.take (Items.find its item lessP).1)
          (its.take (Items.find its item lessP).1), x.key ≠ item.key :=
        fun x hx => keyNe_of_lt (hA x hx)
      have hBne : ∀ y ∈ afterIdx chs its (Items.find its item lessP).1,
          y.key ≠ item.key :=
        fun y hy => keyNe_of_gt (hB y hy)
      have hdec : inter chs its =
          interP (chs.take (Items.find its item lessP).1)
            (its.take (Items.find its item lessP).1) ++
          ((chs.getD (Items.find its item lessP).1 default).inorder ++
            afterIdx chs its (Items.find its item lessP).1) := by
        rw [inter_decomp_full chs its (Items.find its item lessP).1 hlen hiL,
          List.append_assoc]
      have hsetdec := inter_set_decomp chs its
        (Items.find its item lessP).1
        (Node.removeF fuel (chs.getD (Items.find its item lessP).1 default)
          item minP .removePair lessP).2 hlen hiL
      have hsetne : chs.set (Items.find its item lessP).1
          (Node.removeF fuel (chs.getD (Items.find its item lessP).1
            default) item minP .removePair lessP).2 ≠ [] :=
        ne_nil_of_length_pos (by rw [List.length_set]; omega)
      obtain ⟨wco, wb, wbal, wh⟩ := replace_child_wf minP maxP its its
        chs (Items.find its item lessP).1 _ hlen hiL rfl hco hb hbal rco
        (boundedB_of _ _ _ (by omega) (by omega) rbc) rbal rh
      have herase : eraseKey item (inter chs its) =
          interP (chs.take (Items.find its item lessP).1)
            (its.take (Items.find its item lessP).1) ++
          (eraseKey item (chs.getD (Items.find its item lessP).1
            default).inorder ++
            afterIdx chs its (Items.find its item lessP).1) := by
        rw [hdec, eraseKey_append_left hAne, eraseKey_append_right hBne]
      unfold remConc
      rw [removeF_pair_descend hchE hfound'
        (by simpa only [childD_mk] using hbig)]
      simp only [Node.items_mk, Node.children_mk, childD_mk, remRes]
      refine ⟨⟨?_, ?_, ⟨wco, ?_, wb, wbal⟩, by omega, le_refl _, wh⟩,
      by simp [List.length_set]⟩
      · rw [inorder_internal _ _ hne, hdec, lookupKey_append_left hAne,
          lookupKey_append_right hBne]
        exact r1
      · rw [inorder_internal _ _ hsetne, hsetdec, r2,
          inorder_internal _ _ hne, herase]
        simp [List.append_assoc]
      · rw [inorder_internal _ _ hsetne, hsetdec, r2]
        have : interP (chs.take (Items.find its item lessP).1)
              (its.take (Items.find its item lessP).1) ++
            eraseKey item (chs.getD (Items.find its item lessP).1
              default).inorder ++
            afterIdx chs its (Items.find its item lessP).1 =
            eraseKey item (inter chs its) := by
          rw [herase]
          simp [List.append_assoc]
        rw [this]
        exact sortedK_eraseKey hsor

theorem childD_eq (n : Node) (i : Nat) :
    n.childD i = n.children.getD i default := rfl

theorem take_bound_of_getD {its : List Pair} {item : Pair} {j : Nat}
    (h : ∀ k, k < j → keyLt (its.getD k nilPair) item) :
    ∀ x ∈ its.take j, keyLt x item := by
  intro x hx
  obtain ⟨k, hk, hkl, he⟩ := mem_take_getD hx
  rw [← he]
  exact h k hk

theorem drop_bound_of_getD {its : List Pair} {item : Pair} {j : Nat}
    (h : ∀ k, j ≤ k → k < its.length → keyLt item (its.getD k nilPair)) :
    ∀ y ∈ its.drop j, keyLt item y := by
  intro y hy
  obtain ⟨k, hk, hkl, he⟩ := mem_drop_getD hy
  rw [← he]
  exact h k hk hkl

theorem eraseIdx_zero_drop {α : Type _} (l : List α) :
    l.eraseIdx 0 = l.drop 1 := by
  cases l with
  | nil => rfl
  | cons a as => rfl

/-- Full specification of `node.remove`: it refines the sorted-list removal
`remRes`, preserves the structural invariants, keeps the height, and shrinks
the node item count by at most one. -/
theorem removeF_spec (minP maxP : Nat) (hmax : maxP = 2 * minP + 1)
    (hmin : 1 ≤ minP) :
    ∀ H (n : Node), n.height ≤ H → ∀ (fuel : Nat) (item : Pair)
      (typ : ToRemove), 2 * n.height ≤ fuel + 1 → NWF n minP maxP →
      remPre n minP → remConc fuel n item typ minP maxP := by
  intro H
  induction H with
  | zero =>
    intro n hh
    have := height_pos n
    omega
  | succ H ih =>
    rintro ⟨its, chs⟩ hh fuel item typ hfuel ⟨hco, hsor, hb, hbal⟩ hpre
    cases chs with
    | nil =>
      -- a leaf: the list-level operations act on the items directly
      have hH1 : (Node.mk its []).height = 1 := by simp [height_mk]
      rw [hH1] at hfuel
      cases fuel with
      | zero => omega
      | succ fl =>
        have hsits : sortedK its := by simpa using hsor
        cases typ with
        | removeMax =>
          unfold remConc
          rw [removeF_leaf_max (by simp)]
          simp only [Node.items_mk, Node.children_mk, remRes, inorder_leaf]
          refine ⟨trivial, trivial, ⟨childOk_leaf _, ?_, by simp, bal_leaf _⟩,
            ?_, ?_, by simp [height_mk]⟩
          · rw [inorder_leaf]
            exact sortedK_of_sublist (List.dropLast_sublist _)
              (by simpa using hsor)
          · have h1 := List.length_dropLast its
            omega
          · have h1 := List.length_dropLast its
            omega
        | removeMin =>
          unfold remConc
          rw [removeF_leaf_min (by simp)]
          simp only [Node.items_mk, Node.children_mk, remRes, inorder_leaf,
            eraseIdx_zero_drop]
          refine ⟨trivial, trivial, ⟨childOk_leaf _, ?_, by simp, bal_leaf _⟩,
            ?_, ?_, by simp [height_mk]⟩
          · rw [inorder_leaf]
            exact sortedK_of_sublist (List.drop_sublist _ _)
              (by simpa using hsor)
          · have h1 := List.length_drop 1 its
            omega
          · have h1 := List.length_drop 1 its
            omega
        | removePair =>
          by_cases hfound : (Items.find its item lessP).2 = true
          · obtain ⟨hiL, hkey, hgetlt, hgetgt⟩ :=
              (find_spec its item hsits).1 hfound
            have htake := take_bound_of_getD
              (j := (Items.find its item lessP).1) (fun k hk => hgetlt k hk)
            have hdrop := drop_bound_of_getD
              (j := (Items.find its item lessP).1 + 1)
              (fun k h1 h2 => hgetgt k (by omega) h2)
            have hparts : its =
                its.take (Items.find its item lessP).1 ++
                  its.getD (Items.find its item lessP).1 nilPair ::
                    its.drop ((Items.find its item lessP).1 + 1) := by
              conv_lhs => rw [← List.take_append_drop
                (Items.find its item lessP).1 its,
                list_drop_parts its (Items.find its item lessP).1 hiL]
              rfl
            have hlk : lookupKey item its =
                its.getD (Items.find its item lessP).1 nilPair := by
              conv_lhs => rw [hparts]
              rw [lookupKey_append_left
                (fun x hx => keyNe_of_lt (htake x hx)),
                lookupKey_cons_eq hkey]
            have her : eraseKey item its =
                its.take (Items.find its item lessP).1 ++
                  its.drop ((Items.find its item lessP).1 + 1) := by
              conv_lhs => rw [hparts]
              rw [eraseKey_append_left
                (fun x hx => keyNe_of_lt (htake x hx)),
                eraseKey_cons_eq hkey]
            unfold remConc
            rw [removeF_leaf_pair_found (by simp) (by simpa using hfound)]
            simp only [Node.items_mk, Node.children_mk, remRes, inorder_leaf]
            refine ⟨hlk.symm, ?_, ⟨childOk_leaf _, ?_, by simp, bal_leaf _⟩,
              ?_, ?_, by simp [height_mk]⟩
            · rw [list_eraseIdx_parts, her]
            · rw [list_eraseIdx_parts, ← her]
              exact sortedK_eraseKey (by simpa using hsor)
            · have h1 := eraseIdx_length_lt its _ hiL
              omega
            · have h1 := eraseIdx_length_lt its _ hiL
              omega
          · have hfound' : (Items.find its item lessP).2 = false := by
              rwa [Bool.not_eq_true] at hfound
            obtain ⟨hiL, hgetlt, hgetgt⟩ :=
              (find_spec its item hsits).2 hfound'
            have htake := take_bound_of_getD
              (j := (Items.find its item lessP).1) (fun k hk => hgetlt k hk)
            have hdrop := drop_bound_of_getD
              (j := (Items.find its item lessP).1)
              (fun k h1 h2 => hgetgt k h1 h2)
            have hnh : hasKey item.key its = false := by
              conv_lhs => rw [← List.take_append_drop
                (Items.find its item lessP).1 its]
              rw [hasKey_append,
                hasKey_false_of_bounds
                  (fun x hx => keyNe_of_lt (htake x hx)),
                hasKey_false_of_bounds
                  (fun y hy => keyNe_of_gt (hdrop y hy))]
              rfl
            unfold remConc
            rw [removeF_leaf_pair_notfound (by simp)
              (by simpa using hfound')]
            simp only [Node.items_mk, Node.children_mk, remRes, inorder_leaf]
            refine ⟨(lookupKey_eq_nil_of_not_has hnh).symm,
              (eraseKey_eq_self_of_not_has hnh).symm,
              ⟨childOk_leaf _, by simpa using hsor, by simp, bal_leaf _⟩,
              by omega, le_refl _, trivial⟩
    | cons c0 cs0 =>
      -- an internal node
      have hne : c0 :: cs0 ≠ [] := by simp
      have hlen : (c0 :: cs0).length = its.length + 1 := childOk_len hco hne
      have hsor' : sortedK (inter (c0 :: cs0) its) := by
        rw [← inorder_internal its _ hne]
        exact hsor
      simp only [Node.children_mk, Node.items_mk] at hb hpre
      have hsits : sortedK its := by
        have h0 := sortedK_items (n := Node.mk its (c0 :: cs0)) hsor
        simpa using h0
      have hh2 : 2 ≤ (Node.mk its (c0 :: cs0)).height := by
        rcases Nat.lt_or_ge (Node.mk its (c0 :: cs0)).height 2 with h1 | h1
        · exfalso
          have h2 := height_pos (Node.mk its (c0 :: cs0))
          have h3 : (Node.mk its (c0 :: cs0)).height = 1 := by omega
          have h4 := (height_eq_one_iff _).1 h3
          simp at h4
        · exact h1
      have hhc : ∀ c ∈ c0 :: cs0, c.height ≤ H := by
        intro c hc
        have h1 := height_child_lt (n := Node.mk its (c0 :: cs0))
          (by simpa using hc)
        simp only [Node.children_mk] at *
        omega
      cases fuel with
      | zero => omega
      | succ fl =>
        have hi0L : remIdx typ item its ≤ its.length := by
          cases typ with
          | removeMax => simp [remIdx]
          | removeMin => simp [remIdx]
          | removePair =>
            simp only [remIdx]
            by_cases hf : (Items.find its item lessP).2 = true
            · have := ((find_spec its item hsits).1 hf).1
              omega
            · have hf' : (Items.find its item lessP).2 = false := by
                rwa [Bool.not_eq_true] at hf
              exact ((find_spec its item hsits).2 hf').1
        by_cases hsmall : ((c0 :: cs0).getD (remIdx typ item its)
            default).items.length ≤ minP
        · -- the selected child is too small: rebalance, then re-enter
          have hits1 : 1 ≤ its.length := by
            rcases hpre with h1 | h1
            · simp at h1
            · exact h1
          have hgetlt : ∀ k, k < (Items.find its item lessP).1 →
              keyLt (its.getD k nilPair) item := by
            by_cases hf : (Items.find its item lessP).2 = true
            · exact fun k hk => ((find_spec its item hsits).1 hf).2.2.1 k hk
            · have hf' : (Items.find its item lessP).2 = false := by
                rwa [Bool.not_eq_true] at hf
              exact fun k hk => ((find_spec its item hsits).2 hf').2.1 k hk
          have hgetgt1 : ∀ k, (Items.find its item lessP).1 + 1 ≤ k →
              k < its.length → keyLt item (its.getD k nilPair) := by
            by_cases hf : (Items.find its item lessP).2 = true
            · exact fun k h1 h2 =>
                ((find_spec its item hsits).1 hf).2.2.2 k (by omega) h2
            · have hf' : (Items.find its item lessP).2 = false := by
                rwa [Bool.not_eq_true] at hf
              exact fun k h1 h2 =>
                ((find_spec its item hsits).2 hf').2.2 k (by omega) h2
          -- the rebalancing step consumes one unit of fuel
          have heq : (Node.mk its (c0 :: cs0)).removeF (fl + 1) item minP
              typ lessP =
              ((Node.mk its (c0 :: cs0)).growChild (remIdx typ item its)
                minP).removeF fl item minP typ lessP := by
            cases typ with
            | removeMax =>
              rw [removeF_max_grow (by simp) (by
                simp only [remIdx] at hsmall
                simpa only [childD_mk, Node.items_mk] using hsmall)]
              simp only [remIdx, Node.items_mk]
            | removeMin =>
              rw [removeF_min_grow (by simp) (by
                simp only [remIdx] at hsmall
                simpa only [childD_mk] using hsmall)]
              simp only [remIdx]
            | removePair =>
              rw [removeF_pair_grow (by simp) (by
                simp only [remIdx] at hsmall
                simpa only [childD_mk, Node.items_mk] using hsmall)]
              simp only [remIdx, Node.items_mk]
          -- once the facts about the rebalanced node are known, the step
          -- lemma finishes the claim
          have htrans :
              ((Node.mk its (c0 :: cs0)).growChild (remIdx typ item its)
                minP).inorder = inter (c0 :: cs0) its →
              NWF ((Node.mk its (c0 :: cs0)).growChild (remIdx typ item its)
                minP) minP maxP →
              ((Node.mk its (c0 :: cs0)).growChild (remIdx typ item its)
                minP).height = (Node.mk its (c0 :: cs0)).height →
              ((Node.mk its (c0 :: cs0)).growChild (remIdx typ item its)
                minP).children ≠ [] →
              its.length - 1 ≤
                ((Node.mk its (c0 :: cs0)).growChild (remIdx typ item its)
                  minP).items.length →
              ((Node.mk its (c0 :: cs0)).growChild (remIdx typ item its)
                minP).items.length ≤ its.length →
              ¬ ((((Node.mk its (c0 :: cs0)).growChild
                  (remIdx typ item its) minP).children.getD
                  (remIdx typ item
                    ((Node.mk its (c0 :: cs0)).growChild
                      (remIdx typ item its) minP).items)
                  default).items.length ≤ minP) →
              remConc (fl + 1) (Node.mk its (c0 :: cs0)) item typ
                minP maxP := by
            intro hg1 hg2 hg3 hne2 hlb hub hbig2
            obtain ⟨g2co, g2sor, g2b, g2bal⟩ := hg2
            cases fl with
            | zero => omega
            | succ fl2 =>
              have hn2lenc :
                  ((Node.mk its (c0 :: cs0)).growChild
                    (remIdx typ item its) minP).children.length =
                  ((Node.mk its (c0 :: cs0)).growChild
                    (remIdx typ item its) minP).items.length + 1 :=
                childOk_lenE g2co hne2
              have hstep := remove_step minP maxP H hmax hmin ih fl2
                ((Node.mk its (c0 :: cs0)).growChild
                  (remIdx typ item its) minP).items
                ((Node.mk its (c0 :: cs0)).growChild
                  (remIdx typ item its) minP).children
                item typ hne2
                (by
                  intro c hc
                  have h1 := height_child_lt hc
                  rw [hg3] at h1
                  omega)
                (by
                  intro c hc
                  have h1 := height_child_lt hc
                  rw [hg3] at h1
                  omega)
                hn2lenc
                (by rw [Node.eta]; exact g2co)
                (by rw [← inorder_internalE hne2, hg1]; exact hsor')
                g2b
                (by rw [Node.eta]; exact g2bal)
                hbig2
              rw [Node.eta] at hstep
              obtain ⟨⟨s1, s2, s3, s4, s5, s6⟩, hslen⟩ := hstep
              unfold remConc
              rw [heq]
              refine ⟨?_, ?_, s3, ?_, ?_, ?_⟩
              · rw [s1, hg1, inorder_internal _ _ hne]
              · rw [s2, hg1, inorder_internal _ _ hne]
              · simp only [Node.items_mk]
                omega
              · simp only [Node.items_mk]
                omega
              · rw [s6, hg3]
          by_cases hcleft : 0 < remIdx typ item its ∧
              minP < ((Node.mk its (c0 :: cs0)).childD
                (remIdx typ item its - 1)).items.length
          · -- steal from the left sibling
            obtain ⟨g1, g2, g3, g4, g5, g6, g7⟩ := growLeft_spec minP maxP
              hmax hmin its (c0 :: cs0) (remIdx typ item its) hlen hco hsor'
              hb hbal hcleft.1 hi0L
              (by simpa only [childD_mk] using hcleft.2) hsmall
            refine htrans g1 g2 g3
              (ne_nil_of_length_pos (by rw [g5]; simp)) ?_ ?_ ?_
            · rw [g4, List.length_set]
              omega
            · rw [g4, List.length_set]
            · cases typ with
              | removeMax =>
                simp only [remIdx] at g4 g6 ⊢
                simp only [g4, List.length_set]
                rw [childD_eq] at g6
                omega
              | removeMin =>
                exfalso
                simp only [remIdx] at hcleft
                omega
              | removePair =>
                simp only [remIdx] at g4 g6 g7 hcleft hi0L ⊢
                have hI1 : (Items.find its item lessP).1 - 1 <
                    its.length := by omega
                have hs2its : sortedK
                    (its.set ((Items.find its item lessP).1 - 1)
                      (((c0 :: cs0).getD ((Items.find its item lessP).1 - 1)
                        default).items.getLastD nilPair)) := by
                  have h0 := sortedK_items
                    (n := (Node.mk its (c0 :: cs0)).growChild
                      (Items.find its item lessP).1 minP) g2.2.1
                  rw [g4] at h0
                  exact h0
                have hAint := interP_bound hlen hsor'
                  (Items.find its item lessP).1 hi0L
                  (fun k hk => hgetlt k hk)
                have htk : (its.set ((Items.find its item lessP).1 - 1)
                    (((c0 :: cs0).getD ((Items.find its item lessP).1 - 1)
                      default).items.getLastD nilPair)).take
                    (Items.find its item lessP).1 =
                    its.take ((Items.find its item lessP).1 - 1) ++
                    [((c0 :: cs0).getD ((Items.find its item lessP).1 - 1)
                      default).items.getLastD nilPair] := by
                  conv_lhs => rw [show (Items.find its item lessP).1 =
                    (Items.find its item lessP).1 - 1 + 1 by omega]
                  exact set_take_succ its _ _ hI1
                have htakeB : ∀ x ∈ (its.set
                    ((Items.find its item lessP).1 - 1)
                    (((c0 :: cs0).getD ((Items.find its item lessP).1 - 1)
                      default).items.getLastD nilPair)).take
                    (Items.find its item lessP).1, keyLt x item := by
                  intro x hx
                  rw [htk] at hx
                  rcases List.mem_append.1 hx with hx1 | hx1
                  · obtain ⟨k, hk, hkl, he⟩ := mem_take_getD hx1
                    rw [← he]
                    exact hgetlt k (by omega)
                  · have hx2 : x = ((c0 :: cs0).getD
                        ((Items.find its item lessP).1 - 1)
                        default).items.getLastD nilPair := by simpa using hx1
                    rw [hx2]
                    exact hAint _ g7
                have hdropB : (its.set ((Items.find its item lessP).1 - 1)
                    (((c0 :: cs0).getD ((Items.find its item lessP).1 - 1)
                      default).items.getLastD nilPair)).drop
                    (Items.find its item lessP).1 =
                    its.drop (Items.find its item lessP).1 :=
                  drop_set_lt its _ _ _ (by omega)
                by_cases hf : (Items.find its item lessP).2 = true
                · obtain ⟨hiLf, hkey, _, _⟩ :=
                    (find_spec its item hsits).1 hf
                  have hget2 : (its.set
                      ((Items.find its item lessP).1 - 1)
                      (((c0 :: cs0).getD ((Items.find its item lessP).1 - 1)
                        default).items.getLastD nilPair)).getD
                      (Items.find its item lessP).1 nilPair =
                      its.getD (Items.find its item lessP).1 nilPair :=
                    getD_set_ne_pair its _ _ _ (by omega)
                  have hdet := find_det_found (its.set
                      ((Items.find its item lessP).1 - 1)
                      (((c0 :: cs0).getD ((Items.find its item lessP).1 - 1)
                        default).items.getLastD nilPair)) item
                    hs2its (j := (Items.find its item lessP).1)
                    (by rw [List.length_set]; omega)
                    (by rw [hget2]; exact hkey)
                  simp only [g4, hdet]
                  rw [childD_eq] at g6
                  omega
                · have hf' : (Items.find its item lessP).2 = false := by
                    rwa [Bool.not_eq_true] at hf
                  obtain ⟨hiLf, _, hgetgtN⟩ :=
                    (find_spec its item hsits).2 hf'
                  have hdet := find_det_notfound (its.set
                      ((Items.find its item lessP).1 - 1)
                      (((c0 :: cs0).getD ((Items.find its item lessP).1 - 1)
                        default).items.getLastD nilPair)) item
                    hs2its (j := (Items.find its item lessP).1)
                    (by rw [List.length_set]; omega) htakeB
                    (by
                      rw [hdropB]
                      exact drop_bound_of_getD
                        (fun k h1 h2 => hgetgtN k h1 h2))
                  simp only [g4, hdet]
                  rw [childD_eq] at g6
                  omega
          · by_cases hcright : remIdx typ item its <
                (Node.mk its (c0 :: cs0)).items.length ∧
                minP < ((Node.mk its (c0 :: cs0)).childD
                  (remIdx typ item its + 1)).items.length
            · -- steal from the right sibling
              obtain ⟨g1, g2, g3, g4, g5, g6, g7⟩ := growRight_spec minP
                maxP hmax hmin its (c0 :: cs0) (remIdx typ item its) hlen
                hco hsor' hb hbal hcleft (by simpa using hcright.1)
                (by simpa only [childD_mk] using hcright.2) hsmall
              have hrlt : remIdx typ item its < its.length := by
                simpa using hcright.1
              refine htrans g1 g2 g3
                (ne_nil_of_length_pos (by rw [g5]; simp)) ?_ ?_ ?_
              · rw [g4, List.length_set]
                omega
              · rw [g4, List.length_set]
              · cases typ with
                | removeMax =>
                  exfalso
                  simp only [remIdx] at hrlt
                  omega
                | removeMin =>
                  simp only [remIdx] at g6 ⊢
                  rw [childD_eq] at g6
                  omega
                | removePair =>
                  simp only [remIdx] at g4 g6 g7 hrlt hi0L ⊢
                  have hs2its : sortedK
                      (its.set (Items.find its item lessP).1
                        (((c0 :: cs0).getD ((Items.find its item lessP).1
                          + 1) default).items.headD nilPair)) := by
                    have h0 := sortedK_items
                      (n := (Node.mk its (c0 :: cs0)).growChild
                        (Items.find its item lessP).1 minP) g2.2.1
                    rw [g4] at h0
                    exact h0
                  have htakeB : ∀ x ∈ (its.set
                      (Items.find its item lessP).1
                      (((c0 :: cs0).getD ((Items.find its item lessP).1 + 1)
                        default).items.headD nilPair)).take
                      (Items.find its item lessP).1, keyLt x item := by
                    rw [take_set_le _ _ _ _ (le_refl _)]
                    exact take_bound_of_getD (fun k hk => hgetlt k hk)
                  have hstol : keyLt item
                      (((c0 :: cs0).getD ((Items.find its item lessP).1 + 1)
                        default).items.headD nilPair) := by
                    by_cases hf : (Items.find its item lessP).2 = true
                    · obtain ⟨_, hkey, _, _⟩ :=
                        (find_spec its item hsits).1 hf
                      exact keyLt_congr_l g7 hkey
                    · have hf' : (Items.find its item lessP).2 = false := by
                        rwa [Bool.not_eq_true] at hf
                      obtain ⟨_, _, hgt⟩ := (find_spec its item hsits).2 hf'
                      exact keyLt_trans (hgt _ (le_refl _) hrlt) g7
                  have hdropB : ∀ y ∈ (its.set
                      (Items.find its item lessP).1
                      (((c0 :: cs0).getD ((Items.find its item lessP).1 + 1)
                        default).items.headD nilPair)).drop
                      (Items.find its item lessP).1, keyLt item y := by
                    rw [drop_set_eq _ _ _ hrlt]
                    intro y hy
                    rcases List.mem_cons.1 hy with rfl | hy1
                    · exact hstol
                    · obtain ⟨k, hk, hkl, he⟩ := mem_drop_getD hy1
                      rw [← he]
                      exact hgetgt1 k (by omega) hkl
                  have hdet := find_det_notfound (its.set
                      (Items.find its item lessP).1
                      (((c0 :: cs0).getD ((Items.find its item lessP).1 + 1)
                        default).items.headD nilPair)) item
                    hs2its (j := (Items.find its item lessP).1)
                    (by rw [List.length_set]; omega) htakeB hdropB
                  simp only [g4, hdet]
                  rw [childD_eq] at g6
                  omega
            · -- merge with a neighbour
              have hsM0 : ((c0 :: cs0).getD (remIdx typ item its + 1)
                  default).items.length ≤ minP ∨
                  its.length ≤ remIdx typ item its := by
                rcases Nat.lt_or_ge (remIdx typ item its) its.length
                  with h1 | h1
                · left
                  by_contra h2
                  exact hcright ⟨by simpa using h1,
                    by simpa only [childD_mk] using (by omega :
                      minP < ((c0 :: cs0).getD (remIdx typ item its + 1)
                        default).items.length)⟩
                · exact Or.inr h1
              rcases Nat.lt_or_ge (remIdx typ item its) its.length
                with hjlt | hjge
              · -- merge the target with its right neighbour
                have hgrow : (Node.mk its (c0 :: cs0)).growChild
                    (remIdx typ item its) minP =
                    Node.mk (its.eraseIdx (remIdx typ item its))
                      (((c0 :: cs0).set (remIdx typ item its)
                        (Node.mk
                          (((c0 :: cs0).getD (remIdx typ item its)
                            default).items ++
                            its.getD (remIdx typ item its) nilPair ::
                            ((c0 :: cs0).getD (remIdx typ item its + 1)
                              default).items)
                          (((c0 :: cs0).getD (remIdx typ item its)
                            default).children ++
                            ((c0 :: cs0).getD (remIdx typ item its + 1)
                              default).children))).eraseIdx
                        (remIdx typ item its + 1)) := by
                  rw [growChild_merge hcleft hcright]
                  simp only [Node.items_mk, Node.children_mk, childD_mk]
                  rw [if_neg (by omega : ¬ (its.length ≤
                    remIdx typ item its))]
                have hsM : ((c0 :: cs0).getD (remIdx typ item its + 1)
                    default).items.length ≤ minP := by
                  rcases hsM0 with h1 | h1
                  · exact h1
                  · omega
                obtain ⟨m1, m2, m3, m4, m5⟩ := growMerge_spec minP maxP
                  hmax hmin its (c0 :: cs0) (remIdx typ item its) hlen hco
                  hsor' hb hbal (by omega) hsmall hsM
                refine htrans (by rw [hgrow]; exact m1)
                  (by rw [hgrow]; exact m2) (by rw [hgrow]; exact m3)
                  ?_ ?_ ?_ ?_
                · rw [hgrow]
                  simp only [Node.children_mk]
                  exact ne_nil_of_length_pos (by rw [m4, hlen]; omega)
                · rw [hgrow]
                  simp only [Node.items_mk]
                  have h1 := eraseIdx_length_lt its (remIdx typ item its)
                    (by omega)
                  omega
                · rw [hgrow]
                  simp only [Node.items_mk]
                  have h1 := eraseIdx_length_lt its (remIdx typ item its)
                    (by omega)
                  omega
                · cases typ with
                  | removeMax =>
                    exfalso
                    simp only [remIdx] at hjlt
                    omega
                  | removeMin =>
                    simp only [remIdx] at m5 hgrow ⊢
                    rw [hgrow]
                    simp only [Node.children_mk, Node.items_mk]
                    omega
                  | removePair =>
                    simp only [remIdx] at m5 hgrow hjlt hi0L ⊢
                    have hs2its : sortedK
                        (its.eraseIdx (Items.find its item lessP).1) :=
                      sortedK_of_sublist (List.eraseIdx_sublist _ _) hsits
                    have hlen2 : (its.eraseIdx
                        (Items.find its item lessP).1).length =
                        its.length - 1 :=
                      eraseIdx_length_lt _ _ (by omega)
                    have htakeB : ∀ x ∈ (its.eraseIdx
                        (Items.find its item lessP).1).take
                        (Items.find its item lessP).1, keyLt x item := by
                      rw [take_eraseIdx_le _ _ _ (le_refl _)]
                      exact take_bound_of_getD (fun k hk => hgetlt k hk)
                    have hdropB : ∀ y ∈ (its.eraseIdx
                        (Items.find its item lessP).1).drop
                        (Items.find its item lessP).1, keyLt item y := by
                      rw [drop_eraseIdx_ge _ _ _ (le_refl _)]
                      exact drop_bound_of_getD
                        (fun k h1 h2 => hgetgt1 k h1 h2)
                    have hdet := find_det_notfound (its.eraseIdx
                        (Items.find its item lessP).1) item
                      hs2its (j := (Items.find its item lessP).1)
                      (by rw [hlen2]; omega) htakeB hdropB
                    rw [hgrow]
                    simp only [Node.children_mk, Node.items_mk, hdet]
                    omega
              · -- the target is the last child: merge with its left
                -- neighbour
                have hi0eq : remIdx typ item its = its.length := by omega
                have hgrow : (Node.mk its (c0 :: cs0)).growChild
                    (remIdx typ item its) minP =
                    Node.mk (its.eraseIdx (remIdx typ item its - 1))
                      (((c0 :: cs0).set (remIdx typ item its - 1)
                        (Node.mk
                          (((c0 :: cs0).getD (remIdx typ item its - 1)
                            default).items ++
                            its.getD (remIdx typ item its - 1) nilPair ::
                            ((c0 :: cs0).getD (remIdx typ item its - 1 + 1)
                              default).items)
                          (((c0 :: cs0).getD (remIdx typ item its - 1)
                            default).children ++
                            ((c0 :: cs0).getD (remIdx typ item its - 1 + 1)
                              default).children))).eraseIdx
                        (remIdx typ item its - 1 + 1)) := by
                  rw [growChild_merge hcleft hcright]
                  simp only [Node.items_mk, Node.children_mk, childD_mk]
                  rw [if_pos (by omega : its.length ≤ remIdx typ item its)]
                have hsC : ((c0 :: cs0).getD (remIdx typ item its - 1)
                    default).items.length ≤ minP := by
                  by_contra h2
                  exact hcleft ⟨by omega,
                    by simpa only [childD_mk] using (by omega :
                      minP < ((c0 :: cs0).getD (remIdx typ item its - 1)
                        default).items.length)⟩
                obtain ⟨m1, m2, m3, m4, m5⟩ := growMerge_spec minP maxP
                  hmax hmin its (c0 :: cs0) (remIdx typ item its - 1) hlen
                  hco hsor' hb hbal (by omega) hsC
                  (by rw [show remIdx typ item its - 1 + 1 =
                    remIdx typ item its by omega]; exact hsmall)
                refine htrans (by rw [hgrow]; exact m1)
                  (by rw [hgrow]; exact m2) (by rw [hgrow]; exact m3)
                  ?_ ?_ ?_ ?_
                · rw [hgrow]
                  simp only [Node.children_mk]
                  exact ne_nil_of_length_pos (by rw [m4, hlen]; omega)
                · rw [hgrow]
                  simp only [Node.items_mk]
                  have h1 := eraseIdx_length_lt its
                    (remIdx typ item its - 1) (by omega)
                  omega
                · rw [hgrow]
                  simp only [Node.items_mk]
                  have h1 := eraseIdx_length_lt its
                    (remIdx typ item its - 1) (by omega)
                  omega
                · cases typ with
                  | removeMax =>
                    simp only [remIdx] at m5 hgrow hi0eq ⊢
                    rw [hgrow]
                    simp only [Node.children_mk, Node.items_mk]
                    rw [eraseIdx_length_lt its _ (by omega)]
                    omega
                  | removeMin =>
                    exfalso
                    simp only [remIdx] at hi0eq
                    omega
                  | removePair =>
                    simp only [remIdx] at m5 hgrow hi0eq ⊢
                    have hs2its : sortedK (its.eraseIdx
                        ((Items.find its item lessP).1 - 1)) :=
                      sortedK_of_sublist (List.eraseIdx_sublist _ _) hsits
                    have hlen2 : (its.eraseIdx
                        ((Items.find its item lessP).1 - 1)).length =
                        its.length - 1 :=
                      eraseIdx_length_lt _ _ (by omega)
                    have htakeB : ∀ x ∈ (its.eraseIdx
                        ((Items.find its item lessP).1 - 1)).take
                        ((Items.find its item lessP).1 - 1),
                        keyLt x item := by
                      rw [take_eraseIdx_le _ _ _ (le_refl _)]
                      exact take_bound_of_getD (fun k hk =>
                        hgetlt k (by omega))
                    have hdropB : ∀ y ∈ (its.eraseIdx
                        ((Items.find its item lessP).1 - 1)).drop
                        ((Items.find its item lessP).1 - 1),
                        keyLt item y := by
                      rw [drop_eraseIdx_ge _ _ _ (le_refl _),
                        show (Items.find its item lessP).1 - 1 + 1 =
                          (Items.find its item lessP).1 by omega,
                        hi0eq, List.drop_eq_nil_of_le (le_refl _)]
                      intro y hy
                      simp at hy
                    have hdet := find_det_notfound (its.eraseIdx
                        ((Items.find its item lessP).1 - 1)) item
                      hs2its (j := (Items.find its item lessP).1 - 1)
                      (by rw [hlen2]; omega) htakeB hdropB
                    rw [hgrow]
                    simp only [Node.children_mk, Node.items_mk, hdet]
                    omega
        · -- the child can spare an item: a single descending step
          have hstep := remove_step minP maxP H hmax hmin ih fl its
            (c0 :: cs0) item typ hne hhc
            (by
              intro c hc
              have h1 := height_child_lt (n := Node.mk its (c0 :: cs0))
                (by simpa using hc)
              omega)
            hlen hco hsor' hb hbal hsmall
          exact hstep.1



/-- C8: calling `ReplaceOrInsert` with the absent sentinel `nilPair` (the
nil item) aborts fatally — modelled as `none` — before performing any
modification of the tree. -/
theorem claim_C8 (t : PairTree) : t.replaceOrInsert nilPair = none := by
  unfold PairTree.replaceOrInsert
  rw [if_pos rfl]

/-! ## Tree-level invariant and specifications

`TWF` collects the handle-level invariants that `ReplaceOrInsert` and
`deletePair` maintain: the cached `length` agrees with the stored contents,
the sentinel is never stored, and the root (when present) is a well-formed
B-tree node whose item count never exceeds `maxPairs` and that is only
item-free when it is a leaf. -/

/-- Tree-level well-formedness. -/
def TWF (t : PairTree) : Prop :=
  2 ≤ t.degree ∧
  t.length = t.toList.length ∧
  nilPair ∉ t.toList ∧
  ∀ r, t.root = some r →
    NWF r t.minPairs t.maxPairs ∧
    r.items.length ≤ t.maxPairs ∧
    (r.children = [] ∨ 1 ≤ r.items.length)

theorem maxPairs_eq (t : PairTree) (hd : 2 ≤ t.degree) :
    t.maxPairs = 2 * t.minPairs + 1 := by
  simp only [PairTree.maxPairs, PairTree.minPairs]
  omega

theorem minPairs_pos (t : PairTree) (hd : 2 ≤ t.degree) : 1 ≤ t.minPairs := by
  simp only [PairTree.minPairs]
  omega

theorem TWF_new (d : Nat) (hd : 2 ≤ d) : TWF (newTree d) := by
  refine ⟨hd, rfl, by simp [newTree, PairTree.toList], ?_⟩
  intro r hr
  simp [newTree] at hr

theorem toList_some {t : PairTree} {r : Node} (hr : t.root = some r) :
    t.toList = r.inorder := by
  simp [PairTree.toList, hr]

theorem mem_getLastD_pair {l : List Pair} (h : l ≠ []) :
    l.getLastD nilPair ∈ l := mem_getLastD h

/-- A tree with stored items has a root with at least one item in it. -/
theorem root_of_toList_ne_nil {t : PairTree} (hT : TWF t)
    (hne : t.toList ≠ []) :
    ∃ r, t.root = some r ∧ 1 ≤ r.items.length := by
  cases hr : t.root with
  | none => exact absurd (by simp [PairTree.toList, hr]) hne
  | some r =>
    refine ⟨r, rfl, ?_⟩
    rcases (hT.2.2.2 r hr).2.2 with hleaf | hpos
    · have h1 : r.inorder = r.items := inorder_leafE hleaf
      have h2 : t.toList = r.items := by rw [toList_some hr, h1]
      have h3 : r.items ≠ [] := by rw [← h2]; exact hne
      cases hi : r.items with
      | nil => exact absurd hi h3
      | cons a l => simp [hi]
    · exact hpos

/-- Splitting a full root at `maxP / 2` yields a well-formed one-item root
with the same contents (`pairtree.go:662-668`). -/
theorem root_split_spec (minP maxP : Nat) (hmax : maxP = 2 * minP + 1)
    (hmin : 1 ≤ minP) (r : Node) (hN : NWF r minP maxP)
    (hlen : r.items.length = maxP) :
    (Node.mk [(r.splitAt (maxP / 2)).1]
      [(r.splitAt (maxP / 2)).2.1, (r.splitAt (maxP / 2)).2.2]).inorder =
      r.inorder ∧
    NWF (Node.mk [(r.splitAt (maxP / 2)).1]
      [(r.splitAt (maxP / 2)).2.1, (r.splitAt (maxP / 2)).2.2]) minP maxP := by
  obtain ⟨hco, hsor, hb, hbal⟩ := hN
  have hmp : maxP / 2 = minP := by omega
  have hmplt : maxP / 2 < r.items.length := by omega
  obtain ⟨hs1, hs2, hs3, hs4, hs5, hs6, hs7, hs8, hs9, hs10, hs11,
    hs12, hs13, hs14, hs15⟩ := splitAt_spec r (maxP / 2) hco hmplt
  have hio : (Node.mk [(r.splitAt (maxP / 2)).1]
      [(r.splitAt (maxP / 2)).2.1, (r.splitAt (maxP / 2)).2.2]).inorder =
      r.inorder := by
    rw [inorder_internal _ _ (by simp), inter_cons, inter_single, ← hs1]
  refine ⟨hio, ?_, ?_, ?_, ?_⟩
  · rw [childOkB_iff]
    refine ⟨Or.inr (by simp), ?_⟩
    intro c hc
    rcases List.mem_pair.1 hc with rfl | rfl
    · exact hs2
    · exact hs3
  · rw [hio]
    exact hsor
  · intro c hc
    rcases List.mem_pair.1 hc with rfl | rfl
    · refine boundedB_of _ _ _ (by omega) (by omega) ?_
      intro c hc
      exact hb c (hs6 c hc)
    · refine boundedB_of _ _ _ (by omega) (by omega) ?_
      intro c hc
      exact hb c (hs7 c hc)
  · rw [balB_iff]
    refine ⟨?_, ?_⟩
    · intro c hc d hd
      rcases List.mem_pair.1 hc with rfl | rfl <;>
        rcases List.mem_pair.1 hd with rfl | rfl <;>
          simp only [hs14 hbal, hs15 hbal]
    · intro c hc
      rcases List.mem_pair.1 hc with rfl | rfl
      · exact hs12 hbal
      · exact hs13 hbal

/-- Discharging `TWF` for a tree handle with an explicitly given root. -/
theorem TWF_mk (d L : Nat) (n : Node) (hd : 2 ≤ d)
    (hL : L = n.inorder.length) (hnp : nilPair ∉ n.inorder)
    (hN : NWF n (d - 1) (d * 2 - 1)) (hle : n.items.length ≤ d * 2 - 1)
    (hpre : n.children = [] ∨ 1 ≤ n.items.length) :
    TWF { degree := d, length := L, root := some n } := by
  refine ⟨hd, hL, hnp, ?_⟩
  intro r hr
  cases Option.some.inj hr
  exact ⟨hN, hle, hpre⟩

/-- `t.ReplaceOrInsert(item)` on a well-formed tree with a proper item:
refines the sorted-list upsert `insKey`, returns the previously stored
entry (`lookupKey`, the sentinel when absent), preserves the invariant and
keeps the cached length in step. -/
theorem replaceOrInsert_spec (t : PairTree) (item : Pair) (hT : TWF t)
    (hne : item ≠ nilPair) :
    ∃ t' : PairTree,
      t.replaceOrInsert item = some (lookupKey item t.toList, t') ∧
      t'.toList = insKey item t.toList ∧
      TWF t' ∧ t'.degree = t.degree ∧
      t'.length =
        (if hasKey item.key t.toList = true then t.length else t.length + 1) := by
  obtain ⟨hd, hlen, hnp, hroot⟩ := hT
  have hmaxmin := maxPairs_eq t hd
  have hminpos := minPairs_pos t hd
  have hmp2 : t.maxPairs = t.degree * 2 - 1 := rfl
  have hmn2 : t.minPairs = t.degree - 1 := rfl
  cases hr : t.root with
  | none =>
    have htl : t.toList = [] := by simp [PairTree.toList, hr]
    refine ⟨{ t with
      root := some (Node.mk [item] []),
      length := t.length + 1 }, ?_, ?_, ?_, rfl, ?_⟩
    · simp only [PairTree.replaceOrInsert, hr, if_neg hne]
      rw [htl]
      rfl
    · rw [htl]
      show (Node.mk [item] []).inorder = insKey item []
      rw [inorder_leaf]
      rfl
    · refine TWF_mk t.degree (t.length + 1) (Node.mk [item] []) hd ?_ ?_
        ?_ ?_ (Or.inl rfl)
      · rw [htl] at hlen
        simp only [List.length_nil] at hlen
        rw [inorder_leaf]
        simp
        omega
      · rw [inorder_leaf]
        intro hmem
        simp at hmem
        exact hne hmem.symm
      · refine ⟨childOk_leaf _, ?_, ?_, bal_leaf _⟩
        · rw [inorder_leaf]
          simp [sortedK]
        · intro c hc
          simp at hc
      · simp only [Node.items_mk, List.length_singleton]
        omega
    · rw [htl]
      simp [hasKey]
  | some r =>
    obtain ⟨hNr, hrle, hrpre⟩ := hroot r hr
    have htl : t.toList = r.inorder := toList_some hr
    have hsortl : sortedK t.toList := by rw [htl]; exact hNr.2.1
    -- the (possibly split) root the insert descends from
    have hkey : ∃ R1 : Node,
        (t.replaceOrInsert item = some (
          let res := R1.insertF (R1.height + 1) item t.maxPairs lessP
          if res.1 = nilPair then
            (res.1, { t with root := some res.2, length := t.length + 1 })
          else
            (res.1, { t with root := some res.2 }))) ∧
        R1.inorder = r.inorder ∧ NWF R1 t.minPairs t.maxPairs ∧
        R1.items.length < t.maxPairs ∧
        (R1.children = [] ∨ 1 ≤ R1.items.length) := by
      by_cases hsplit : t.maxPairs ≤ r.items.length
      · have hfull : r.items.length = t.maxPairs := by omega
        obtain ⟨hio, hNW⟩ := root_split_spec t.minPairs t.maxPairs hmaxmin
          hminpos r hNr hfull
        refine ⟨Node.mk [(r.splitAt (t.maxPairs / 2)).1]
          [(r.splitAt (t.maxPairs / 2)).2.1,
           (r.splitAt (t.maxPairs / 2)).2.2], ?_, ?_, ?_, ?_, ?_⟩
        · simp only [PairTree.replaceOrInsert, hr, if_neg hne]
          rw [if_pos hsplit]
        · exact hio
        · exact hNW
        · simp only [Node.items_mk, List.length_singleton]
          omega
        · exact Or.inr (by simp)
      · refine ⟨r, ?_, rfl, hNr, by omega, hrpre⟩
        simp only [PairTree.replaceOrInsert, hr, if_neg hne]
        rw [if_neg hsplit]
    obtain ⟨R1, heqn, hio, hNW, hlt, hpre1⟩ := hkey
    obtain ⟨hc1, hc2, hc3, hc4, hc5, hc6, hc7⟩ :=
      insertF_spec t.minPairs t.maxPairs hmaxmin hminpos (R1.height + 1) R1
        item (by omega) hNW hlt
    have hlook : (R1.insertF (R1.height + 1) item t.maxPairs lessP).1 =
        lookupKey item t.toList := by
      rw [hc1, hio, ← htl]
    have hins : (R1.insertF (R1.height + 1) item t.maxPairs
        lessP).2.inorder = insKey item t.toList := by
      rw [hc2, hio, ← htl]
    have hnp2 : nilPair ∉ insKey item t.toList := by
      intro hmem
      rcases mem_insKey hmem with h1 | h1
      · exact hne h1.symm
      · exact hnp h1
    have hpre2 : (R1.insertF (R1.height + 1) item t.maxPairs
        lessP).2.children = [] ∨
        1 ≤ (R1.insertF (R1.height + 1) item t.maxPairs
          lessP).2.items.length := by
      by_cases hch : (R1.insertF (R1.height + 1) item t.maxPairs
          lessP).2.children = []
      · exact Or.inl hch
      · refine Or.inr ?_
        have h1 := hc6
        rw [isEmpty_false_of_ne_nil hch] at h1
        rcases hpre1 with h2 | h2
        · rw [h2] at h1
          simp at h1
        · omega
    have hNW3 : NWF (R1.insertF (R1.height + 1) item t.maxPairs lessP).2
        (t.degree - 1) (t.degree * 2 - 1) := by
      rw [← hmn2, ← hmp2]
      exact hc3
    have hle3 : (R1.insertF (R1.height + 1) item t.maxPairs
        lessP).2.items.length ≤ t.degree * 2 - 1 := by
      rw [← hmp2]
      omega
    by_cases hhk : hasKey item.key t.toList = true
    · have hlkne : lookupKey item t.toList ≠ nilPair := by
        intro h
        exact hnp (h ▸ (lookupKey_mem hhk).1)
      refine ⟨{ t with
        root := some (R1.insertF (R1.height + 1) item t.maxPairs
          lessP).2 }, ?_, hins, ?_, rfl, ?_⟩
      · rw [heqn]
        simp only [hlook]
        rw [if_neg hlkne]
      · refine TWF_mk t.degree t.length _ hd ?_ ?_ hNW3 hle3 hpre2
        · rw [hins, insKey_has hsortl hhk]
          exact hlen
        · rw [hins]
          exact hnp2
      · rw [if_pos hhk]
    · have hhk2 : hasKey item.key t.toList = false := by
        rwa [Bool.not_eq_true] at hhk
      have hlknil : lookupKey item t.toList = nilPair :=
        lookupKey_eq_nil_of_not_has hhk2
      refine ⟨{ t with
        root := some (R1.insertF (R1.height + 1) item t.maxPairs lessP).2,
        length := t.length + 1 }, ?_, hins, ?_, rfl, ?_⟩
      · rw [heqn]
        simp only [hlook]
        rw [if_pos hlknil]
      · refine TWF_mk t.degree (t.length + 1) _ hd ?_ ?_ hNW3 hle3 hpre2
        · rw [hins, insKey_not_has hhk2]
          omega
        · rw [hins]
          exact hnp2
      · rw [if_neg hhk]

theorem deletePair_empty (t : PairTree) (item : Pair) (typ : ToRemove)
    (he : t.toList = []) : t.deletePair item typ = (nilPair, t) := by
  cases hr : t.root with
  | none => simp [PairTree.deletePair, hr]
  | some r =>
    have hio : r.inorder = [] := by rw [← toList_some hr]; exact he
    have hits : r.items.length = 0 := by
      have h1 := items_sublist_inorder r
      rw [hio] at h1
      rw [List.sublist_nil.1 h1]
      rfl
    simp [PairTree.deletePair, hr, hits]

theorem mem_remRes_snd {typ : ToRemove} {item x : Pair} {l : List Pair}
    (h : x ∈ (remRes typ item l).2) : x ∈ l := by
  cases typ with
  | removeMax =>
    simp only [remRes] at h
    exact (List.dropLast_sublist l).mem h
  | removeMin =>
    simp only [remRes] at h
    exact (List.drop_sublist 1 l).mem h
  | removePair =>
    simp only [remRes] at h
    exact mem_eraseKey h

/-- `t.deletePair(item, typ)` on a well-formed nonempty tree: refines the
sorted-list removal `remRes` (drop-last, drop-first, or `eraseKey`),
preserves the invariant and keeps the cached length in step. -/
theorem deletePair_spec (t : PairTree) (item : Pair) (typ : ToRemove)
    (hT : TWF t) (hne : t.toList ≠ []) :
    ∃ t' : PairTree,
      t.deletePair item typ = ((remRes typ item t.toList).1, t') ∧
      t'.toList = (remRes typ item t.toList).2 ∧
      TWF t' ∧ t'.degree = t.degree ∧
      t'.length = (if (remRes typ item t.toList).1 = nilPair then t.length
        else t.length - 1) := by
  obtain ⟨r, hr, hpos⟩ := root_of_toList_ne_nil hT hne
  obtain ⟨hd, hlen, hnp, hroot⟩ := hT
  have hmaxmin := maxPairs_eq t hd
  have hminpos := minPairs_pos t hd
  have hmp2 : t.maxPairs = t.degree * 2 - 1 := rfl
  have hmn2 : t.minPairs = t.degree - 1 := rfl
  obtain ⟨hNr, hrle, hrpre⟩ := hroot r hr
  have htl := toList_some hr
  have hConc := removeF_spec t.minPairs t.maxPairs hmaxmin hminpos r.height
    r (le_refl _) (2 * r.height + 1) item typ (by omega) hNr (Or.inr hpos)
  unfold remConc at hConc
  obtain ⟨hc1, hc2, hc3, hc4, hc5, hc6⟩ := hConc
  have heqn : t.deletePair item typ =
      (if (r.removeF (2 * r.height + 1) item t.minPairs typ lessP).1 =
          nilPair then
        ((r.removeF (2 * r.height + 1) item t.minPairs typ lessP).1,
          { t with root := some (if ((r.removeF (2 * r.height + 1) item
              t.minPairs typ lessP).2.items.length == 0 &&
              !(r.removeF (2 * r.height + 1) item t.minPairs typ
                lessP).2.children.isEmpty) = true then
              (r.removeF (2 * r.height + 1) item t.minPairs typ
                lessP).2.childD 0
            else (r.removeF (2 * r.height + 1) item t.minPairs typ
              lessP).2) })
      else
        ((r.removeF (2 * r.height + 1) item t.minPairs typ lessP).1,
          { t with
            root := some (if ((r.removeF (2 * r.height + 1) item
                t.minPairs typ lessP).2.items.length == 0 &&
                !(r.removeF (2 * r.height + 1) item t.minPairs typ
                  lessP).2.children.isEmpty) = true then
                (r.removeF (2 * r.height + 1) item t.minPairs typ
                  lessP).2.childD 0
              else (r.removeF (2 * r.height + 1) item t.minPairs typ
                lessP).2),
            length := t.length - 1 })) := by
    simp only [PairTree.deletePair, hr]
    rw [if_neg (by omega : ¬ r.items.length = 0)]
  -- the collapsed (or unchanged) new root
  have hRT : ∃ RT : Node,
      (if ((r.removeF (2 * r.height + 1) item t.minPairs typ
          lessP).2.items.length == 0 &&
          !(r.removeF (2 * r.height + 1) item t.minPairs typ
            lessP).2.children.isEmpty) = true then
        (r.removeF (2 * r.height + 1) item t.minPairs typ
          lessP).2.childD 0
      else (r.removeF (2 * r.height + 1) item t.minPairs typ lessP).2) =
        RT ∧
      RT.inorder =
        (r.removeF (2 * r.height + 1) item t.minPairs typ lessP).2.inorder ∧
      NWF RT t.minPairs t.maxPairs ∧ RT.items.length ≤ t.maxPairs ∧
      (RT.children = [] ∨ 1 ≤ RT.items.length) := by
    by_cases hcolB : ((r.removeF (2 * r.height + 1) item t.minPairs typ
        lessP).2.items.length == 0 &&
        !(r.removeF (2 * r.height + 1) item t.minPairs typ
          lessP).2.children.isEmpty) = true
    · rw [if_pos hcolB]
      rw [Bool.and_eq_true, beq_iff_eq, Bool.not_eq_true',
        List.isEmpty_eq_false_iff_exists_mem] at hcolB
      obtain ⟨hcol0, c0, hc0⟩ := hcolB
      have hchne : (r.removeF (2 * r.height + 1) item t.minPairs typ
          lessP).2.children ≠ [] := by
        intro h
        rw [h] at hc0
        exact absurd hc0 (List.not_mem_nil c0)
      have hlen1 : (r.removeF (2 * r.height + 1) item t.minPairs typ
          lessP).2.children.length = 1 := by
        have hok : (Node.mk (r.removeF (2 * r.height + 1) item t.minPairs
            typ lessP).2.items (r.removeF (2 * r.height + 1) item t.minPairs
            typ lessP).2.children).childOkB = true := by
          rw [Node.eta]
          exact hc3.1
        have h1 := childOk_len hok hchne
        omega
      obtain ⟨c, hc⟩ := List.length_eq_one.1 hlen1
      have hcd : (r.removeF (2 * r.height + 1) item t.minPairs typ
          lessP).2.childD 0 = c := by
        unfold Node.childD
        rw [hc]
        rfl
      have hcmem : c ∈ (r.removeF (2 * r.height + 1) item t.minPairs typ
          lessP).2.children := by
        rw [hc]
        exact List.mem_singleton_self c
      have hits0 : (r.removeF (2 * r.height + 1) item t.minPairs typ
          lessP).2.items = [] := List.length_eq_zero.1 hcol0
      have hio : (r.removeF (2 * r.height + 1) item t.minPairs typ
          lessP).2.inorder = c.inorder := by
        conv_lhs => rw [← Node.eta (r.removeF (2 * r.height + 1) item
          t.minPairs typ lessP).2, hits0, hc]
        rw [inorder_internal _ _ (by simp), inter_single]
      have hbc := hc3.2.2.1 c hcmem
      refine ⟨c, hcd, hio.symm, ⟨?_, ?_, ?_, ?_⟩, ?_, ?_⟩
      · exact childOk_children hc3.1 c hcmem
      · rw [← hio]
        exact hc3.2.1
      · exact boundedB_children hbc
      · exact bal_children hc3.2.2.2 c hcmem
      · exact (boundedB_self hbc).2
      · exact Or.inr (le_trans hminpos (boundedB_self hbc).1)
    · rw [if_neg hcolB]
      rw [Bool.and_eq_true, beq_iff_eq, Bool.not_eq_true',
        List.isEmpty_eq_false_iff_exists_mem] at hcolB
      refine ⟨_, rfl, rfl, hc3, by omega, ?_⟩
      by_cases hch : (r.removeF (2 * r.height + 1) item t.minPairs typ
          lessP).2.children = []
      · exact Or.inl hch
      · refine Or.inr ?_
        by_contra h0
        obtain ⟨c0, hc0⟩ := List.exists_mem_of_ne_nil _ hch
        exact hcolB ⟨by omega, c0, hc0⟩
  obtain ⟨RT, hRTeq, hRTio, hRTN, hRTle, hRTpre⟩ := hRT
  rw [hRTeq] at heqn
  have hres1 : (r.removeF (2 * r.height + 1) item t.minPairs typ
      lessP).1 = (remRes typ item t.toList).1 := by
    rw [hc1, htl]
  have hres2 : RT.inorder = (remRes typ item t.toList).2 := by
    rw [hRTio, hc2, htl]
  have hnp2 : nilPair ∉ RT.inorder := by
    rw [hres2]
    intro h
    exact hnp (mem_remRes_snd h)
  have hNW3 : NWF RT (t.degree - 1) (t.degree * 2 - 1) := by
    rw [← hmn2, ← hmp2]
    exact hRTN
  have hle3 : RT.items.length ≤ t.degree * 2 - 1 := by
    rw [← hmp2]
    exact hRTle
  -- length bookkeeping
  have htll : 1 ≤ t.toList.length := by
    cases hl : t.toList with
    | nil => exact absurd hl hne
    | cons a l => simp
  have hlen2 : (remRes typ item t.toList).2.length =
      (if (remRes typ item t.toList).1 = nilPair then t.toList.length
        else t.toList.length - 1) := by
    cases typ with
    | removeMax =>
      have h1 : (remRes ToRemove.removeMax item t.toList).1 =
          t.toList.getLastD nilPair := rfl
      have h2 : t.toList.getLastD nilPair ∈ t.toList :=
        mem_getLastD_pair (by intro h; rw [h] at htll; simp at htll)
      rw [h1, if_neg (by intro h; exact hnp (h ▸ h2))]
      simp only [remRes]
      rw [List.length_dropLast]
    | removeMin =>
      have h2 : t.toList.headD nilPair ∈ t.toList :=
        mem_headD_pair (by intro h; rw [h] at htll; simp at htll)
      rw [show (remRes ToRemove.removeMin item t.toList).1 =
        t.toList.headD nilPair from rfl,
        if_neg (by intro h; exact hnp (h ▸ h2))]
      simp only [remRes]
      rw [List.length_drop]
    | removePair =>
      by_cases hhk : hasKey item.key t.toList = true
      · have h2 := (lookupKey_mem hhk).1
        rw [show (remRes ToRemove.removePair item t.toList).1 =
          lookupKey item t.toList from rfl,
          if_neg (by intro h; exact hnp (h ▸ h2))]
        simp only [remRes]
        have h3 := eraseKey_not_mem_len (p := item) hhk
        omega
      · have hhk2 : hasKey item.key t.toList = false := by
          rwa [Bool.not_eq_true] at hhk
        rw [show (remRes ToRemove.removePair item t.toList).1 =
          lookupKey item t.toList from rfl,
          if_pos (lookupKey_eq_nil_of_not_has hhk2)]
        simp only [remRes]
        rw [eraseKey_eq_self_of_not_has hhk2]
  by_cases hn1 : (remRes typ item t.toList).1 = nilPair
  · refine ⟨{ t with root := some RT }, ?_, hres2, ?_, rfl, ?_⟩
    · rw [heqn, hres1, if_pos hn1, hn1]
    · refine TWF_mk t.degree t.length RT hd ?_ hnp2 hNW3 hle3 hRTpre
      rw [hres2, hlen2, if_pos hn1]
      exact hlen
    · rw [if_pos hn1]
  · refine ⟨{ t with
      root := some RT,
      length := t.length - 1 }, ?_, hres2, ?_, rfl, ?_⟩
    · rw [heqn, hres1, if_neg hn1]
    · refine TWF_mk t.degree (t.length - 1) RT hd ?_ hnp2 hNW3 hle3 hRTpre
      rw [hres2, hlen2, if_neg hn1]
      omega
    · rw [if_neg hn1]

theorem sortedK_toList {t : PairTree} (hT : TWF t) : sortedK t.toList := by
  cases hr : t.root with
  | none =>
    have h1 : t.toList = [] := by simp [PairTree.toList, hr]
    rw [h1]
    simp [sortedK]
  | some r =>
    rw [toList_some hr]
    exact (hT.2.2.2 r hr).1.2.1

/-! ## Operation sequences (`C1`) -/

/-- A mutating tree operation: the four write entry points of the handle. -/
inductive Op : Type where
  | ins : Pair → Op
  | del : Pair → Op
  | delMin : Op
  | delMax : Op
  deriving Repr

/-- Apply one operation to a tree (an insert of the sentinel panics and so
leaves the tree unchanged). -/
def applyOp (t : PairTree) : Op → PairTree
  | .ins p =>
    match t.replaceOrInsert p with
    | none => t
    | some r => r.2
  | .del p => (t.delete p).2
  | .delMin => t.deleteMin.2
  | .delMax => t.deleteMax.2

/-- The tree built by a sequence of write operations on an initially empty
tree of the given degree. -/
def build (d : Nat) (ops : List Op) : PairTree :=
  ops.foldl applyOp (newTree d)

theorem TWF_applyOp (t : PairTree) (op : Op) (hT : TWF t) :
    TWF (applyOp t op) ∧ (applyOp t op).degree = t.degree := by
  have hdel : ∀ item typ, TWF (t.deletePair item typ).2 ∧
      (t.deletePair item typ).2.degree = t.degree := by
    intro item typ
    by_cases he : t.toList = []
    · rw [deletePair_empty t item typ he]
      exact ⟨hT, rfl⟩
    · obtain ⟨t', heq, _, hT', hdeg, _⟩ := deletePair_spec t item typ hT he
      rw [heq]
      exact ⟨hT', hdeg⟩
  cases op with
  | ins p =>
    by_cases hp : p = nilPair
    · have h1 : t.replaceOrInsert p = none := by
        unfold PairTree.replaceOrInsert
        rw [if_pos hp]
      simp only [applyOp, h1]
      exact ⟨hT, trivial⟩
    · obtain ⟨t', heq, _, hT', hdeg, _⟩ := replaceOrInsert_spec t p hT hp
      simp only [applyOp, heq]
      exact ⟨hT', hdeg⟩
  | del p => exact hdel p .removePair
  | delMin => exact hdel nilPair .removeMin
  | delMax => exact hdel nilPair .removeMax

theorem TWF_build (d : Nat) (hd : 2 ≤ d) (ops : List Op) :
    TWF (build d ops) ∧ (build d ops).degree = d := by
  suffices h : ∀ t : PairTree, TWF t →
      TWF (ops.foldl applyOp t) ∧ (ops.foldl applyOp t).degree = t.degree by
    exact (h (newTree d) (TWF_new d hd))
  intro t
  induction ops generalizing t with
  | nil =>
    intro ht
    exact ⟨ht, rfl⟩
  | cons op ops ih =>
    intro ht
    obtain ⟨h1, h2⟩ := TWF_applyOp t op ht
    obtain ⟨h3, h4⟩ := ih (applyOp t op) h1
    exact ⟨h3, h4.trans h2⟩

/-- C1: for every tree built by a finite sequence of `ReplaceOrInsert`,
`Delete`, `DeleteMin` and `DeleteMax` calls on an initially empty tree of
degree `d ≥ 2`, the structural invariant holds: every node has zero
children or exactly `len(items)+1` children (`childOkB`), the full in-order
traversal is strictly increasing end-to-end (so the items within each node
are strictly increasing as well), and every non-root node of the tree holds
between `d-1` and `2*d-1` items (`boundedB`, recursively). -/
theorem claim_C1 (d : Nat) (hd : 2 ≤ d) (ops : List Op) (r : Node)
    (hr : (build d ops).root = some r) :
    r.childOkB = true ∧ sortedK r.inorder ∧
      ∀ c ∈ r.children, c.boundedB (d - 1) (2 * d - 1) = true := by
  obtain ⟨hT, hdeg⟩ := TWF_build d hd ops
  obtain ⟨hN, _, _⟩ := hT.2.2.2 r hr
  refine ⟨hN.1, hN.2.1, ?_⟩
  intro c hc
  have h1 := hN.2.2.1 c hc
  have h2 : (build d ops).minPairs = d - 1 := by
    simp [PairTree.minPairs, hdeg]
  have h3 : (build d ops).maxPairs = 2 * d - 1 := by
    simp [PairTree.maxPairs, hdeg]
    omega
  rw [h2, h3] at h1
  exact h1

/-- C1 witness: a singleton insert sequence on a degree-2 tree. -/
theorem claim_C1_witness :
    2 ≤ 2 ∧ (build 2 [Op.ins ⟨1, 1⟩]).root = some (Node.mk [⟨1, 1⟩] []) ∧
      ((Node.mk [(⟨1, 1⟩ : Pair)] []).childOkB = true ∧
        sortedK (Node.mk [(⟨1, 1⟩ : Pair)] []).inorder ∧
        ∀ c ∈ (Node.mk [(⟨1, 1⟩ : Pair)] []).children,
          c.boundedB (2 - 1) (2 * 2 - 1) = true) :=
  ⟨by decide, rfl,
    claim_C1 2 (by decide) [Op.ins ⟨1, 1⟩] (Node.mk [⟨1, 1⟩] []) rfl⟩

/-- C2: `ReplaceOrInsert` has upsert semantics: on a well-formed tree it
refines the sorted-list upsert `insKey` (so duplicate keys are never
created: the contents stay strictly key-sorted); when the key is already
present it returns the previously stored entry and leaves `Len()`
unchanged; when the key is absent it returns the sentinel and increments
`Len()` by exactly one. -/
theorem claim_C2 (t : PairTree) (item : Pair) (hT : TWF t)
    (hne : item ≠ nilPair) :
    ∃ t' : PairTree,
      t.replaceOrInsert item = some (lookupKey item t.toList, t') ∧
      t'.toList = insKey item t.toList ∧
      sortedK t'.toList ∧
      (hasKey item.key t.toList = true →
        lookupKey item t.toList ≠ nilPair ∧ t'.lenT = t.lenT) ∧
      (hasKey item.key t.toList = false →
        lookupKey item t.toList = nilPair ∧ t'.lenT = t.lenT + 1) := by
  obtain ⟨t', h1, h2, h3, h4, h5⟩ := replaceOrInsert_spec t item hT hne
  refine ⟨t', h1, h2, ?_, ?_, ?_⟩
  · rw [h2]
    exact sortedK_insKey (sortedK_toList hT)
  · intro hhk
    refine ⟨?_, ?_⟩
    · intro h
      exact hT.2.2.1 (h ▸ (lookupKey_mem hhk).1)
    · show t'.length = t.length
      rw [h5, if_pos hhk]
  · intro hhk
    refine ⟨lookupKey_eq_nil_of_not_has hhk, ?_⟩
    show t'.length = t.length + 1
    rw [h5, if_neg (by rw [hhk]; exact Bool.false_ne_true)]

/-- C2 witness: inserting into the empty degree-2 tree. -/
theorem claim_C2_witness :
    ∃ t' : PairTree,
      (newTree 2).replaceOrInsert ⟨1, 1⟩ =
        some (lookupKey ⟨1, 1⟩ (newTree 2).toList, t') ∧
      t'.toList = insKey ⟨1, 1⟩ (newTree 2).toList ∧
      sortedK t'.toList ∧
      (hasKey (1 : Nat) (newTree 2).toList = true →
        lookupKey ⟨1, 1⟩ (newTree 2).toList ≠ nilPair ∧
          t'.lenT = (newTree 2).lenT) ∧
      (hasKey (1 : Nat) (newTree 2).toList = false →
        lookupKey ⟨1, 1⟩ (newTree 2).toList = nilPair ∧
          t'.lenT = (newTree 2).lenT + 1) :=
  claim_C2 (newTree 2) ⟨1, 1⟩ (TWF_new 2 (by decide)) (by decide)

theorem getF_empty (fuel : Nat) (key : Pair) :
    Node.getF (fuel + 1) (Node.mk [] []) key lessP = nilPair := by
  simp [Node.getF, Items.find, findLoop]

theorem minF_empty (fuel : Nat) :
    Node.minF (fuel + 1) (Node.mk [] []) = nilPair := by
  simp [Node.minF]

theorem maxF_empty (fuel : Nat) :
    Node.maxF (fuel + 1) (Node.mk [] []) = nilPair := by
  simp [Node.maxF]

/-- C9: on a well-formed tree containing no items, `Get`, `Min`, `Max`,
`Delete`, `DeleteMin` and `DeleteMax` all return the absent sentinel (and
the modelled computations complete, i.e. nothing panics), for arbitrary
arguments to `Get` and `Delete`. -/
theorem claim_C9 (t : PairTree) (key item : Pair) (hT : TWF t)
    (he : t.toList = []) :
    t.get key = nilPair ∧ t.minT = nilPair ∧ t.maxT = nilPair ∧
    t.delete item = (nilPair, t) ∧ t.deleteMin = (nilPair, t) ∧
    t.deleteMax = (nilPair, t) := by
  have hleaf : ∀ r, t.root = some r → r = Node.mk [] [] := by
    intro r hr
    have hio : r.inorder = [] := by rw [← toList_some hr]; exact he
    have hits : r.items = [] := List.sublist_nil.1 (hio ▸ items_sublist_inorder r)
    have hch : r.children = [] := by
      rcases (hT.2.2.2 r hr).2.2 with h | h
      · exact h
      · rw [hits] at h
        simp at h
    cases r with
    | mk its chs =>
      simp only [Node.items_mk, Node.children_mk] at hits hch
      rw [hits, hch]
  have hh1 : (Node.mk [] [] : Node).height = 1 := by simp [height_mk]
  refine ⟨?_, ?_, ?_, deletePair_empty t item _ he,
    deletePair_empty t nilPair _ he, deletePair_empty t nilPair _ he⟩
  · cases hr : t.root with
    | none => simp [PairTree.get, hr]
    | some r =>
      simp only [PairTree.get, hr]
      rw [hleaf r hr, hh1]
      exact getF_empty 1 key
  · cases hr : t.root with
    | none => simp [PairTree.minT, hr]
    | some r =>
      simp only [PairTree.minT, hr]
      rw [hleaf r hr, hh1]
      exact minF_empty 1
  · cases hr : t.root with
    | none => simp [PairTree.maxT, hr]
    | some r =>
      simp only [PairTree.maxT, hr]
      rw [hleaf r hr, hh1]
      exact maxF_empty 1

/-- C9 witness: the empty degree-2 tree. -/
theorem claim_C9_witness :
    (newTree 2).get ⟨5, 0⟩ = nilPair ∧ (newTree 2).minT = nilPair ∧
    (newTree 2).maxT = nilPair ∧
    (newTree 2).delete ⟨7, 0⟩ = (nilPair, newTree 2) ∧
    (newTree 2).deleteMin = (nilPair, newTree 2) ∧
    (newTree 2).deleteMax = (nilPair, newTree 2) :=
  claim_C9 (newTree 2) ⟨5, 0⟩ ⟨7, 0⟩ (TWF_new 2 (by decide)) rfl

/-- C10: deleting a key with no equal stored item from a well-formed tree
returns the absent sentinel and leaves the observable state unchanged:
`Len()` and the in-order contents are identical before and after the
call. -/
theorem claim_C10 (t : PairTree) (item : Pair) (hT : TWF t)
    (habs : hasKey item.key t.toList = false) :
    (t.delete item).1 = nilPair ∧ (t.delete item).2.toList = t.toList ∧
    (t.delete item).2.lenT = t.lenT := by
  by_cases he : t.toList = []
  · have h1 : t.delete item = (nilPair, t) := deletePair_empty t item _ he
    rw [h1]
    exact ⟨rfl, rfl, rfl⟩
  · obtain ⟨t', heq, htl2, hT2, hdeg, hln⟩ :=
      deletePair_spec t item .removePair hT he
    have h3 : lookupKey item t.toList = nilPair :=
      lookupKey_eq_nil_of_not_has habs
    have h4 : t.delete item = ((remRes ToRemove.removePair item
        t.toList).1, t') := heq
    rw [h4]
    refine ⟨h3, ?_, ?_⟩
    · show t'.toList = t.toList
      rw [htl2]
      exact eraseKey_eq_self_of_not_has habs
    · show t'.length = t.length
      rw [hln, if_pos (show (remRes ToRemove.removePair item
        t.toList).1 = nilPair from h3)]

/-- C10 witness: deleting from the empty degree-2 tree. -/
theorem claim_C10_witness :
    ((newTree 2).delete ⟨1, 1⟩).1 = nilPair ∧
    ((newTree 2).delete ⟨1, 1⟩).2.toList = (newTree 2).toList ∧
    ((newTree 2).delete ⟨1, 1⟩).2.lenT = (newTree 2).lenT :=
  claim_C10 (newTree 2) ⟨1, 1⟩ (TWF_new 2 (by decide)) rfl


/-! ## Round-trip (`C5`) -/

theorem sortedK_key_inj {m : List Pair} (hs : sortedK m) :
    ∀ a ∈ m, ∀ b ∈ m, a.key = b.key → a = b := by
  rw [sortedK_iff_pairwise] at hs
  induction m with
  | nil =>
    intro a ha
    simp at ha
  | cons x xs ih =>
    rcases List.pairwise_cons.1 hs with ⟨hx, hxs⟩
    intro a ha b hb hk
    rcases List.mem_cons.1 ha with rfl | ha1
    · rcases List.mem_cons.1 hb with rfl | hb1
      · rfl
      · exact absurd hk (by have h1 : a.key < b.key := hx b hb1; omega)
    · rcases List.mem_cons.1 hb with rfl | hb1
      · exact absurd hk (by have h1 : b.key < a.key := hx a ha1; omega)
      · exact ih hxs a ha1 b hb1 hk

theorem lookupKey_of_mem {m : List Pair} {p : Pair} (hs : sortedK m)
    (hp : p ∈ m) : lookupKey p m = p := by
  have hk : hasKey p.key m = true := hasKey_iff.2 ⟨p, hp, rfl⟩
  obtain ⟨h1, h2⟩ := lookupKey_mem hk
  exact sortedK_key_inj hs _ h1 _ hp h2

theorem hasKey_perm {m m' : List Pair} (h : m.Perm m') (k : Nat) :
    hasKey k m = hasKey k m' := by
  cases h3 : hasKey k m' with
  | true =>
    obtain ⟨x, hx, hk⟩ := hasKey_iff.1 h3
    exact hasKey_iff.2 ⟨x, h.mem_iff.2 hx, hk⟩
  | false =>
    cases h1 : hasKey k m with
    | false => rfl
    | true =>
      obtain ⟨x, hx, hk⟩ := hasKey_iff.1 h1
      rw [← h3]
      exact (hasKey_iff.2 ⟨x, h.mem_iff.1 hx, hk⟩).symm

theorem insKey_perm {p : Pair} {m : List Pair}
    (h : hasKey p.key m = false) : (insKey p m).Perm (p :: m) := by
  induction m with
  | nil => simp [insKey]
  | cons x xs ih =>
    rw [hasKey_cons, Bool.or_eq_false_iff] at h
    obtain ⟨h1, h2⟩ := h
    by_cases hlt : p.key < x.key
    · rw [show insKey p (x :: xs) = p :: x :: xs from by
        rw [insKey, if_pos hlt]]
    · have hne : ¬ x.key = p.key := by
        intro hk
        rw [hk] at h1
        simp at h1
      rw [show insKey p (x :: xs) = x :: insKey p xs from by
        rw [insKey, if_neg hlt, if_neg hne]]
      exact ((ih h2).cons x).trans (List.Perm.swap p x xs)

theorem eraseKey_perm {p : Pair} {m : List Pair}
    (h : hasKey p.key m = true) :
    m.Perm (lookupKey p m :: eraseKey p m) := by
  induction m with
  | nil => simp [hasKey] at h
  | cons x xs ih =>
    by_cases hx : x.key = p.key
    · rw [show lookupKey p (x :: xs) = x from by
        rw [lookupKey, if_pos hx],
        show eraseKey p (x :: xs) = xs from by
        rw [eraseKey, if_pos hx]]
    · have h2 : hasKey p.key xs = true := by
        rw [hasKey_cons, Bool.or_eq_true] at h
        rcases h with h3 | h3
        · exact absurd (by simpa using h3) hx
        · exact h3
      rw [show lookupKey p (x :: xs) = lookupKey p xs from by
        rw [lookupKey, if_neg hx],
        show eraseKey p (x :: xs) = x :: eraseKey p xs from by
        rw [eraseKey, if_neg hx]]
      exact ((ih h2).cons x).trans (List.Perm.swap (lookupKey p xs) x _)

/-- Insert a list of items in order (`ReplaceOrInsert` per element; a
sentinel insert panics and is modelled as leaving the tree unchanged). -/
def insertList (t : PairTree) (l : List Pair) : PairTree :=
  l.foldl (fun acc p =>
    match acc.replaceOrInsert p with
    | none => acc
    | some r => r.2) t

/-- Delete a list of items in order, collecting what each `Delete`
returned. -/
def deleteList (t : PairTree) : List Pair → List Pair × PairTree
  | [] => ([], t)
  | p :: ps =>
    let r := t.delete p
    let rest := deleteList r.2 ps
    (r.1 :: rest.1, rest.2)

theorem insertList_spec (l : List Pair) : ∀ t : PairTree, TWF t →
    (∀ p ∈ l, p ≠ nilPair) →
    (∀ p ∈ l, hasKey p.key t.toList = false) →
    (l.map Pair.key).Nodup →
    TWF (insertList t l) ∧ (insertList t l).toList.Perm (l ++ t.toList) := by
  induction l with
  | nil =>
    intro t hT _ _ _
    exact ⟨hT, List.Perm.refl _⟩
  | cons p ps ih =>
    intro t hT hnil hfresh hnd
    have hp : p ≠ nilPair := hnil p (List.mem_cons_self p ps)
    obtain ⟨t', h1, h2, hT', hdeg, h5⟩ := replaceOrInsert_spec t p hT hp
    have hins : insertList t (p :: ps) = insertList t' ps := by
      simp only [insertList, List.foldl_cons, h1]
    have hperm1 : t'.toList.Perm (p :: t.toList) := by
      rw [h2]
      exact insKey_perm (hfresh p (List.mem_cons_self p ps))
    have hfresh' : ∀ q ∈ ps, hasKey q.key t'.toList = false := by
      intro q hq
      rw [hasKey_perm hperm1, hasKey_cons, Bool.or_eq_false_iff]
      refine ⟨?_, hfresh q (List.mem_cons_of_mem p hq)⟩
      have hne : p.key ≠ q.key := by
        have h6 := (List.nodup_cons.1 hnd).1
        intro hk
        exact h6 (hk ▸ List.mem_map_of_mem Pair.key hq)
      simpa using hne
    obtain ⟨hT2, hperm2⟩ := ih t' hT'
      (fun q hq => hnil q (List.mem_cons_of_mem p hq)) hfresh'
      (List.nodup_cons.1 hnd).2
    refine ⟨by rw [hins]; exact hT2, ?_⟩
    rw [hins]
    refine hperm2.trans ((List.Perm.append_left ps hperm1).trans ?_)
    exact List.perm_middle

theorem deleteList_spec (l : List Pair) : ∀ t : PairTree, TWF t →
    t.toList.Perm l →
    (deleteList t l).1 = l ∧ (deleteList t l).2.toList = [] ∧
      TWF (deleteList t l).2 := by
  induction l with
  | nil =>
    intro t hT hperm
    have h1 : t.toList = [] := List.perm_nil.1 hperm
    exact ⟨rfl, h1, hT⟩
  | cons p ps ih =>
    intro t hT hperm
    have hpm : p ∈ t.toList := hperm.mem_iff.2 (List.mem_cons_self p ps)
    have hne : t.toList ≠ [] := by
      intro h
      rw [h] at hpm
      exact absurd hpm (List.not_mem_nil p)
    obtain ⟨t', h1, h2, hT', hdeg, h5⟩ :=
      deletePair_spec t p .removePair hT hne
    have hlk : lookupKey p t.toList = p :=
      lookupKey_of_mem (sortedK_toList hT) hpm
    have hhk : hasKey p.key t.toList = true :=
      hasKey_iff.2 ⟨p, hpm, rfl⟩
    have hres1 : (remRes ToRemove.removePair p t.toList).1 = p := hlk
    have hperm2 : t'.toList.Perm ps := by
      have h6 : t.toList.Perm (p :: eraseKey p t.toList) := by
        have h7 := eraseKey_perm hhk
        rw [hlk] at h7
        exact h7
      have h8 : (p :: eraseKey p t.toList).Perm (p :: ps) :=
        (h6.symm.trans hperm)
      rw [h2]
      exact (h8.cons_inv)
    obtain ⟨h9, h10, h11⟩ := ih t' hT' hperm2
    have hstep : deleteList t (p :: ps) =
        ((t.delete p).1 :: (deleteList (t.delete p).2 ps).1,
          (deleteList (t.delete p).2 ps).2) := rfl
    have hdp : t.delete p = (p, t') := by
      rw [show t.delete p = t.deletePair p ToRemove.removePair from rfl,
        h1, hres1]
    rw [hstep, hdp]
    exact ⟨by rw [h9], h10, h11⟩

/-- C5: inserting a finite sequence of pairwise-distinct non-sentinel
items into an empty tree and then calling `Delete` once per item returns
every item exactly once (each `Delete` returns the matching stored item)
and leaves `Len() = 0` and a tree with no items. -/
theorem claim_C5 (d : Nat) (hd : 2 ≤ d) (l : List Pair)
    (hnil : ∀ p ∈ l, p ≠ nilPair) (hkeys : (l.map Pair.key).Nodup) :
    (deleteList (insertList (newTree d) l) l).1 = l ∧
    (deleteList (insertList (newTree d) l) l).2.lenT = 0 ∧
    (deleteList (insertList (newTree d) l) l).2.toList = [] := by
  obtain ⟨hT1, hperm1⟩ := insertList_spec l (newTree d) (TWF_new d hd) hnil
    (by intro p hp; rfl) hkeys
  have hperm2 : (insertList (newTree d) l).toList.Perm l := by
    simpa [PairTree.toList, newTree] using hperm1
  obtain ⟨h2, h3, h4⟩ := deleteList_spec l (insertList (newTree d) l)
    hT1 hperm2
  refine ⟨h2, ?_, h3⟩
  show (deleteList (insertList (newTree d) l) l).2.length = 0
  rw [h4.2.1, h3]
  rfl

/-- C5 witness: a two-element round trip on a degree-2 tree. -/
theorem claim_C5_witness :
    (deleteList (insertList (newTree 2) [⟨1, 10⟩, ⟨2, 20⟩])
        [⟨1, 10⟩, ⟨2, 20⟩]).1 = [⟨1, 10⟩, ⟨2, 20⟩] ∧
    (deleteList (insertList (newTree 2) [⟨1, 10⟩, ⟨2, 20⟩])
        [⟨1, 10⟩, ⟨2, 20⟩]).2.lenT = 0 ∧
    (deleteList (insertList (newTree 2) [⟨1, 10⟩, ⟨2, 20⟩])
        [⟨1, 10⟩, ⟨2, 20⟩]).2.toList = [] :=
  claim_C5 2 (by decide) [⟨1, 10⟩, ⟨2, 20⟩]
    (by intro p hp; rcases List.mem_cons.1 hp with rfl | hp1; · decide
        · rcases List.mem_cons.1 hp1 with rfl | hp2; · decide
          · simp at hp2)
    (by decide)

end Pairtree
